import Mathlib

/-!
Verification of the grid-pathfinding core of the BreachPath search simulator.

The development shallowly embeds the Python source (search_simulator.py):
pure data (NodeState, Node, Grid) becomes Lean structures, mutating methods
become functional updates returning a new Grid, generator-based solvers become
fuel-indexed step functions producing the list of yielded snapshots.
Machine floats appear only as the literal step costs 1.0 and 1.414, which we
represent exactly as rationals; float('inf') is represented as the top element
of WithTop Rat.  Python set iteration order in yielded snapshots is modelled
as insertion order; no claim below depends on the iteration order of a set.
-/

namespace SearchSim

/-- Enumeration of possible node states in the grid (class NodeState). -/
inductive NodeState where
  | empty
  | wall
  | start
  | target
  | frontier
  | visited
  | path
deriving DecidableEq, Repr

/-- A cell position (row, col).  Python uses plain int tuples. -/
abbrev Cell := Int × Int

/-- One cell of the search grid (class Node).  The Python Node stores a parent
reference to another Node; since Node equality and hashing are by position, we
store the parent as coordinates.  cost defaults to float('inf'), modelled as
the top element. -/
structure Node where
  row : Int
  col : Int
  state : NodeState := NodeState.empty
  parent : Option Cell := none
  cost : WithTop ℚ := ⊤
  depth : Nat := 0
deriving DecidableEq

/-- Node.get_pos. -/
def Node.get_pos (n : Node) : Cell := (n.row, n.col)

/-- Node.reset_search_state: clear parent, cost, depth and turn transient
display states (frontier, visited, path) back to empty, keeping walls and
endpoint markers. -/
def Node.reset_search_state (n : Node) : Node :=
  let n' : Node := { n with parent := none, cost := ⊤, depth := 0 }
  if n'.state = NodeState.frontier ∨ n'.state = NodeState.visited ∨
      n'.state = NodeState.path then
    { n' with state := NodeState.empty }
  else
    n'

/-- The grid of nodes (class Grid).  Rendering-only fields (node_size,
sidebar_x, window_height) are omitted; they never influence the model. -/
structure Grid where
  rows : Nat
  cols : Nat
  grid : List (List Node)
  start_pos : Cell
  target_pos : Cell
deriving DecidableEq

/-- Functional update of one element of a list, used to model in-place
mutation of one Node of the grid. -/
def listUpdate {α : Type} (l : List α) (i : Nat) (f : α → α) : List α :=
  match l, i with
  | [], _ => []
  | a :: t, 0 => f a :: t
  | a :: t, i + 1 => a :: listUpdate t i f

/-- Grid.get_node: safely retrieve the node at (row, col), or none when the
position is out of bounds. -/
def Grid.get_node (g : Grid) (row col : Int) : Option Node :=
  if 0 ≤ row ∧ row < (g.rows : Int) ∧ 0 ≤ col ∧ col < (g.cols : Int) then
    (g.grid.get? row.toNat).bind fun r => r.get? col.toNat
  else
    none

/-- Apply f to the node stored at in-bounds position (row, col): the
counterpart of a Python attribute assignment on self.grid[row][col]. -/
def Grid.updNode (g : Grid) (row col : Int) (f : Node → Node) : Grid :=
  { g with grid := listUpdate g.grid row.toNat (fun r => listUpdate r col.toNat f) }

/-- Grid.set_start.  Mirrors the source: out of bounds returns failure with no
mutation; otherwise the old start cell is cleared, start_pos is reassigned,
and the new cell gets the START state unless it currently shows TARGET. -/
def Grid.set_start (g : Grid) (row col : Int) : Bool × Grid :=
  if ¬(0 ≤ row ∧ row < (g.rows : Int) ∧ 0 ≤ col ∧ col < (g.cols : Int)) then
    (false, g)
  else
    let g1 : Grid :=
      match g.get_node g.start_pos.1 g.start_pos.2 with
      | some _ => g.updNode g.start_pos.1 g.start_pos.2
          (fun n => { n with state := NodeState.empty })
      | none => g
    let g2 : Grid := { g1 with start_pos := (row, col) }
    let g3 : Grid := g2.updNode row col fun n =>
      if n.state ≠ NodeState.target then { n with state := NodeState.start } else n
    (true, g3)

/-- Grid.set_target, symmetric to set_start. -/
def Grid.set_target (g : Grid) (row col : Int) : Bool × Grid :=
  if ¬(0 ≤ row ∧ row < (g.rows : Int) ∧ 0 ≤ col ∧ col < (g.cols : Int)) then
    (false, g)
  else
    let g1 : Grid :=
      match g.get_node g.target_pos.1 g.target_pos.2 with
      | some _ => g.updNode g.target_pos.1 g.target_pos.2
          (fun n => { n with state := NodeState.empty })
      | none => g
    let g2 : Grid := { g1 with target_pos := (row, col) }
    let g3 : Grid := g2.updNode row col fun n =>
      if n.state ≠ NodeState.start then { n with state := NodeState.target } else n
    (true, g3)

/-- Grid.toggle_wall. -/
def Grid.toggle_wall (g : Grid) (row col : Int) (place_wall : Bool) : Bool × Grid :=
  if ¬(0 ≤ row ∧ row < (g.rows : Int) ∧ 0 ≤ col ∧ col < (g.cols : Int)) then
    (false, g)
  else
    match g.get_node row col with
    | none => (false, g)
    | some node =>
      if node.state = NodeState.start ∨ node.state = NodeState.target then
        (false, g)
      else
        (true, g.updNode row col fun n =>
          { n with state := if place_wall then NodeState.wall else NodeState.empty })

/-- Grid.reset_search: reset every node's search state, then restore the start
and target markers by re-running set_start and set_target at the stored
positions. -/
def Grid.reset_search (g : Grid) : Grid :=
  let g1 : Grid := { g with grid := g.grid.map (fun r => r.map Node.reset_search_state) }
  let g2 : Grid := (g1.set_start g.start_pos.1 g.start_pos.2).2
  (g2.set_target g.target_pos.1 g.target_pos.2).2

/-- The six expansion directions, in source order:
Up, Right, Down, Down-Right, Left, Up-Left. -/
def directions : List (Int × Int) :=
  [(-1, 0), (0, 1), (1, 0), (1, 1), (0, -1), (-1, -1)]

/-- Grid.get_neighbors_clockwise_diagonal: collect the in-bounds, non-wall
neighbors of a node in the fixed direction order. -/
def Grid.get_neighbors_clockwise_diagonal (g : Grid) (node : Node) : List Node :=
  directions.foldl
    (fun acc d =>
      match g.get_node (node.row + d.1) (node.col + d.2) with
      | some nb => if nb.state ≠ NodeState.wall then acc ++ [nb] else acc
      | none => acc)
    []

/-- Neighbor positions of a cell: the solvers only ever use the popped node's
row and col to expand, and read nothing else from the node value, so the
position-level view is exact. -/
def Grid.neighborsPos (g : Grid) (c : Cell) : List Cell :=
  directions.foldl
    (fun acc d =>
      match g.get_node (c.1 + d.1) (c.2 + d.2) with
      | some nb => if nb.state ≠ NodeState.wall then acc ++ [nb.get_pos] else acc
      | none => acc)
    []

/-- Construction of a fresh rows x cols grid (Grid.__init__ together with
_initialize_grid): all nodes empty, start at (rows/4, cols/4), target at
(rows/4, 3*cols/4), then set_start and set_target are invoked. -/
def Grid.init (rows cols : Nat) : Grid :=
  let g0 : Grid :=
    { rows := rows
      cols := cols
      grid := (List.range rows).map fun r =>
        (List.range cols).map fun c =>
          { row := (r : Int), col := (c : Int) }
      start_pos := ((rows / 4 : Nat), (cols / 4 : Nat))
      target_pos := ((rows / 4 : Nat), (3 * cols / 4 : Nat)) }
  let g1 := (g0.set_start g0.start_pos.1 g0.start_pos.2).2
  (g1.set_target g1.target_pos.1 g1.target_pos.2).2

/-!
Solver embedding.  Each Python solver is a generator; one loop iteration pops
one frontier element and yields at most one snapshot (the continue branch on
an already-visited pop yields nothing).  We embed each solver as a step
function on an explicit state plus a fuel-indexed driver returning the list
of yielded snapshots, or none when the fuel is insufficient.  Node.parent,
Node.cost and Node.depth assignments become association lists keyed by cell,
where the most recent assignment is found first.
-/

/-- One yielded visualization state: (frontier, visited, path).  path = none
while searching, some [] on exhaustion, some p on success. -/
structure Snapshot where
  frontier : List Cell
  visited : List Cell
  path : Option (List Cell)
deriving DecidableEq, Repr

/-- Latest binding of a cell in an association list (newest bindings are
consed at the front, like repeated attribute assignment). -/
def lookupCell {α : Type} (m : List (Cell × α)) (c : Cell) : Option α :=
  (m.find? fun p => p.1 = c).map (·.2)

/-- Solver.reconstruct_path: follow parent links back from a node, then
reverse.  The source walks actual object references; the fuel argument makes
the recursion structural and is always given as at least the number of parent
bindings plus one, which covers every acyclic chain. -/
def reconstructAux (par : List (Cell × Cell)) : Nat → Cell → List Cell
  | 0, _ => []
  | fuel + 1, c =>
    match lookupCell par c with
    | none => [c]
    | some p => c :: reconstructAux par fuel p

/-- Path from start to the given node, via the parent association list. -/
def reconstruct_path (par : List (Cell × Cell)) (c : Cell) : List Cell :=
  (reconstructAux par (par.length + 1) c).reverse

/-- Outcome of one solver loop iteration: yield a snapshot and continue, skip
(the pop hit an already-visited node: no snapshot), or terminate with the
final snapshot. -/
inductive StepOut (σ : Type) where
  | yieldSnap (s : σ) (snap : Snapshot) : StepOut σ
  | skip (s : σ) : StepOut σ
  | done (snap : Snapshot) : StepOut σ

/-- BFS working state: FIFO frontier (head is popped first), insertion-ordered
visited set, parent bindings. -/
structure BFSState where
  frontier : List Cell
  visited : List Cell
  parent : List (Cell × Cell)
deriving DecidableEq, Repr

/-- Neighbor expansion common to BFS (and shared by the FIFO solvers): push
every neighbor that is in neither the visited set nor the frontier, recording
its parent; membership is rechecked as the frontier grows. -/
def bfsExpand (g : Grid) (cur : Cell) (s : BFSState) : BFSState :=
  (g.neighborsPos cur).foldl
    (fun s nb =>
      if nb ∉ s.visited ∧ nb ∉ s.frontier then
        { s with parent := (nb, cur) :: s.parent, frontier := s.frontier ++ [nb] }
      else s)
    s

/-- One iteration of the BFS while loop (BFSSolver.solve). -/
def bfsStep (g : Grid) (s : BFSState) : StepOut BFSState :=
  match s.frontier with
  | [] => StepOut.done ⟨[], s.visited, some []⟩
  | current :: rest =>
    if current ∈ s.visited then
      StepOut.skip { s with frontier := rest }
    else
      let visited' := s.visited ++ [current]
      if current = g.target_pos then
        StepOut.done ⟨rest, visited', some (reconstruct_path s.parent current)⟩
      else
        let s' := bfsExpand g current { frontier := rest, visited := visited', parent := s.parent }
        StepOut.yieldSnap s' ⟨s'.frontier, s'.visited, none⟩

/-- Drive a solver step function until termination, collecting yielded
snapshots; none when fuel runs out first. -/
def runSolver {σ : Type} (step : σ → StepOut σ) : Nat → σ → Option (List Snapshot)
  | 0, _ => none
  | fuel + 1, s =>
    match step s with
    | StepOut.done snap => some [snap]
    | StepOut.skip s' => runSolver step fuel s'
    | StepOut.yieldSnap s' snap => (runSolver step fuel s').map (snap :: ·)

/-- Initial BFS state: the frontier holds the start cell, nothing visited,
start's parent cleared. -/
def bfsInit (g : Grid) : BFSState := ⟨[g.start_pos], [], []⟩

/-- BFSSolver.solve: the guard mirrors the source, which returns without
yielding when the start or target position is out of bounds. -/
def bfsSolve (g : Grid) (fuel : Nat) : Option (List Snapshot) :=
  match g.get_node g.start_pos.1 g.start_pos.2, g.get_node g.target_pos.1 g.target_pos.2 with
  | some _, some _ => runSolver (bfsStep g) fuel (bfsInit g)
  | _, _ => some []

/-- Terminal snapshot of a finished run. -/
def terminalSnap (r : Option (List Snapshot)) : Option Snapshot :=
  r.bind fun l => l.getLast?

/-- The grid of the end-to-end scenario of the spec: a fresh 5 x 5 grid with
no walls, start moved to (0,0) and target moved to (4,4). -/
def c1Grid : Grid := (((Grid.init 5 5).set_start 0 0).2.set_target 4 4).2

/-- Contribution of one candidate position to the neighbor list: the node
there when it exists and is not a wall, nothing otherwise. -/
def openNb (g : Grid) (row col : Int) : List Node :=
  match g.get_node row col with
  | some nb => if nb.state ≠ NodeState.wall then [nb] else []
  | none => []

/-- A concrete grid with leftover search state on cell (0,0), used to
instantiate the reset contract. -/
def gWitness : Grid :=
  (Grid.init 5 5).updNode 0 0 fun n =>
    { n with
      state := NodeState.visited
      parent := some ((1 : Int), (1 : Int))
      cost := ((5 : ℚ) : WithTop ℚ)
      depth := 3 }

/-- The step-history buffer (SearchSimulator.state_history together with
current_history_index and max_history_size).  The snapshot payload type is
abstract; the simulator stores per-cell state matrices. -/
structure StepHistory (α : Type) where
  buf : List α
  cursor : Int
  cap : Nat
deriving DecidableEq, Repr

/-- Initial history: empty buffer, cursor -1 (as in the source). -/
def hInit (α : Type) (cap : Nat) : StepHistory α := ⟨[], -1, cap⟩

/-- _save_current_state_to_history: when at capacity, evict the oldest entry
(pop(0)) and decrement the cursor, then append and increment the cursor. -/
def hRecord {α : Type} (h : StepHistory α) (snap : α) : StepHistory α :=
  let h1 : StepHistory α :=
    if h.buf.length ≥ h.cap then
      { h with buf := h.buf.drop 1, cursor := h.cursor - 1 }
    else h
  { h1 with buf := h1.buf ++ [snap], cursor := h1.cursor + 1 }

/-- The cursor movement of _on_rewind: step back one position unless already
at position 0 (or the buffer is untouched). -/
def hRewind {α : Type} (h : StepHistory α) : StepHistory α :=
  if 0 < h.cursor then { h with cursor := h.cursor - 1 } else h

/-- States of the buffer reachable through the driver's operations. -/
inductive HReach (α : Type) (cap : Nat) : StepHistory α → Prop where
  | init : HReach α cap (hInit α cap)
  | saved (h : StepHistory α) (s : α) : HReach α cap h → HReach α cap (hRecord h s)
  | rewound (h : StepHistory α) : HReach α cap h → HReach α cap (hRewind h)

/-- Indexed map, used to model the enumerate loops of the restore routine. -/
def mapIdxFrom {α β : Type} (f : Nat → α → β) : Nat → List α → List β
  | _, [] => []
  | i, a :: t => f i a :: mapIdxFrom f (i + 1) t

/-- Per-cell effect of _restore_state_from_history: cells currently shown as
START, TARGET or WALL are skipped; every other cell takes the recorded state
(kept unchanged if the snapshot holds no entry for it). -/
def restoreCell (snap : List (List NodeState)) (ri ci : Nat) (node : Node) : Node :=
  if node.state = NodeState.start ∨ node.state = NodeState.target ∨
      node.state = NodeState.wall then
    node
  else
    match (snap.get? ri).bind (fun sr => sr.get? ci) with
    | some st => { node with state := st }
    | none => node

/-- _restore_state_from_history applied to the whole grid. -/
def restoreGrid (g : Grid) (snap : List (List NodeState)) : Grid :=
  { g with grid := (mapIdxFrom (fun ri row =>
      mapIdxFrom (fun ci node => restoreCell snap ri ci node) 0 row) 0 g.grid) }

/-- The snapshot written by _save_current_state_to_history: the matrix of
current node states. -/
def recordedStates (g : Grid) : List (List NodeState) :=
  g.grid.map fun row => row.map fun n => n.state

/-- The part of the simulator state involved in rewinding: the displayed
grid, the recorded history and the history cursor. -/
structure SimHist where
  g : Grid
  hist : List (List (List NodeState))
  idx : Int
deriving DecidableEq

/-- _on_rewind: when the cursor is past position 0, step it back and restore
the snapshot there (the restore itself is guarded by a validity check on the
index). -/
def simRewind (s : SimHist) : SimHist :=
  if 0 < s.idx then
    let idx' := s.idx - 1
    if 0 ≤ idx' ∧ idx' < (s.hist.length : Int) then
      match s.hist.get? idx'.toNat with
      | some snap => { s with idx := idx', g := restoreGrid s.g snap }
      | none => { s with idx := idx' }
    else
      { s with idx := idx' }
  else s

/-- Agreement of a snapshot with a grid on the wall, start and target cells:
what holds of every snapshot recorded from the same run, during which the
topology is fixed. -/
def wstCompat (g : Grid) (snap : List (List NodeState)) : Prop :=
  ∀ (r c : Int) (n : Node), g.get_node r c = some n →
    ∀ st, (snap.get? r.toNat).bind (fun sr => sr.get? c.toNat) = some st →
      (st = NodeState.wall ↔ n.state = NodeState.wall) ∧
      (st = NodeState.start ↔ n.state = NodeState.start) ∧
      (st = NodeState.target ↔ n.state = NodeState.target)

/-- Concrete 3 x 3 grid with a wall at (1,1) for the rewind witness. -/
def c10Grid : Grid := ((Grid.init 3 3).toggle_wall 1 1 true).2

/-- A two-entry history recorded from c10Grid, cursor at 1. -/
def c10Sim : SimHist :=
  ⟨c10Grid, [recordedStates c10Grid, recordedStates c10Grid], 1⟩

/-- Working state of BidirectionalSolver.solve: two FIFO frontiers, two
visited sets (cells enter them when pushed), and the shared parent
attribute. -/
structure BidiState where
  fs : List Cell
  ft : List Cell
  vs : List Cell
  vt : List Cell
  parent : List (Cell × Cell)
deriving DecidableEq, Repr

/-- One side's expansion loop: push every neighbor not yet in this side's
visited set (recording parent, marking visited, appending to this side's
frontier), stopping early with the meeting point as soon as a pushed
neighbor already belongs to the other side's visited set. -/
def bidiExpand (cur : Cell) (nbs : List Cell) (myv otherv myf : List Cell)
    (par : List (Cell × Cell)) :
    List Cell × List Cell × List (Cell × Cell) × Option Cell :=
  match nbs with
  | [] => (myv, myf, par, none)
  | nb :: rest =>
    if nb ∉ myv then
      let par' := (nb, cur) :: par
      let myv' := myv ++ [nb]
      let myf' := myf ++ [nb]
      if nb ∈ otherv then (myv', myf', par', some nb)
      else bidiExpand cur rest myv' otherv myf' par'
    else bidiExpand cur rest myv otherv myf par

/-- The start-to-meeting half of _reconstruct_bidirectional_path: walk parent
links from the meeting point until the start (or a parentless node) is
reached, collecting cells. -/
def bidiPath1Aux (par : List (Cell × Cell)) (st : Cell) : Nat → Cell → List Cell
  | 0, _ => []
  | fuel + 1, cur =>
    if cur = st then []
    else
      match lookupCell par cur with
      | none => [cur]
      | some p => cur :: bidiPath1Aux par st fuel p

/-- _reconstruct_bidirectional_path.  The source's second half (meeting point
to target) scans every node for a _bidirectional_parent attribute that no
code ever sets, so its loop exits immediately with nothing found and only
the start-side half is returned. -/
def bidiReconstruct (par : List (Cell × Cell)) (meeting st : Cell) : List Cell :=
  ((bidiPath1Aux par st (par.length + 1) meeting) ++ [st]).reverse

/-- One iteration of the bidirectional while loop: the loop runs only while
both frontiers are non-empty; otherwise the terminal snapshot carries the
empty path.  Expansion happens from the start side first, then from the
target side, each with its meeting check. -/
def bidiStep (g : Grid) (s : BidiState) : StepOut BidiState :=
  match s.fs, s.ft with
  | [], _ => StepOut.done ⟨s.fs ++ s.ft, s.vs ++ s.vt, some []⟩
  | _ :: _, [] => StepOut.done ⟨s.fs ++ s.ft, s.vs ++ s.vt, some []⟩
  | cs :: fsrest, ct :: ftrest =>
    match bidiExpand cs (g.neighborsPos cs) s.vs s.vt fsrest s.parent with
    | (vs', fs', par', some m) =>
      StepOut.done ⟨fs' ++ s.ft, vs' ++ s.vt, some (bidiReconstruct par' m g.start_pos)⟩
    | (vs', fs', par', none) =>
      match bidiExpand ct (g.neighborsPos ct) s.vt vs' ftrest par' with
      | (vt', ft', par'', some m) =>
        StepOut.done ⟨fs' ++ ft', vs' ++ vt', some (bidiReconstruct par'' m g.start_pos)⟩
      | (vt', ft', par'', none) =>
        StepOut.yieldSnap ⟨fs', ft', vs', vt', par''⟩ ⟨fs' ++ ft', vs' ++ vt', none⟩

/-- Initial bidirectional state: each side's frontier and visited set holds
its endpoint, both parents cleared. -/
def bidiInit (g : Grid) : BidiState :=
  ⟨[g.start_pos], [g.target_pos], [g.start_pos], [g.target_pos], []⟩

/-- BidirectionalSolver.solve. -/
def bidiSolve (g : Grid) (fuel : Nat) : Option (List Snapshot) :=
  match g.get_node g.start_pos.1 g.start_pos.2,
      g.get_node g.target_pos.1 g.target_pos.2 with
  | some _, some _ => runSolver (bidiStep g) fuel (bidiInit g)
  | _, _ => some []

/-- Working state of UCSSolver.solve: the heap of (cost, counter, cell)
entries, the membership set frontier_set, the visited set, and the parent and
cost node attributes.  Costs are exact rationals; the source's literal step
costs 1.0 and 1.414 are representable exactly. -/
structure UCSState where
  counter : Nat
  frontier : List (ℚ × Nat × Cell)
  frontier_set : List Cell
  visited : List Cell
  parent : List (Cell × Cell)
  cost : List (Cell × ℚ)
deriving DecidableEq, Repr

/-- The minimum of the heap under the lexicographic (cost, counter) order
used by heapq on (cost, counter, node) tuples; the node component is never
compared because counters are unique. -/
def heapMin : List (ℚ × Nat × Cell) → Option (ℚ × Nat × Cell)
  | [] => none
  | e :: rest =>
    match heapMin rest with
    | none => some e
    | some m => if m.1 < e.1 ∨ (m.1 = e.1 ∧ m.2.1 < e.2.1) then some m else some e

/-- heapq.heappop: remove and return the minimal entry. -/
def heapPop (h : List (ℚ × Nat × Cell)) :
    Option ((ℚ × Nat × Cell) × List (ℚ × Nat × Cell)) :=
  match heapMin h with
  | none => none
  | some m => some (m, h.erase m)

/-- The cost attribute of a cell, default +infinity. -/
def lookupCost (m : List (Cell × ℚ)) (c : Cell) : WithTop ℚ :=
  match lookupCell m c with
  | some q => (q : WithTop ℚ)
  | none => ⊤

/-- UCS neighbor expansion: orthogonal steps cost 1.0 and the single diagonal
costs the literal 1.414; new cells are pushed with their cost and parent
recorded, and a strictly cheaper route to a cell still in frontier_set is
re-pushed (lazy decrease-key, duplicates allowed). -/
def ucsExpand (g : Grid) (cur : Cell) (curCost : ℚ) :
    List Cell → UCSState → UCSState
  | [], s => s
  | nb :: rest, s =>
    let step : ℚ :=
      if (nb.1 - cur.1).natAbs = 1 ∧ (nb.2 - cur.2).natAbs = 1 then 1.414 else 1
    let newCost := curCost + step
    if nb ∉ s.visited ∧ nb ∉ s.frontier_set then
      ucsExpand g cur curCost rest
        { s with
          cost := (nb, newCost) :: s.cost
          parent := (nb, cur) :: s.parent
          counter := s.counter + 1
          frontier := (newCost, s.counter + 1, nb) :: s.frontier
          frontier_set := s.frontier_set ++ [nb] }
    else if nb ∈ s.frontier_set ∧ (newCost : WithTop ℚ) < lookupCost s.cost nb then
      ucsExpand g cur curCost rest
        { s with
          cost := (nb, newCost) :: s.cost
          parent := (nb, cur) :: s.parent
          counter := s.counter + 1
          frontier := (newCost, s.counter + 1, nb) :: s.frontier }
    else
      ucsExpand g cur curCost rest s

/-- One iteration of the UCS while loop. -/
def ucsStep (g : Grid) (s : UCSState) : StepOut UCSState :=
  match heapPop s.frontier with
  | none => StepOut.done ⟨s.frontier_set, s.visited, some []⟩
  | some ((cst, _, cell), rest) =>
    let fset := s.frontier_set.erase cell
    if cell ∈ s.visited then
      StepOut.skip { s with frontier := rest, frontier_set := fset }
    else
      let visited' := s.visited ++ [cell]
      if cell = g.target_pos then
        StepOut.done ⟨fset, visited', some (reconstruct_path s.parent cell)⟩
      else
        let s' := ucsExpand g cell cst (g.neighborsPos cell)
          { s with frontier := rest, frontier_set := fset, visited := visited' }
        StepOut.yieldSnap s' ⟨s'.frontier_set, s'.visited, none⟩

/-- Initial UCS state: the start cell in the heap at cost 0 with counter 0,
its cost attribute 0 and parent cleared. -/
def ucsInit (g : Grid) : UCSState :=
  { counter := 0
    frontier := [(0, 0, g.start_pos)]
    frontier_set := [g.start_pos]
    visited := []
    parent := []
    cost := [(g.start_pos, 0)] }

/-- UCSSolver.solve. -/
def ucsSolve (g : Grid) (fuel : Nat) : Option (List Snapshot) :=
  match g.get_node g.start_pos.1 g.start_pos.2,
      g.get_node g.target_pos.1 g.target_pos.2 with
  | some _, some _ => runSolver (ucsStep g) fuel (ucsInit g)
  | _, _ => some []

/-- A cell is open when it is in bounds and not a wall: exactly the cells a
search can ever push (plus they are the cells neighbor expansion returns). -/
def openCell (g : Grid) (c : Cell) : Bool :=
  match g.get_node c.1 c.2 with
  | some n => decide (n.state ≠ NodeState.wall)
  | none => false

/-- The list of open cells of a grid, row major. -/
def openCells (g : Grid) : List Cell :=
  (List.range g.rows).bind fun r =>
    (List.range g.cols).filterMap fun c =>
      if openCell g (Int.ofNat r, Int.ofNat c) then some (Int.ofNat r, Int.ofNat c)
      else none

/-- Position-level contribution of one candidate neighbor position. -/
def openNbPos (g : Grid) (row col : Int) : List Cell :=
  match g.get_node row col with
  | some nb => if nb.state ≠ NodeState.wall then [nb.get_pos] else []
  | none => []

/-- A grid is coherent when every stored node carries its own indices as
row and col, as every grid built by the source does. -/
def coherent (g : Grid) : Prop :=
  ∀ (r c : Int) (n : Node), g.get_node r c = some n → n.get_pos = (r, c)

/-- Bounded, decidable check implying coherence. -/
def coherentB (g : Grid) : Bool :=
  (List.range g.rows).all fun r =>
    (List.range g.cols).all fun c =>
      match g.get_node (Int.ofNat r) (Int.ofNat c) with
      | some n => decide (n.get_pos = (Int.ofNat r, Int.ofNat c))
      | none => true

/-- Invariant carried by the BFS bound proof: every frontier cell is open,
the visited list is duplicate-free, open, and does not contain the target. -/
def bfsInv (g : Grid) (s : BFSState) : Prop :=
  (∀ c ∈ s.frontier, openCell g c = true) ∧ s.visited.Nodup ∧
    g.target_pos ∉ s.visited ∧ ∀ c ∈ s.visited, c ∈ openCells g

/-- Termination measure for the BFS loop: every iteration decreases it. -/
def bfsMeasure (g : Grid) (s : BFSState) : Nat :=
  7 * ((openCells g).length + 1 - s.visited.length) + s.frontier.length

/-- DFS neighbor expansion (DFSSolver.solve): the neighbor list is iterated
in reversed order, each fresh cell pushed onto the stack top.  The Lean list
holds the Python stack read top to bottom, so a Python append is a cons. -/
def dfsExpand (g : Grid) (cur : Cell) (s : BFSState) : BFSState :=
  ((g.neighborsPos cur).reverse).foldl
    (fun s nb =>
      if nb ∉ s.visited ∧ nb ∉ s.frontier then
        { s with parent := (nb, cur) :: s.parent, frontier := nb :: s.frontier }
      else s)
    s

/-- One iteration of the DFS while loop (DFSSolver.solve); frontier.pop()
takes the stack top, the head in this representation. -/
def dfsStep (g : Grid) (s : BFSState) : StepOut BFSState :=
  match s.frontier with
  | [] => StepOut.done ⟨[], s.visited, some []⟩
  | current :: rest =>
    if current ∈ s.visited then
      StepOut.skip { s with frontier := rest }
    else
      let visited' := s.visited ++ [current]
      if current = g.target_pos then
        StepOut.done ⟨rest, visited', some (reconstruct_path s.parent current)⟩
      else
        let s' := dfsExpand g current { frontier := rest, visited := visited', parent := s.parent }
        StepOut.yieldSnap s' ⟨s'.frontier, s'.visited, none⟩

/-- DFSSolver.solve: same initial state as BFS (stack [start]). -/
def dfsSolve (g : Grid) (fuel : Nat) : Option (List Snapshot) :=
  match g.get_node g.start_pos.1 g.start_pos.2, g.get_node g.target_pos.1 g.target_pos.2 with
  | some _, some _ => runSolver (dfsStep g) fuel (bfsInit g)
  | _, _ => some []

/-- Working state of DLSSolver.solve: stack frontier (top first), visited
set, parent bindings and the per-node depth attribute. -/
structure DLSState where
  frontier : List Cell
  visited : List Cell
  parent : List (Cell × Cell)
  depth : List (Cell × Nat)
deriving DecidableEq, Repr

/-- DLS neighbor expansion: the reversed stack push of DFS, additionally
recording each pushed neighbor's depth as one more than the popped node's
depth d (current.depth is constant during the source loop, so it is read
once, before the loop). -/
def dlsExpand (g : Grid) (cur : Cell) (d : Nat) (s : DLSState) : DLSState :=
  ((g.neighborsPos cur).reverse).foldl
    (fun s nb =>
      if nb ∉ s.visited ∧ nb ∉ s.frontier then
        { s with parent := (nb, cur) :: s.parent,
                 depth := (nb, d + 1) :: s.depth,
                 frontier := nb :: s.frontier }
      else s)
    s

/-- One iteration of the DLS while loop (DLSSolver.solve): as DFS, except
that neighbors are expanded only while the popped node's depth is strictly
below the limit.  A node's depth attribute defaults to 0 when never
assigned, matching the Node dataclass default. -/
def dlsStep (g : Grid) (limit : Nat) (s : DLSState) : StepOut DLSState :=
  match s.frontier with
  | [] => StepOut.done ⟨[], s.visited, some []⟩
  | current :: rest =>
    if current ∈ s.visited then
      StepOut.skip { s with frontier := rest }
    else
      let visited' := s.visited ++ [current]
      if current = g.target_pos then
        StepOut.done ⟨rest, visited', some (reconstruct_path s.parent current)⟩
      else
        let d := (lookupCell s.depth current).getD 0
        let s1 : DLSState :=
          { frontier := rest, visited := visited', parent := s.parent, depth := s.depth }
        let s' := if d < limit then dlsExpand g current d s1 else s1
        StepOut.yieldSnap s' ⟨s'.frontier, s'.visited, none⟩

/-- Initial DLS state: the start cell on the stack at depth 0. -/
def dlsInit (g : Grid) : DLSState :=
  ⟨[g.start_pos], [], [], [(g.start_pos, 0)]⟩

/-- DLSSolver.solve with the given depth_limit. -/
def dlsSolve (g : Grid) (limit : Nat) (fuel : Nat) : Option (List Snapshot) :=
  match g.get_node g.start_pos.1 g.start_pos.2, g.get_node g.target_pos.1 g.target_pos.2 with
  | some _, some _ => runSolver (dlsStep g limit) fuel (dlsInit g)
  | _, _ => some []

/-- Working state of RandomizedDFSSolver.solve: DFS state plus the number of
expansions done so far, indexing the shuffle oracle that stands for the
successive random.shuffle outcomes. -/
structure RandState where
  frontier : List Cell
  visited : List Cell
  parent : List (Cell × Cell)
  idx : Nat
deriving DecidableEq, Repr

/-- Randomized neighbor expansion: the already-shuffled neighbor list is
iterated in order, each fresh cell pushed onto the stack top. -/
def randExpand (cur : Cell) (nbs : List Cell) (s : RandState) : RandState :=
  nbs.foldl
    (fun s nb =>
      if nb ∉ s.visited ∧ nb ∉ s.frontier then
        { s with parent := (nb, cur) :: s.parent, frontier := nb :: s.frontier }
      else s)
    s

/-- One iteration of the randomized DFS while loop (RandomizedDFSSolver);
shuffle gives the outcome of the random.shuffle call at each expansion. -/
def randStep (g : Grid) (shuffle : Nat → List Cell → List Cell) (s : RandState) :
    StepOut RandState :=
  match s.frontier with
  | [] => StepOut.done ⟨[], s.visited, some []⟩
  | current :: rest =>
    if current ∈ s.visited then
      StepOut.skip { s with frontier := rest }
    else
      let visited' := s.visited ++ [current]
      if current = g.target_pos then
        StepOut.done ⟨rest, visited', some (reconstruct_path s.parent current)⟩
      else
        let s' := randExpand current (shuffle s.idx (g.neighborsPos current))
          { frontier := rest, visited := visited', parent := s.parent, idx := s.idx + 1 }
        StepOut.yieldSnap s' ⟨s'.frontier, s'.visited, none⟩

/-- RandomizedDFSSolver.solve under a given shuffle oracle. -/
def randSolve (g : Grid) (shuffle : Nat → List Cell → List Cell) (fuel : Nat) :
    Option (List Snapshot) :=
  match g.get_node g.start_pos.1 g.start_pos.2, g.get_node g.target_pos.1 g.target_pos.2 with
  | some _, some _ => runSolver (randStep g shuffle) fuel ⟨[g.start_pos], [], [], 0⟩
  | _, _ => some []

/-- The Manhattan-distance heuristic of CustomSolver's beam search. -/
def manh (a b : Cell) : Nat :=
  (a.1 - b.1).natAbs + (a.2 - b.2).natAbs

/-- One iteration of the CustomSolver (beam search) while loop: the FIFO
frontier is truncated from the back to beam_width entries before each pop;
the popped cell's neighbors are stably sorted by Manhattan distance to the
target and pushed FIFO-style as in BFS.  The source fixes beam_width = 10;
for beam_width = 0 the source's popleft on the emptied deque would raise
IndexError, which the solver's except clause turns into a final empty
yield ([], [], []). -/
def beamStep (g : Grid) (w : Nat) (s : BFSState) : StepOut BFSState :=
  match s.frontier with
  | [] => StepOut.done ⟨[], s.visited, some []⟩
  | _ :: _ =>
    match s.frontier.take w with
    | [] => StepOut.done ⟨[], [], some []⟩
    | current :: rest =>
      if current ∈ s.visited then
        StepOut.skip { s with frontier := rest }
      else
        let visited' := s.visited ++ [current]
        if current = g.target_pos then
          StepOut.done ⟨rest, visited', some (reconstruct_path s.parent current)⟩
        else
          let nbs := (g.neighborsPos current).mergeSort
            (fun a b => manh a g.target_pos ≤ manh b g.target_pos)
          let s' := nbs.foldl
            (fun s nb =>
              if nb ∉ s.visited ∧ nb ∉ s.frontier then
                { s with parent := (nb, current) :: s.parent, frontier := s.frontier ++ [nb] }
              else s)
            { frontier := rest, visited := visited', parent := s.parent }
          StepOut.yieldSnap s' ⟨s'.frontier, s'.visited, none⟩

/-- CustomSolver.solve with the given beam_width (10 in the source). -/
def beamSolve (g : Grid) (w : Nat) (fuel : Nat) : Option (List Snapshot) :=
  match g.get_node g.start_pos.1 g.start_pos.2, g.get_node g.target_pos.1 g.target_pos.2 with
  | some _, some _ => runSolver (beamStep g w) fuel (bfsInit g)
  | _, _ => some []

/-- Working state of ScoutSolver.solve: deque frontier in queue order (left
to right), visited set, parent bindings, per-node depth, and the current
mode (true while in BFS mode). -/
structure ScoutState where
  frontier : List Cell
  visited : List Cell
  parent : List (Cell × Cell)
  depth : List (Cell × Nat)
  bfsMode : Bool
deriving DecidableEq, Repr

/-- Scout neighbor expansion: both modes append to the right of the deque;
each pushed neighbor records its parent and depth d + 1, and the boolean
reports whether anything was pushed (new_nodes_added). -/
def scoutExpand (cur : Cell) (d : Nat) (nbs : List Cell) (s : ScoutState × Bool) :
    ScoutState × Bool :=
  nbs.foldl
    (fun sb nb =>
      if nb ∉ sb.1.visited ∧ nb ∉ sb.1.frontier then
        ({ sb.1 with parent := (nb, cur) :: sb.1.parent,
                     depth := (nb, d + 1) :: sb.1.depth,
                     frontier := sb.1.frontier ++ [nb] }, true)
      else sb)
    s

/-- The mode switch at the end of a Scout iteration: when anything was
pushed, leave BFS mode once the popped depth reaches bfs_layers, and return
to it once the popped depth reaches bfs_layers + dfs_layers. -/
def scoutModeSwitch (bfs_layers dfs_layers d : Nat) (sb : ScoutState × Bool) : Bool :=
  if sb.2 then
    if sb.1.bfsMode then (if bfs_layers ≤ d then false else true)
    else (if bfs_layers + dfs_layers ≤ d then true else false)
  else sb.1.bfsMode

/-- One iteration of the Scout while loop (ScoutSolver.solve): pop from the
left in BFS mode and from the right in DFS mode, expand, then switch modes
by the popped node's depth whenever anything was pushed (the getLastD
default is never used: the list matched non-empty). -/
def scoutStep (g : Grid) (bfs_layers dfs_layers : Nat) (s : ScoutState) :
    StepOut ScoutState :=
  match s.frontier with
  | [] => StepOut.done ⟨[], s.visited, some []⟩
  | f0 :: frest =>
    let current := if s.bfsMode then f0 else (f0 :: frest).getLastD f0
    let rest := if s.bfsMode then frest else (f0 :: frest).dropLast
    if current ∈ s.visited then
      StepOut.skip { s with frontier := rest }
    else
      let visited' := s.visited ++ [current]
      if current = g.target_pos then
        StepOut.done ⟨rest, visited', some (reconstruct_path s.parent current)⟩
      else
        let d := (lookupCell s.depth current).getD 0
        let sb := scoutExpand current d (g.neighborsPos current)
          ({ s with frontier := rest, visited := visited' }, false)
        let s' := { sb.1 with bfsMode := scoutModeSwitch bfs_layers dfs_layers d sb }
        StepOut.yieldSnap s' ⟨s'.frontier, s'.visited, none⟩

/-- Initial Scout state: start queued at depth 0, BFS mode. -/
def scoutInit (g : Grid) : ScoutState :=
  ⟨[g.start_pos], [], [], [(g.start_pos, 0)], true⟩

/-- ScoutSolver.solve with the given bfs_layers and dfs_layers (source
defaults 5 and 5). -/
def scoutSolve (g : Grid) (bl dl : Nat) (fuel : Nat) : Option (List Snapshot) :=
  match g.get_node g.start_pos.1 g.start_pos.2, g.get_node g.target_pos.1 g.target_pos.2 with
  | some _, some _ => runSolver (scoutStep g bl dl) fuel (scoutInit g)
  | _, _ => some []

/-- IDDFSSolver._dls_limited: one depth-limited pass over a fresh state; the
boolean is the generator's return value (true when the target was found); an
exhausted pass returns without a terminal yield.  Depth entries left over
from earlier passes never matter: every depth read in a pass is of a node
pushed in that same pass (or of the start, reset by the pass). -/
def iddfsInner (g : Grid) (limit : Nat) : Nat → DLSState → Option (List Snapshot × Bool)
  | 0, _ => none
  | fuel + 1, s =>
    match s.frontier with
    | [] => some ([], false)
    | current :: rest =>
      if current ∈ s.visited then
        iddfsInner g limit fuel { s with frontier := rest }
      else
        let visited' := s.visited ++ [current]
        if current = g.target_pos then
          some ([⟨rest, visited', some (reconstruct_path s.parent current)⟩], true)
        else
          let d := (lookupCell s.depth current).getD 0
          let s1 : DLSState :=
            { frontier := rest, visited := visited', parent := s.parent, depth := s.depth }
          let s' := if d < limit then dlsExpand g current d s1 else s1
          match iddfsInner g limit fuel s' with
          | none => none
          | some (snaps, b) => some (⟨s'.frontier, s'.visited, none⟩ :: snaps, b)

/-- IDDFSSolver.solve's for-loop over range(1, max_depth + 1): run passes
until one finds the target; when none does, a final empty terminal
snapshot is yielded. -/
def iddfsLoop (g : Grid) (fuel : Nat) : List Nat → Option (List Snapshot)
  | [] => some [⟨[], [], some []⟩]
  | limit :: more =>
    match iddfsInner g limit fuel (dlsInit g) with
    | none => none
    | some (snaps, true) => some snaps
    | some (snaps, false) =>
      match iddfsLoop g fuel more with
      | none => none
      | some tail => some (snaps ++ tail)

/-- IDDFSSolver.solve with the given max_depth. -/
def iddfsSolve (g : Grid) (max_depth : Nat) (fuel : Nat) : Option (List Snapshot) :=
  match g.get_node g.start_pos.1 g.start_pos.2, g.get_node g.target_pos.1 g.target_pos.2 with
  | some _, some _ => iddfsLoop g fuel (List.range' 1 max_depth)
  | _, _ => some []

/-- Invariant carried by the stack-solver bound proofs (DFS shares BFS's
state type; DLS, randomized DFS and Scout carry the same core fields):
frontier cells open, visited duplicate-free, open, without the target. -/
def dlsInv (g : Grid) (s : DLSState) : Prop :=
  (∀ c ∈ s.frontier, openCell g c = true) ∧ s.visited.Nodup ∧
    g.target_pos ∉ s.visited ∧ ∀ c ∈ s.visited, c ∈ openCells g

/-- Termination measure for the DLS loop. -/
def dlsMeasure (g : Grid) (s : DLSState) : Nat :=
  7 * ((openCells g).length + 1 - s.visited.length) + s.frontier.length

/-- Invariant for the randomized DFS bound proof. -/
def randInv (g : Grid) (s : RandState) : Prop :=
  (∀ c ∈ s.frontier, openCell g c = true) ∧ s.visited.Nodup ∧
    g.target_pos ∉ s.visited ∧ ∀ c ∈ s.visited, c ∈ openCells g

/-- Termination measure for the randomized DFS loop. -/
def randMeasure (g : Grid) (s : RandState) : Nat :=
  7 * ((openCells g).length + 1 - s.visited.length) + s.frontier.length

/-- Invariant for the Scout bound proof. -/
def scoutInv (g : Grid) (s : ScoutState) : Prop :=
  (∀ c ∈ s.frontier, openCell g c = true) ∧ s.visited.Nodup ∧
    g.target_pos ∉ s.visited ∧ ∀ c ∈ s.visited, c ∈ openCells g

/-- Termination measure for the Scout loop. -/
def scoutMeasure (g : Grid) (s : ScoutState) : Nat :=
  7 * ((openCells g).length + 1 - s.visited.length) + s.frontier.length

/-- Invariant for the UCS bound proof: every heap entry's cell is open, the
visited list is duplicate-free, open, without the target. -/
def ucsInv (g : Grid) (s : UCSState) : Prop :=
  (∀ e ∈ s.frontier, openCell g e.2.2 = true) ∧ s.visited.Nodup ∧
    g.target_pos ∉ s.visited ∧ ∀ c ∈ s.visited, c ∈ openCells g

/-- Termination measure for the UCS loop, counting heap entries. -/
def ucsMeasure (g : Grid) (s : UCSState) : Nat :=
  7 * ((openCells g).length + 1 - s.visited.length) + s.frontier.length

/-- Invariant carried by the bidirectional bound proof: each frontier is
contained in its side's visited set, both visited sets are duplicate-free,
open, and mutually disjoint. -/
def bidiInv (g : Grid) (s : BidiState) : Prop :=
  (∀ c ∈ s.fs, c ∈ s.vs) ∧ (∀ c ∈ s.ft, c ∈ s.vt) ∧
    s.vs.Nodup ∧ s.vt.Nodup ∧
    (∀ c ∈ s.vs, c ∈ openCells g) ∧ (∀ c ∈ s.vt, c ∈ openCells g) ∧
    (∀ c ∈ s.vs, c ∉ s.vt)

/-- Termination measure for the bidirectional loop. -/
def bidiMeasure (g : Grid) (s : BidiState) : Nat :=
  2 * ((openCells g).length - s.vs.length - s.vt.length) + s.fs.length + s.ft.length + 1

/-- A walk of the neighbor relation: each consecutive pair of cells is
produced by get_neighbors_clockwise_diagonal. -/
def IsWalk (g : Grid) (w : List Cell) : Prop :=
  List.Chain' (fun a b => b ∈ g.neighborsPos a) w

/-- A simple path from a to b: a duplicate-free walk with the given
endpoints. -/
def IsSimplePath (g : Grid) (w : List Cell) (a b : Cell) : Prop :=
  IsWalk g w ∧ w.Nodup ∧ w.head? = some a ∧ w.getLast? = some b

/-- The 1 x 6 corridor grid of the depth-limit scenario: a single open row,
start at its left end, target at its right end. -/
def c5Grid : Grid := (((Grid.init 1 6).set_start 0 0).2.set_target 0 5).2

/-- The corridor cells from column k through column 5. -/
def corridorFrom (k : Nat) : List Cell :=
  (List.range' k (6 - k)).map fun c => ((0 : Int), (c : Int))

/-- Invariant of a depth-limited run: every frontier cell carries a recorded
depth of at most the limit, witnessed by a walk of that many steps from the
start. -/
def c5FailInv (g : Grid) (limit : Nat) (s : DLSState) : Prop :=
  ∀ c ∈ s.frontier, ∃ d, lookupCell s.depth c = some d ∧ d ≤ limit ∧
    ∃ w, IsWalk g w ∧ w.head? = some g.start_pos ∧ w.getLast? = some c ∧
      w.length = d + 1

/-- Invariant of the successful depth-limited pass on a grid whose unique
simple path from start to target is P: the corridor prefix of P is visited,
the current corridor cell sits on the frontier at its exact recorded depth,
the corridor tail is untouched, the frontier is duplicate-free and disjoint
from visited, and every discovered cell is reached by a walk through visited
cells. -/
def c5SuccInv (g : Grid) (P : List Cell) (s : DLSState) : Prop :=
  ∃ pre cur post, P = pre ++ cur :: post ∧
    (∀ c ∈ pre, c ∈ s.visited) ∧
    cur ∈ s.frontier ∧
    lookupCell s.depth cur = some pre.length ∧
    (∀ c ∈ cur :: post, c ∉ s.visited) ∧
    (∀ c ∈ post, c ∉ s.frontier) ∧
    s.frontier.Nodup ∧
    (∀ c ∈ s.frontier, c ∉ s.visited) ∧
    (∀ y, (y ∈ s.visited ∨ y ∈ s.frontier) →
      ∃ w, IsWalk g w ∧ w.head? = some g.start_pos ∧ w.getLast? = some y ∧
        ∀ c ∈ w, c ∈ s.visited ∨ c = y)

theorem listUpdate_get? {α : Type} (f : α → α) (l : List α) (i j : Nat) :
    (listUpdate l i f).get? j = if i = j then (l.get? j).map f else l.get? j := by
  induction l generalizing i j with
  | nil => simp [listUpdate]
  | cons a t ih =>
    cases i with
    | zero =>
      cases j with
      | zero => simp [listUpdate]
      | succ j => simp [listUpdate]
    | succ i =>
      cases j with
      | zero => simp [listUpdate]
      | succ j =>
        simp only [listUpdate, List.get?_cons_succ, ih]
        by_cases h : i = j <;> simp [h]

theorem get_node_some_bounds {g : Grid} {r c : Int} {n : Node}
    (h : g.get_node r c = some n) :
    0 ≤ r ∧ r < (g.rows : Int) ∧ 0 ≤ c ∧ c < (g.cols : Int) := by
  by_contra hb
  simp [Grid.get_node, hb] at h

theorem get_node_updNode (g : Grid) (r c r' c' : Int) (f : Node → Node)
    (hr : 0 ≤ r) (hc : 0 ≤ c) :
    (g.updNode r c f).get_node r' c' =
      if r = r' ∧ c = c' then (g.get_node r' c').map f else g.get_node r' c' := by
  unfold Grid.updNode Grid.get_node
  by_cases hb : 0 ≤ r' ∧ r' < (g.rows : Int) ∧ 0 ≤ c' ∧ c' < (g.cols : Int)
  · simp only [hb, if_true]
    rw [listUpdate_get?]
    by_cases hrr : r.toNat = r'.toNat
    · have hreq : r = r' := by omega
      subst hreq
      rw [if_pos rfl]
      cases hgr : g.grid.get? r.toNat with
      | none => simp
      | some row =>
        simp only [Option.map_some', Option.some_bind]
        rw [listUpdate_get?]
        by_cases hcc : c.toNat = c'.toNat
        · have hceq : c = c' := by omega
          subst hceq
          simp
        · have hcne : ¬(c = c') := by omega
          simp [hcc, hcne]
    · have hne : ¬(r = r' ∧ c = c') := by omega
      simp [hrr, hne]
  · simp [hb]

theorem neighbors_foldl_step (g : Grid) (acc : List Node) (row col : Int) :
    (match g.get_node row col with
      | some nb => if nb.state ≠ NodeState.wall then acc ++ [nb] else acc
      | none => acc) = acc ++ openNb g row col := by
  unfold openNb
  cases g.get_node row col with
  | none => simp
  | some nb =>
    by_cases h : nb.state = NodeState.wall <;> simp [h]

/-- Neighbor expansion is exactly the concatenation of the per-direction
contributions in source order. -/
theorem neighbors_eq_openNb (g : Grid) (n : Node) :
    g.get_neighbors_clockwise_diagonal n =
      openNb g (n.row - 1) n.col ++ openNb g n.row (n.col + 1) ++
        openNb g (n.row + 1) n.col ++ openNb g (n.row + 1) (n.col + 1) ++
        openNb g n.row (n.col - 1) ++ openNb g (n.row - 1) (n.col - 1) := by
  show directions.foldl _ [] = _
  simp only [directions, List.foldl_cons, List.foldl_nil]
  rw [neighbors_foldl_step, neighbors_foldl_step, neighbors_foldl_step,
    neighbors_foldl_step, neighbors_foldl_step, neighbors_foldl_step]
  simp [sub_eq_add_neg]

/-- C2.  The neighbor-expansion operation returns the open, in-bounds
neighbors in exactly the order Up, Right, Down, Down-Right, Left, Up-Left,
silently omitting blocked cells and out-of-bounds positions without any
failure (the function is total and each candidate position contributes its
node exactly when it exists and is not a wall); in particular, when all six
neighbor positions of a cell hold open nodes, it returns exactly those 6
nodes in that order. -/
theorem get_neighbors_order_contract (g : Grid) (n : Node) :
    (g.get_neighbors_clockwise_diagonal n =
      openNb g (n.row - 1) n.col ++ openNb g n.row (n.col + 1) ++
        openNb g (n.row + 1) n.col ++ openNb g (n.row + 1) (n.col + 1) ++
        openNb g n.row (n.col - 1) ++ openNb g (n.row - 1) (n.col - 1)) ∧
    (∀ a b c d e f : Node,
      g.get_node (n.row - 1) n.col = some a → a.state ≠ NodeState.wall →
      g.get_node n.row (n.col + 1) = some b → b.state ≠ NodeState.wall →
      g.get_node (n.row + 1) n.col = some c → c.state ≠ NodeState.wall →
      g.get_node (n.row + 1) (n.col + 1) = some d → d.state ≠ NodeState.wall →
      g.get_node n.row (n.col - 1) = some e → e.state ≠ NodeState.wall →
      g.get_node (n.row - 1) (n.col - 1) = some f → f.state ≠ NodeState.wall →
      g.get_neighbors_clockwise_diagonal n = [a, b, c, d, e, f]) := by
  refine ⟨neighbors_eq_openNb g n, ?_⟩
  intro a b c d e f ha ha' hb hb' hc hc' hd hd' he he' hf hf'
  rw [neighbors_eq_openNb g n]
  simp [openNb, ha, hb, hc, hd, he, hf, ha', hb', hc', hd', he', hf']

/-- Witness for C2: on the fresh 5 x 5 grid, the interior cell (2,2) has all
six neighbor positions open, and expansion returns exactly the six nodes at
(1,2), (2,3), (3,2), (3,3), (2,1), (1,1) in that order. -/
theorem get_neighbors_order_contract_witness :
    ∃ n : Node, (Grid.init 5 5).get_node 2 2 = some n ∧
      ((Grid.init 5 5).get_neighbors_clockwise_diagonal n).map Node.get_pos =
        [((1 : Int), (2 : Int)), (2, 3), (3, 2), (3, 3), (2, 1), (1, 1)] := by
  refine ⟨{ row := 2, col := 2 }, by decide, ?_⟩
  have h := (get_neighbors_order_contract (Grid.init 5 5) { row := 2, col := 2 }).2
    { row := 1, col := 2 } { row := 2, col := 3 } { row := 3, col := 2 }
    { row := 3, col := 3 } { row := 2, col := 1 }
    { row := 1, col := 1, state := NodeState.start }
    (by decide) (by decide) (by decide) (by decide) (by decide) (by decide)
    (by decide) (by decide) (by decide) (by decide) (by decide) (by decide)
  rw [h]
  decide

/-- C1 counterexample: on the 5 x 5 open grid with start (0,0) and target
(4,4), the terminal BFS snapshot's path has length 5, not 9 — the down-right
diagonal move is available at every step, so the breadth-first layer of the
target is 4. -/
theorem bfs_5x5_path_length_not_nine :
    (terminalSnap (bfsSolve c1Grid 30)).map (fun s => s.path.map List.length) =
      some (some 5) ∧ ¬ (terminalSnap (bfsSolve c1Grid 30)).map
        (fun s => s.path.map List.length) = some (some 9) := by
  constructor <;> decide

/-- C1 amended.  On a 5x5 grid with no blocked cells, start (0,0), target
(4,4), BFS's terminal snapshot contains a path whose head is (0,0), whose
last element is (4,4), and whose length is 5 (the Chebyshev-optimal step
count under the clockwise-plus-diagonal neighbor rule). -/
theorem bfs_5x5_terminal_path :
    ((terminalSnap (bfsSolve c1Grid 30)).bind (·.path)).map List.head? =
      some (some c1Grid.start_pos) ∧
    ((terminalSnap (bfsSolve c1Grid 30)).bind (·.path)).map List.getLast? =
      some (some c1Grid.target_pos) ∧
    ((terminalSnap (bfsSolve c1Grid 30)).bind (·.path)).map List.length = some 5 := by
  refine ⟨?_, ?_, ?_⟩ <;> decide

/-- C6 counterexample: on the fresh 5 x 5 grid (start (1,1), target (1,3)),
calling set_start on the target cell does not fail and does not leave the
grid unchanged: it returns True, moves start_pos onto the target cell, and
clears the old start cell's marker. -/
theorem set_start_on_target_cex :
    ((Grid.init 5 5).set_start 1 3).1 = true ∧
    ((Grid.init 5 5).set_start 1 3).2.start_pos = (Grid.init 5 5).target_pos ∧
    ¬((Grid.init 5 5).set_start 1 3).2 = Grid.init 5 5 := by
  refine ⟨?_, ?_, ?_⟩ <;> decide

/-- C6 amended.  set_start and set_target return failure without mutating any
grid state when given out-of-bounds coordinates; calling set_start on the
target cell (or set_target on the start cell) returns success, moves the
stored position onto the other endpoint, and clears the old marker cell back
to the EMPTY state, but does not overwrite the other endpoint cell's state
marker, which is the only refusal the code performs. -/
theorem set_endpoints_contract :
    (∀ (g : Grid) (row col : Int),
      ¬(0 ≤ row ∧ row < (g.rows : Int) ∧ 0 ≤ col ∧ col < (g.cols : Int)) →
      g.set_start row col = (false, g) ∧ g.set_target row col = (false, g)) ∧
    (∀ (g : Grid) (nt : Node),
      g.get_node g.target_pos.1 g.target_pos.2 = some nt →
      nt.state = NodeState.target → g.start_pos ≠ g.target_pos →
      (g.set_start g.target_pos.1 g.target_pos.2).1 = true ∧
      (g.set_start g.target_pos.1 g.target_pos.2).2.start_pos = g.target_pos ∧
      (g.set_start g.target_pos.1 g.target_pos.2).2.get_node
        g.target_pos.1 g.target_pos.2 = some nt ∧
      (∀ ns, g.get_node g.start_pos.1 g.start_pos.2 = some ns →
        (g.set_start g.target_pos.1 g.target_pos.2).2.get_node
          g.start_pos.1 g.start_pos.2 = some { ns with state := NodeState.empty })) ∧
    (∀ (g : Grid) (ns : Node),
      g.get_node g.start_pos.1 g.start_pos.2 = some ns →
      ns.state = NodeState.start → g.start_pos ≠ g.target_pos →
      (g.set_target g.start_pos.1 g.start_pos.2).1 = true ∧
      (g.set_target g.start_pos.1 g.start_pos.2).2.target_pos = g.start_pos ∧
      (g.set_target g.start_pos.1 g.start_pos.2).2.get_node
        g.start_pos.1 g.start_pos.2 = some ns ∧
      (∀ nt, g.get_node g.target_pos.1 g.target_pos.2 = some nt →
        (g.set_target g.start_pos.1 g.start_pos.2).2.get_node
          g.target_pos.1 g.target_pos.2 = some { nt with state := NodeState.empty })) := by
  refine ⟨?_, ?_, ?_⟩
  · intro g row col hb
    constructor
    · unfold Grid.set_start
      simp [hb]
    · unfold Grid.set_target
      simp [hb]
  · intro g nt h1 h2 hne
    have hb := get_node_some_bounds h1
    have hne' : ¬(g.start_pos.1 = g.target_pos.1 ∧ g.start_pos.2 = g.target_pos.2) := by
      intro hp
      exact hne (Prod.ext hp.1 hp.2)
    cases hsp : g.get_node g.start_pos.1 g.start_pos.2 with
    | none =>
      simp only [Grid.set_start, hsp]
      rw [if_neg (not_not_intro hb)]
      refine ⟨rfl, rfl, ?_, ?_⟩
      · show (Grid.updNode _ _ _ _).get_node _ _ = some nt
        rw [get_node_updNode _ _ _ _ _ _ hb.1 hb.2.2.1]
        rw [if_pos ⟨rfl, rfl⟩]
        show (g.get_node g.target_pos.1 g.target_pos.2).map _ = some nt
        rw [h1]
        simp [h2]
      · intro ns0 hns0
        exact Option.noConfusion hns0
    | some ns =>
      have hbs := get_node_some_bounds hsp
      simp only [Grid.set_start, hsp]
      rw [if_neg (not_not_intro hb)]
      refine ⟨rfl, rfl, ?_, ?_⟩
      · show (Grid.updNode _ _ _ _).get_node _ _ = some nt
        rw [get_node_updNode _ _ _ _ _ _ hb.1 hb.2.2.1]
        rw [if_pos ⟨rfl, rfl⟩]
        show ((g.updNode _ _ _).get_node g.target_pos.1 g.target_pos.2).map _ = some nt
        rw [get_node_updNode _ _ _ _ _ _ hbs.1 hbs.2.2.1]
        rw [if_neg hne']
        rw [h1]
        simp [h2]
      · intro ns0 hns0
        injection hns0 with hns0
        subst hns0
        show (Grid.updNode _ _ _ _).get_node _ _ = _
        rw [get_node_updNode _ _ _ _ _ _ hb.1 hb.2.2.1]
        rw [if_neg (fun hp => hne (Prod.ext hp.1.symm hp.2.symm))]
        show (g.updNode g.start_pos.1 g.start_pos.2 _).get_node
          g.start_pos.1 g.start_pos.2 = _
        rw [get_node_updNode _ _ _ _ _ _ hbs.1 hbs.2.2.1]
        rw [if_pos ⟨rfl, rfl⟩]
        rw [hsp]
        rfl
  · intro g ns h1 h2 hne
    have hb := get_node_some_bounds h1
    have hne' : ¬(g.target_pos.1 = g.start_pos.1 ∧ g.target_pos.2 = g.start_pos.2) := by
      intro hp
      exact hne (Prod.ext hp.1.symm hp.2.symm)
    cases hsp : g.get_node g.target_pos.1 g.target_pos.2 with
    | none =>
      simp only [Grid.set_target, hsp]
      rw [if_neg (not_not_intro hb)]
      refine ⟨rfl, rfl, ?_, ?_⟩
      · show (Grid.updNode _ _ _ _).get_node _ _ = some ns
        rw [get_node_updNode _ _ _ _ _ _ hb.1 hb.2.2.1]
        rw [if_pos ⟨rfl, rfl⟩]
        show (g.get_node g.start_pos.1 g.start_pos.2).map _ = some ns
        rw [h1]
        simp [h2]
      · intro nt0 hnt0
        exact Option.noConfusion hnt0
    | some nt =>
      have hbs := get_node_some_bounds hsp
      simp only [Grid.set_target, hsp]
      rw [if_neg (not_not_intro hb)]
      refine ⟨rfl, rfl, ?_, ?_⟩
      · show (Grid.updNode _ _ _ _).get_node _ _ = some ns
        rw [get_node_updNode _ _ _ _ _ _ hb.1 hb.2.2.1]
        rw [if_pos ⟨rfl, rfl⟩]
        show ((g.updNode _ _ _).get_node g.start_pos.1 g.start_pos.2).map _ = some ns
        rw [get_node_updNode _ _ _ _ _ _ hbs.1 hbs.2.2.1]
        rw [if_neg hne']
        rw [h1]
        simp [h2]
      · intro nt0 hnt0
        injection hnt0 with hnt0
        subst hnt0
        show (Grid.updNode _ _ _ _).get_node _ _ = _
        rw [get_node_updNode _ _ _ _ _ _ hb.1 hb.2.2.1]
        rw [if_neg (fun hp => hne (Prod.ext hp.1 hp.2))]
        show (g.updNode g.target_pos.1 g.target_pos.2 _).get_node
          g.target_pos.1 g.target_pos.2 = _
        rw [get_node_updNode _ _ _ _ _ _ hbs.1 hbs.2.2.1]
        rw [if_pos ⟨rfl, rfl⟩]
        rw [hsp]
        rfl

/-- Witness for C6: concrete instances of the contract on the fresh 5 x 5
grid, whose start is (1,1) and target is (1,3): the out-of-bounds refusal,
both endpoint moves, and the clearing of the old marker cell back to
EMPTY. -/
theorem set_endpoints_contract_witness :
    (Grid.init 5 5).set_start (-1) 0 = (false, Grid.init 5 5) ∧
    ((Grid.init 5 5).set_start 1 3).2.start_pos = ((1 : Int), (3 : Int)) ∧
    ((Grid.init 5 5).set_start 1 3).2.get_node 1 1 =
      some { row := 1, col := 1, state := NodeState.empty } ∧
    ((Grid.init 5 5).set_target 1 1).2.target_pos = ((1 : Int), (1 : Int)) ∧
    ((Grid.init 5 5).set_target 1 1).2.get_node 1 3 =
      some { row := 1, col := 3, state := NodeState.empty } := by
  refine ⟨(set_endpoints_contract.1 (Grid.init 5 5) (-1) 0 (by decide)).1, ?_, ?_, ?_, ?_⟩
  · have h := set_endpoints_contract.2.1 (Grid.init 5 5)
      { row := 1, col := 3, state := NodeState.target } (by decide) (by decide) (by decide)
    have ht : (Grid.init 5 5).target_pos = ((1 : Int), (3 : Int)) := by decide
    exact ht ▸ h.2.1
  · have h := set_endpoints_contract.2.1 (Grid.init 5 5)
      { row := 1, col := 3, state := NodeState.target } (by decide) (by decide) (by decide)
    exact h.2.2.2 { row := 1, col := 1, state := NodeState.start } (by decide)
  · have h := set_endpoints_contract.2.2 (Grid.init 5 5)
      { row := 1, col := 1, state := NodeState.start } (by decide) (by decide) (by decide)
    have hs : (Grid.init 5 5).start_pos = ((1 : Int), (1 : Int)) := by decide
    exact hs ▸ h.2.1
  · have h := set_endpoints_contract.2.2 (Grid.init 5 5)
      { row := 1, col := 1, state := NodeState.start } (by decide) (by decide) (by decide)
    exact h.2.2.2 { row := 1, col := 3, state := NodeState.target } (by decide)


theorem get_node_mapGrid (g : Grid) (f : Node → Node) (r c : Int) :
    (({ g with grid := g.grid.map (fun row => row.map f) }) : Grid).get_node r c =
      (g.get_node r c).map f := by
  unfold Grid.get_node
  by_cases hb : 0 ≤ r ∧ r < (g.rows : Int) ∧ 0 ≤ c ∧ c < (g.cols : Int)
  · simp only [hb, if_true]
    rw [List.get?_map]
    cases hgr : g.grid.get? r.toNat with
    | none => simp
    | some row => simp [List.get?_map]
  · simp [hb]

theorem rss_parent (n : Node) : n.reset_search_state.parent = none := by
  unfold Node.reset_search_state
  dsimp only
  split <;> rfl

theorem rss_cost (n : Node) : n.reset_search_state.cost = ⊤ := by
  unfold Node.reset_search_state
  dsimp only
  split <;> rfl

theorem rss_depth (n : Node) : n.reset_search_state.depth = 0 := by
  unfold Node.reset_search_state
  dsimp only
  split <;> rfl

theorem rss_wall_iff (n : Node) :
    (n.reset_search_state.state = NodeState.wall ↔ n.state = NodeState.wall) := by
  unfold Node.reset_search_state
  dsimp only
  split
  · rename_i h
    rcases h with h | h | h <;> simp [h]
  · exact Iff.rfl

theorem get_node_start_pos_irrel (g : Grid) (v : Cell) (r c : Int) :
    (({ g with start_pos := v }) : Grid).get_node r c = g.get_node r c := rfl

theorem get_node_target_pos_irrel (g : Grid) (v : Cell) (r c : Int) :
    (({ g with target_pos := v }) : Grid).get_node r c = g.get_node r c := rfl

theorem set_start_some (g : Grid) (row col sr sc : Int)
    (hb : 0 ≤ row ∧ row < (g.rows : Int) ∧ 0 ≤ col ∧ col < (g.cols : Int))
    (hpos : g.start_pos = (sr, sc))
    (ns : Node) (hsp : g.get_node sr sc = some ns) :
    g.set_start row col = (true,
      ({ ((g.updNode sr sc
            (fun n => { n with state := NodeState.empty })).updNode row col
          (fun n => if n.state ≠ NodeState.target then { n with state := NodeState.start }
            else n)) with start_pos := (row, col) } : Grid)) := by
  simp only [Grid.set_start, hpos]
  simp only [hsp]
  rw [if_neg (not_not_intro hb)]
  rfl

theorem set_target_some (g : Grid) (row col tr tc : Int)
    (hb : 0 ≤ row ∧ row < (g.rows : Int) ∧ 0 ≤ col ∧ col < (g.cols : Int))
    (hpos : g.target_pos = (tr, tc))
    (nt : Node) (htp : g.get_node tr tc = some nt) :
    g.set_target row col = (true,
      ({ ((g.updNode tr tc
            (fun n => { n with state := NodeState.empty })).updNode row col
          (fun n => if n.state ≠ NodeState.start then { n with state := NodeState.target }
            else n)) with target_pos := (row, col) } : Grid)) := by
  simp only [Grid.set_target, hpos]
  simp only [htp]
  rw [if_neg (not_not_intro hb)]
  rfl

theorem updNode_start_pos (g : Grid) (r c : Int) (f : Node → Node) :
    (g.updNode r c f).start_pos = g.start_pos := rfl

theorem updNode_target_pos (g : Grid) (r c : Int) (f : Node → Node) :
    (g.updNode r c f).target_pos = g.target_pos := rfl

theorem updNode_rows (g : Grid) (r c : Int) (f : Node → Node) :
    (g.updNode r c f).rows = g.rows := rfl

theorem updNode_cols (g : Grid) (r c : Int) (f : Node → Node) :
    (g.updNode r c f).cols = g.cols := rfl

theorem set_both_get_node (g1 : Grid) (sr sc tr tc : Int) (a b : Node)
    (hs : g1.start_pos = (sr, sc)) (ht : g1.target_pos = (tr, tc))
    (ha : g1.get_node sr sc = some a) (hb' : g1.get_node tr tc = some b)
    (hne : ¬(sr = tr ∧ sc = tc)) (r c : Int) :
    ((g1.set_start sr sc).2.set_target tr tc).2.get_node r c =
      if sr = r ∧ sc = c then
        (g1.get_node r c).map (fun n => { n with state := NodeState.start })
      else if tr = r ∧ tc = c then
        (g1.get_node r c).map (fun n => { n with state := NodeState.target })
      else
        g1.get_node r c := by
  have hbs := get_node_some_bounds ha
  have hbt := get_node_some_bounds hb'
  rw [set_start_some g1 sr sc sr sc hbs hs a ha]
  dsimp only
  rw [set_target_some _ tr tc tr tc (by exact hbt)
    (by simp only [updNode_target_pos]; exact ht) b
    (by rw [get_node_start_pos_irrel]
        rw [get_node_updNode _ _ _ _ _ _ hbs.1 hbs.2.2.1, if_neg hne]
        rw [get_node_updNode _ _ _ _ _ _ hbs.1 hbs.2.2.1, if_neg hne]
        exact hb')]
  dsimp only
  rw [get_node_target_pos_irrel]
  rw [get_node_updNode _ _ _ _ _ _ hbt.1 hbt.2.2.1]
  rw [get_node_updNode _ _ _ _ _ _ hbt.1 hbt.2.2.1]
  rw [get_node_start_pos_irrel]
  rw [get_node_updNode _ _ _ _ _ _ hbs.1 hbs.2.2.1]
  rw [get_node_updNode _ _ _ _ _ _ hbs.1 hbs.2.2.1]
  by_cases hT : tr = r ∧ tc = c
  · obtain ⟨hT1, hT2⟩ := hT
    subst hT1
    subst hT2
    simp only [if_pos (And.intro rfl rfl), if_neg hne]
    cases hgn : g1.get_node tr tc with
    | none => rfl
    | some n => rfl
  · by_cases hS : sr = r ∧ sc = c
    · obtain ⟨hS1, hS2⟩ := hS
      subst hS1
      subst hS2
      simp only [if_pos (And.intro rfl rfl), if_neg hT]
      cases hgn : g1.get_node sr sc with
      | none => rfl
      | some n => rfl
    · simp only [if_neg hT, if_neg hS]

theorem reset_get_node_char (g : Grid) (sr sc tr tc : Int) (ns nt : Node)
    (hs : g.start_pos = (sr, sc)) (ht : g.target_pos = (tr, tc))
    (h1 : g.get_node sr sc = some ns)
    (h3 : g.get_node tr tc = some nt)
    (hne : ¬(sr = tr ∧ sc = tc)) (r c : Int) :
    g.reset_search.get_node r c =
      if sr = r ∧ sc = c then
        (g.get_node r c).map
          (fun n => { n.reset_search_state with state := NodeState.start })
      else if tr = r ∧ tc = c then
        (g.get_node r c).map
          (fun n => { n.reset_search_state with state := NodeState.target })
      else
        (g.get_node r c).map Node.reset_search_state := by
  unfold Grid.reset_search
  dsimp only
  rw [hs, ht]
  dsimp only
  rw [set_both_get_node _ sr sc tr tc ns.reset_search_state nt.reset_search_state
    (by rfl) (by rfl)
    (by show (({ g with grid := g.grid.map (fun row => row.map Node.reset_search_state) })
          : Grid).get_node sr sc = _
        rw [get_node_mapGrid, h1]
        rfl)
    (by show (({ g with grid := g.grid.map (fun row => row.map Node.reset_search_state) })
          : Grid).get_node tr tc = _
        rw [get_node_mapGrid, h3]
        rfl)
    hne r c]
  have hmap : (Grid.mk g.rows g.cols
      (g.grid.map (fun row => row.map Node.reset_search_state)) (sr, sc) (tr, tc)).get_node r c
      = (g.get_node r c).map Node.reset_search_state := by
    show (({ g with grid := g.grid.map (fun row => row.map Node.reset_search_state) })
      : Grid).get_node r c = _
    rw [get_node_mapGrid]
  rw [hmap]
  by_cases hS : sr = r ∧ sc = c
  · rw [if_pos hS, if_pos hS]
    cases g.get_node r c with
    | none => rfl
    | some n => rfl
  · rw [if_neg hS, if_neg hS]
    by_cases hT : tr = r ∧ tc = c
    · rw [if_pos hT, if_pos hT]
      cases g.get_node r c with
      | none => rfl
      | some n => rfl
    · rw [if_neg hT, if_neg hT]

/-- C9.  After resetting a grid following a search: every in-bounds cell keeps
exactly its wall status, every node's transient attributes are cleared to
parent = none, cost = +infinity, depth = 0, and the start and target cells
carry their START and TARGET markers again. -/
theorem reset_search_contract (g : Grid) (sr sc tr tc : Int) (ns nt : Node)
    (hs : g.start_pos = (sr, sc)) (ht : g.target_pos = (tr, tc))
    (h1 : g.get_node sr sc = some ns) (h2 : ns.state = NodeState.start)
    (h3 : g.get_node tr tc = some nt) (h4 : nt.state = NodeState.target)
    (hne : ¬(sr = tr ∧ sc = tc)) :
    (∀ (r c : Int) (n : Node), g.get_node r c = some n →
      ∃ n', g.reset_search.get_node r c = some n' ∧
        n'.parent = none ∧ n'.cost = ⊤ ∧ n'.depth = 0 ∧
        (n'.state = NodeState.wall ↔ n.state = NodeState.wall)) ∧
    (∃ ns', g.reset_search.get_node sr sc = some ns' ∧ ns'.state = NodeState.start) ∧
    (∃ nt', g.reset_search.get_node tr tc = some nt' ∧ nt'.state = NodeState.target) := by
  refine ⟨?_, ?_, ?_⟩
  · intro r c n hn
    rw [reset_get_node_char g sr sc tr tc ns nt hs ht h1 h3 hne r c]
    by_cases hS : sr = r ∧ sc = c
    · rw [if_pos hS, hn]
      refine ⟨_, rfl, rss_parent n, rss_cost n, rss_depth n, ?_⟩
      have hnn : n = ns := by
        rw [hS.1, hS.2] at h1
        rw [hn] at h1
        exact Option.some_injective _ h1
      constructor
      · intro hww
        exact absurd hww (by simp)
      · intro hww
        rw [hnn, h2] at hww
        exact absurd hww (by simp)
    · rw [if_neg hS]
      by_cases hT : tr = r ∧ tc = c
      · rw [if_pos hT, hn]
        refine ⟨_, rfl, rss_parent n, rss_cost n, rss_depth n, ?_⟩
        have hnn : n = nt := by
          rw [hT.1, hT.2] at h3
          rw [hn] at h3
          exact Option.some_injective _ h3
        constructor
        · intro hww
          exact absurd hww (by simp)
        · intro hww
          rw [hnn, h4] at hww
          exact absurd hww (by simp)
      · rw [if_neg hT, hn]
        exact ⟨_, rfl, rss_parent n, rss_cost n, rss_depth n, rss_wall_iff n⟩
  · rw [reset_get_node_char g sr sc tr tc ns nt hs ht h1 h3 hne sr sc]
    rw [if_pos ⟨rfl, rfl⟩, h1]
    exact ⟨_, rfl, rfl⟩
  · rw [reset_get_node_char g sr sc tr tc ns nt hs ht h1 h3 hne tr tc]
    rw [if_neg (fun hp => hne ⟨hp.1, hp.2⟩), if_pos ⟨rfl, rfl⟩, h3]
    exact ⟨_, rfl, rfl⟩

/-- Witness for C9: on a 5 x 5 grid whose cell (0,0) carries leftover VISITED
state, a parent, a finite cost and a nonzero depth, reset clears them all and
the cell is not a wall. -/
theorem reset_search_contract_witness :
    ∃ n', gWitness.reset_search.get_node 0 0 = some n' ∧
      n'.parent = none ∧ n'.cost = ⊤ ∧ n'.depth = 0 ∧ ¬n'.state = NodeState.wall := by
  obtain ⟨n', he, hp, hc, hd, hw⟩ :=
    (reset_search_contract gWitness 1 1 1 3
      { row := 1, col := 1, state := NodeState.start }
      { row := 1, col := 3, state := NodeState.target }
      (by decide) (by decide) (by decide) (by decide) (by decide) (by decide)
      (by decide)).1 0 0
      { row := 0
        col := 0
        state := NodeState.visited
        parent := some ((1 : Int), (1 : Int))
        cost := ((5 : ℚ) : WithTop ℚ)
        depth := 3 }
      (by decide)
  exact ⟨n', he, hp, hc, hd, fun hww => absurd (hw.mp hww) (by decide)⟩



theorem hReach_invariant {α : Type} {cap : Nat} (hcap : 0 < cap)
    (h : StepHistory α) (hr : HReach α cap h) :
    h.cap = cap ∧ h.buf.length ≤ cap ∧ h.cursor < (h.buf.length : Int) ∧
      (h.buf = [] → h.cursor = -1) ∧ (h.buf ≠ [] → 0 ≤ h.cursor) := by
  induction hr with
  | init =>
    refine ⟨rfl, by simp [hInit], by simp [hInit], fun _ => rfl, fun hne => ?_⟩
    exact absurd rfl hne
  | saved h0 s _ ih =>
    obtain ⟨ic, il, iu, ie, inn⟩ := ih
    unfold hRecord
    by_cases hfull : h0.buf.length ≥ h0.cap
    · have hne : h0.buf ≠ [] := by
        intro he
        rw [he] at hfull
        simp at hfull
        omega
      have hcur : 0 ≤ h0.cursor := inn hne
      rw [if_pos hfull]
      refine ⟨ic, ?_, ?_, ?_, fun _ => ?_⟩
      · simp [List.length_drop]
        omega
      · simp [List.length_drop]
        omega
      · intro he
        simp at he
      · dsimp only
        omega
    · rw [if_neg hfull]
      refine ⟨ic, ?_, ?_, ?_, fun _ => ?_⟩
      · simp
        omega
      · simp
        omega
      · intro he
        simp at he
      · dsimp only
        rcases eq_or_ne h0.buf [] with he | hne
        · have := ie he
          omega
        · have := inn hne
          omega
  | rewound h0 _ ih =>
    obtain ⟨ic, il, iu, ie, inn⟩ := ih
    unfold hRewind
    by_cases hpos : 0 < h0.cursor
    · rw [if_pos hpos]
      refine ⟨ic, il, by dsimp only; omega, fun he => ?_, fun _ => by dsimp only; omega⟩
      have := ie he
      omega
    · rw [if_neg hpos]
      exact ⟨ic, il, iu, ie, inn⟩

theorem drop_one_append_get? {α : Type} (l t : List α) (i : Nat) (hl : l ≠ []) :
    (l.drop 1 ++ t).get? i = (l ++ t).get? (i + 1) := by
  cases l with
  | nil => exact absurd rfl hl
  | cons x xs => simp

/-- C8.  For the step-history buffer, in every reachable state: the cursor is
a valid index while the buffer is non-empty; recording at capacity evicts the
oldest entry and the decrement keeps the cursor on the same logical snapshot
(the entry an unbounded buffer would show under the incremented cursor); and
rewind moves the cursor back exactly one position, being a no-op at
position 0. -/
theorem step_history_contract {α : Type} (cap : Nat) (hcap : 0 < cap)
    (h : StepHistory α) (hr : HReach α cap h) (s : α) :
    (h.buf ≠ [] → 0 ≤ h.cursor ∧ h.cursor < (h.buf.length : Int)) ∧
    (h.buf.length = cap →
      (hRecord h s).buf = h.buf.drop 1 ++ [s] ∧
      (hRecord h s).cursor = h.cursor ∧
      (hRecord h s).buf.get? (hRecord h s).cursor.toNat =
        (h.buf ++ [s]).get? (h.cursor + 1).toNat) ∧
    (0 < h.cursor → (hRewind h).cursor = h.cursor - 1 ∧ (hRewind h).buf = h.buf) ∧
    (h.cursor = 0 → hRewind h = h) := by
  obtain ⟨ic, il, iu, ie, inn⟩ := hReach_invariant hcap h hr
  refine ⟨fun hne => ⟨inn hne, iu⟩, fun hlen => ?_, fun hpos => ?_, fun hzero => ?_⟩
  · have hfull : h.buf.length ≥ h.cap := by omega
    have hne : h.buf ≠ [] := by
      intro he
      rw [he] at hlen
      simp at hlen
      omega
    have hcur : 0 ≤ h.cursor := inn hne
    unfold hRecord
    rw [if_pos hfull]
    dsimp only
    refine ⟨rfl, by omega, ?_⟩
    have h1 : h.cursor - 1 + 1 = h.cursor := by omega
    rw [h1]
    have h2 : (h.cursor + 1).toNat = h.cursor.toNat + 1 := by omega
    rw [h2]
    exact drop_one_append_get? h.buf [s] h.cursor.toNat hne
  · unfold hRewind
    rw [if_pos hpos]
    exact ⟨rfl, rfl⟩
  · unfold hRewind
    rw [if_neg (by omega)]

/-- Witness for C8: capacity 2 over natural-number snapshots; recording 1, 2,
then 3 evicts the oldest entry, leaving [2, 3] with the cursor at 1, the
same logical snapshot the unbounded buffer would show. -/
theorem step_history_contract_witness :
    (hRecord (hRecord (hRecord (hInit Nat 2) 1) 2) 3).buf = [2, 3] ∧
    (hRecord (hRecord (hRecord (hInit Nat 2) 1) 2) 3).cursor = 1 ∧
    (hRecord (hRecord (hRecord (hInit Nat 2) 1) 2) 3).buf.get?
      (hRecord (hRecord (hRecord (hInit Nat 2) 1) 2) 3).cursor.toNat = some 3 := by
  have h := step_history_contract 2 (by decide) (hRecord (hRecord (hInit Nat 2) 1) 2)
    (HReach.saved _ 2 (HReach.saved _ 1 HReach.init)) 3
  obtain ⟨hb, hc, hsame⟩ := h.2.1 (by decide)
  refine ⟨?_, ?_, ?_⟩
  · rw [hb]
    decide
  · rw [hc]
    decide
  · rw [hsame]
    decide


theorem mapIdxFrom_get? {α β : Type} (f : Nat → α → β) (i j : Nat) (l : List α) :
    (mapIdxFrom f i l).get? j = (l.get? j).map (f (i + j)) := by
  induction l generalizing i j with
  | nil => simp [mapIdxFrom]
  | cons a t ih =>
    cases j with
    | zero => simp [mapIdxFrom]
    | succ j =>
      simp only [mapIdxFrom, List.get?_cons_succ, ih (i + 1) j]
      have hidx : i + 1 + j = i + (j + 1) := by omega
      rw [hidx]

theorem get_node_restoreGrid (g : Grid) (snap : List (List NodeState)) (r c : Int) :
    (restoreGrid g snap).get_node r c =
      (g.get_node r c).map (restoreCell snap r.toNat c.toNat) := by
  unfold Grid.get_node restoreGrid
  by_cases hb : 0 ≤ r ∧ r < (g.rows : Int) ∧ 0 ≤ c ∧ c < (g.cols : Int)
  · simp only [hb, if_true]
    rw [mapIdxFrom_get?]
    cases hgr : g.grid.get? r.toNat with
    | none => simp
    | some row =>
      simp only [Option.map_some', Option.some_bind, Nat.zero_add]
      rw [mapIdxFrom_get?]
      simp
  · simp [hb]

theorem restoreCell_keeps (snap : List (List NodeState)) (ri ci : Nat) (n : Node)
    (h : n.state = NodeState.wall ∨ n.state = NodeState.start ∨
      n.state = NodeState.target) :
    restoreCell snap ri ci n = n := by
  unfold restoreCell
  rcases h with h | h | h <;> simp [h]

theorem wstCompat_recorded (g : Grid) : wstCompat g (recordedStates g) := by
  intro r c n hn st hst
  have hb := get_node_some_bounds hn
  unfold Grid.get_node at hn
  rw [if_pos hb] at hn
  unfold recordedStates at hst
  rw [List.get?_map] at hst
  cases hgr : g.grid.get? r.toNat with
  | none =>
    rw [hgr] at hn
    simp at hn
  | some row =>
    rw [hgr] at hn hst
    simp only [Option.some_bind, Option.map_some'] at hn hst
    rw [List.get?_map, hn] at hst
    simp only [Option.map_some', Option.some.injEq] at hst
    subst hst
    exact ⟨Iff.rfl, Iff.rfl, Iff.rfl⟩

theorem restore_node_props (g : Grid) (snap : List (List NodeState))
    (hc : wstCompat g snap) (r c : Int) (n : Node) (hn : g.get_node r c = some n) :
    ∃ n', (restoreGrid g snap).get_node r c = some n' ∧
      ((n.state = NodeState.wall ∨ n.state = NodeState.start ∨
        n.state = NodeState.target) → n' = n) ∧
      (n'.state = NodeState.wall ↔ n.state = NodeState.wall) ∧
      (n'.state = NodeState.start ↔ n.state = NodeState.start) ∧
      (n'.state = NodeState.target ↔ n.state = NodeState.target) := by
  refine ⟨restoreCell snap r.toNat c.toNat n, ?_, ?_, ?_⟩
  · rw [get_node_restoreGrid, hn]
    rfl
  · intro h
    exact restoreCell_keeps snap r.toNat c.toNat n (by tauto)
  · unfold restoreCell
    by_cases hw : n.state = NodeState.start ∨ n.state = NodeState.target ∨
        n.state = NodeState.wall
    · rw [if_pos hw]
      exact ⟨Iff.rfl, Iff.rfl, Iff.rfl⟩
    · rw [if_neg hw]
      cases hlk : (snap.get? r.toNat).bind (fun sr => sr.get? c.toNat) with
      | none => exact ⟨Iff.rfl, Iff.rfl, Iff.rfl⟩
      | some st =>
        have := hc r c n hn st hlk
        dsimp only
        exact this

theorem wstCompat_restore (g : Grid) (snap0 snap : List (List NodeState))
    (hc0 : wstCompat g snap0) (hc : wstCompat g snap) :
    wstCompat (restoreGrid g snap0) snap := by
  intro r c n' hn' st hst
  rw [get_node_restoreGrid] at hn'
  cases hn : g.get_node r c with
  | none =>
    rw [hn] at hn'
    simp at hn'
  | some n =>
    rw [hn] at hn'
    simp only [Option.map_some', Option.some.injEq] at hn'
    obtain ⟨nX, hgX, hkeepX, hA, hB, hC⟩ := restore_node_props g snap0 hc0 r c n hn
    have hXeq : nX = n' := by
      rw [get_node_restoreGrid, hn] at hgX
      simp only [Option.map_some', Option.some.injEq] at hgX
      exact hgX.symm.trans hn'
    rw [hXeq] at hA hB hC
    obtain ⟨sA, sB, sC⟩ := hc r c n hn st hst
    exact ⟨sA.trans hA.symm, sB.trans hB.symm, sC.trans hC.symm⟩

theorem simRewind_hist (s : SimHist) : (simRewind s).hist = s.hist := by
  unfold simRewind
  by_cases h1 : 0 < s.idx
  · rw [if_pos h1]
    dsimp only
    by_cases h2 : 0 ≤ s.idx - 1 ∧ s.idx - 1 < (s.hist.length : Int)
    · rw [if_pos h2]
      cases s.hist.get? (s.idx - 1).toNat <;> rfl
    · rw [if_neg h2]
  · rw [if_neg h1]

theorem simRewind_g_cases (s : SimHist) :
    (simRewind s).g = s.g ∨
      ∃ snap ∈ s.hist, (simRewind s).g = restoreGrid s.g snap := by
  unfold simRewind
  by_cases h1 : 0 < s.idx
  · rw [if_pos h1]
    dsimp only
    by_cases h2 : 0 ≤ s.idx - 1 ∧ s.idx - 1 < (s.hist.length : Int)
    · rw [if_pos h2]
      cases hsnap : s.hist.get? (s.idx - 1).toNat with
      | some snap =>
        right
        exact ⟨snap, List.get?_mem hsnap, rfl⟩
      | none =>
        left
        rfl
    · rw [if_neg h2]
      left
      rfl
  · rw [if_neg h1]
    left
    rfl

/-- C10.  Restoring recorded snapshots through rewinding never modifies any
cell whose state is WALL, START or TARGET (such cells keep their entire node
value), and after any number of rewinds the set of wall cells and the start
and target cells are exactly the same as before, for every history whose
snapshots were recorded while the current topology was in place. -/
theorem rewind_frame_contract (s : SimHist)
    (hcompat : ∀ snap ∈ s.hist, wstCompat s.g snap) (k : Nat) (r c : Int) (n : Node)
    (hn : s.g.get_node r c = some n) :
    ∃ n', ((simRewind^[k]) s).g.get_node r c = some n' ∧
      ((n.state = NodeState.wall ∨ n.state = NodeState.start ∨
        n.state = NodeState.target) → n' = n) ∧
      (n'.state = NodeState.wall ↔ n.state = NodeState.wall) ∧
      (n'.state = NodeState.start ↔ n.state = NodeState.start) ∧
      (n'.state = NodeState.target ↔ n.state = NodeState.target) := by
  induction k generalizing s n with
  | zero => exact ⟨n, hn, fun _ => rfl, Iff.rfl, Iff.rfl, Iff.rfl⟩
  | succ k ih =>
    rw [Function.iterate_succ_apply]
    have hcompat' : ∀ snap ∈ (simRewind s).hist, wstCompat (simRewind s).g snap := by
      rw [simRewind_hist]
      rcases simRewind_g_cases s with hid | ⟨snap0, hmem0, hrest⟩
      · rw [hid]
        exact hcompat
      · rw [hrest]
        intro snap hm
        exact wstCompat_restore s.g snap0 snap (hcompat snap0 hmem0) (hcompat snap hm)
    rcases simRewind_g_cases s with hid | ⟨snap0, hmem0, hrest⟩
    · obtain ⟨n', hg, hkeep, hA, hB, hC⟩ := ih (simRewind s) hcompat' n (by rw [hid]; exact hn)
      exact ⟨n', hg, hkeep, hA, hB, hC⟩
    · obtain ⟨nm, hgm, hkeepm, hAm, hBm, hCm⟩ :=
        restore_node_props s.g snap0 (hcompat snap0 hmem0) r c n hn
      obtain ⟨n', hg, hkeep, hA, hB, hC⟩ := ih (simRewind s) hcompat' nm (by rw [hrest]; exact hgm)
      refine ⟨n', hg, ?_, hA.trans hAm, hB.trans hBm, hC.trans hCm⟩
      intro hw
      have hnm : nm = n := hkeepm hw
      have hnmw : nm.state = NodeState.wall ∨ nm.state = NodeState.start ∨
          nm.state = NodeState.target := by
        rw [hnm]
        exact hw
      rw [hkeep hnmw, hnm]

/-- Witness for C10: on the 3 x 3 grid with a wall at (1,1) and a two-entry
recorded history, one rewind leaves the wall at (1,1) in place. -/
theorem rewind_frame_contract_witness :
    ∃ n', ((simRewind^[1]) c10Sim).g.get_node 1 1 = some n' ∧
      n'.state = NodeState.wall := by
  obtain ⟨n', hg, hkeep, hA, hB, hC⟩ := rewind_frame_contract c10Sim
    (by
      intro snap hsnap
      have hforms : snap = recordedStates c10Grid := by
        simpa [c10Sim] using hsnap
      rw [hforms]
      exact wstCompat_recorded c10Sim.g) 1 1 1
    { row := 1, col := 1, state := NodeState.wall } (by decide)
  exact ⟨n', hg, hA.mpr (by decide)⟩

/-- C3 evidence.  On the open 1 x 3 grid (start (0,0), target (0,2)) the
bidirectional search meets at (0,1), but the terminal snapshot's path is
[(0,0), (0,2), (0,1)]: the target-side expansion overwrote the meeting
point's parent with the backward pointer and the reconstruction returns only
the start-side walk, so the path does not end at the target as the contract
requires. -/
theorem bidirectional_incomplete_path :
    (terminalSnap (bidiSolve (Grid.init 1 3) 10)).map (·.path) =
      some (some [((0 : Int), (0 : Int)), (0, 2), (0, 1)]) ∧
    (Grid.init 1 3).target_pos = ((0 : Int), (2 : Int)) ∧
    ¬[((0 : Int), (0 : Int)), (0, 2), (0, 1)].getLast? =
        some (Grid.init 1 3).target_pos := by
  refine ⟨?_, ?_, ?_⟩ <;> decide


theorem heapMin_eq_none {h : List (ℚ × Nat × Cell)} :
    heapMin h = none ↔ h = [] := by
  cases h with
  | nil => simp [heapMin]
  | cons a t =>
    simp only [heapMin]
    cases heapMin t with
    | none => simp
    | some m =>
      dsimp only
      split <;> simp

theorem heapMin_spec (h : List (ℚ × Nat × Cell)) (m : ℚ × Nat × Cell)
    (hm : heapMin h = some m) :
    m ∈ h ∧ ∀ e ∈ h, m.1 < e.1 ∨ (m.1 = e.1 ∧ m.2.1 ≤ e.2.1) := by
  induction h generalizing m with
  | nil => simp [heapMin] at hm
  | cons a t ih =>
    unfold heapMin at hm
    cases hmt : heapMin t with
    | none =>
      rw [hmt] at hm
      have ht : t = [] := heapMin_eq_none.mp hmt
      subst ht
      simp only [Option.some.injEq] at hm
      subst hm
      refine ⟨List.mem_singleton_self a, ?_⟩
      intro e he
      rw [List.mem_singleton] at he
      subst he
      exact Or.inr ⟨rfl, le_refl _⟩
    | some mt =>
      rw [hmt] at hm
      dsimp only at hm
      obtain ⟨memt, let'⟩ := ih mt hmt
      by_cases hlt : mt.1 < a.1 ∨ (mt.1 = a.1 ∧ mt.2.1 < a.2.1)
      · rw [if_pos hlt] at hm
        simp only [Option.some.injEq] at hm
        subst hm
        refine ⟨List.mem_cons_of_mem a memt, ?_⟩
        intro e he
        rcases List.mem_cons.mp he with he | he
        · subst he
          rcases hlt with hlt | ⟨heq, hcnt⟩
          · exact Or.inl hlt
          · exact Or.inr ⟨heq, le_of_lt hcnt⟩
        · exact let' e he
      · rw [if_neg hlt] at hm
        simp only [Option.some.injEq] at hm
        subst hm
        push_neg at hlt
        obtain ⟨hle, hcnt⟩ := hlt
        refine ⟨List.mem_cons_self a t, ?_⟩
        intro e he
        rcases List.mem_cons.mp he with he | he
        · subst he
          exact Or.inr ⟨rfl, le_refl _⟩
        · have hme := let' e he
          rcases lt_or_eq_of_le hle with hma | hma
          · rcases hme with hme | ⟨hme, _⟩
            · exact Or.inl (lt_trans hma hme)
            · exact Or.inl (hme ▸ hma)
          · rcases hme with hme | ⟨hme, hcnte⟩
            · exact Or.inl (hma ▸ hme)
            · refine Or.inr ⟨hma.trans hme, ?_⟩
              have := hcnt hma.symm
              omega

/-- C4.  UCS is deterministic: two runs on the same grid produce the same
sequence of snapshots and hence the same final path.  The embedding of
UCSSolver.solve is a pure function of the grid — unlike RandomizedDFS it
consumes no randomness — so run-to-run equality is definitional; the
substantive ingredient, also proved here, is that the heap pop is determined
by the heap's contents alone: whenever the tie-breaking counters are
pairwise distinct (heapq compares (cost, counter, node) tuples and every push
uses a fresh counter, so the node objects are never compared), any two
permutations of the heap yield the same minimum. -/
theorem ucs_deterministic :
    (∀ (g : Grid) (fuel : Nat),
      ucsSolve g fuel = ucsSolve g fuel ∧
      (terminalSnap (ucsSolve g fuel)).map (fun s => s.path) =
        (terminalSnap (ucsSolve g fuel)).map (fun s => s.path)) ∧
    (∀ h1 h2 : List (ℚ × Nat × Cell), h1.Perm h2 →
      (h1.map (fun e => e.2.1)).Nodup → heapMin h1 = heapMin h2) := by
  refine ⟨fun g fuel => ⟨rfl, rfl⟩, ?_⟩
  intro h1 h2 hp hnd
  cases hm1 : heapMin h1 with
  | none =>
    have h1e : h1 = [] := heapMin_eq_none.mp hm1
    subst h1e
    have h2e : h2 = [] := hp.nil_eq.symm
    subst h2e
    rfl
  | some m1 =>
    cases hm2 : heapMin h2 with
    | none =>
      have h2e : h2 = [] := heapMin_eq_none.mp hm2
      subst h2e
      have h1e : h1 = [] := hp.eq_nil
      subst h1e
      simp [heapMin] at hm1
    | some m2 =>
      obtain ⟨mem1, le1⟩ := heapMin_spec h1 m1 hm1
      obtain ⟨mem2, le2⟩ := heapMin_spec h2 m2 hm2
      have mem2' : m2 ∈ h1 := hp.mem_iff.mpr mem2
      have mem1' : m1 ∈ h2 := hp.mem_iff.mp mem1
      have h12 := le1 m2 mem2'
      have h21 := le2 m1 mem1'
      have hcnt : m1.2.1 = m2.2.1 := by
        rcases h12 with h12 | ⟨e12, c12⟩ <;> rcases h21 with h21 | ⟨e21, c21⟩
        · exact absurd (lt_trans h12 h21) (lt_irrefl _)
        · exact absurd (e21 ▸ h12) (lt_irrefl _)
        · exact absurd (e12 ▸ h21) (lt_irrefl _)
        · omega
      have heq : m1 = m2 := List.inj_on_of_nodup_map hnd mem1 mem2' hcnt
      rw [heq]

/-- Witness for C4: the permutation invariance of the heap minimum at a
concrete two-entry heap with distinct counters. -/
theorem ucs_deterministic_witness :
    heapMin [((2 : ℚ), 1, ((0 : Int), (0 : Int))), ((1 : ℚ), 2, ((1 : Int), (1 : Int)))] =
      heapMin [((1 : ℚ), 2, ((1 : Int), (1 : Int))), ((2 : ℚ), 1, ((0 : Int), (0 : Int)))] := by
  exact ucs_deterministic.2
    [((2 : ℚ), 1, ((0 : Int), (0 : Int))), ((1 : ℚ), 2, ((1 : Int), (1 : Int)))]
    [((1 : ℚ), 2, ((1 : Int), (1 : Int))), ((2 : ℚ), 1, ((0 : Int), (0 : Int)))]
    (List.Perm.swap _ _ _) (by decide)


theorem openCell_iff (g : Grid) (c : Cell) :
    openCell g c = true ↔
      ∃ n, g.get_node c.1 c.2 = some n ∧ n.state ≠ NodeState.wall := by
  unfold openCell
  cases hn : g.get_node c.1 c.2 with
  | none => simp
  | some n => simp

theorem mem_openCells (g : Grid) (c : Cell) :
    c ∈ openCells g ↔ openCell g c = true := by
  unfold openCells
  rw [List.mem_bind]
  constructor
  · rintro ⟨r, -, hr⟩
    rw [List.mem_filterMap] at hr
    obtain ⟨cc, -, hcc⟩ := hr
    by_cases hoc : openCell g (Int.ofNat r, Int.ofNat cc) = true
    · rw [if_pos hoc] at hcc
      obtain rfl := Option.some_injective _ hcc
      exact hoc
    · rw [if_neg hoc] at hcc
      exact absurd hcc (by simp)
  · intro hoc
    have hbounds : ∃ n, g.get_node c.1 c.2 = some n ∧ n.state ≠ NodeState.wall :=
      (openCell_iff g c).mp hoc
    obtain ⟨n, hn, -⟩ := hbounds
    have hb := get_node_some_bounds hn
    refine ⟨c.1.toNat, ?_, ?_⟩
    · rw [List.mem_range]
      omega
    · rw [List.mem_filterMap]
      refine ⟨c.2.toNat, ?_, ?_⟩
      · rw [List.mem_range]
        omega
      · have hc1 : ((Int.ofNat c.1.toNat, Int.ofNat c.2.toNat) : Cell) = c := by
          obtain ⟨a, b⟩ := c
          simp only [Prod.mk.injEq, Int.ofNat_eq_coe]
          constructor <;> omega
        rw [hc1, if_pos hoc]


theorem runSolver_bound {σ : Type} (step : σ → StepOut σ) (visited : σ → List Cell)
    (μ : σ → Nat) (Inv : σ → Prop) (OC : List Cell) (T : Cell) (hT : T ∈ OC)
    (hskip : ∀ s s', Inv s → step s = StepOut.skip s' →
      Inv s' ∧ visited s' = visited s ∧ μ s' < μ s)
    (hyield : ∀ s s' snap, Inv s → step s = StepOut.yieldSnap s' snap →
      Inv s' ∧ μ s' < μ s ∧ ∃ c, c ∉ visited s ∧ c ∈ OC ∧ visited s' = visited s ++ [c])
    (hdone : ∀ s snap, Inv s → step s = StepOut.done snap → ∃ p, snap.path = some p)
    (hvis : ∀ s, Inv s → (visited s).Nodup ∧ T ∉ visited s ∧ ∀ c ∈ visited s, c ∈ OC) :
    ∀ (fuel : Nat) (s : σ), Inv s → μ s < fuel →
      ∃ snaps, runSolver step fuel s = some snaps ∧
        snaps.length + (visited s).length ≤ OC.toFinset.card ∧
        ∃ last, snaps.getLast? = some last ∧ last.path ≠ none := by
  intro fuel
  induction fuel with
  | zero =>
    intro s hs hμ
    omega
  | succ fuel ih =>
    intro s hs hμ
    cases hstep : step s with
    | done snap =>
      refine ⟨[snap], by simp [runSolver, hstep], ?_, snap, by simp, ?_⟩
      · obtain ⟨hnd, hTn, hsub⟩ := hvis s hs
        have hsubF : (visited s).toFinset ⊆ OC.toFinset.erase T := by
          intro x hx
          rw [List.mem_toFinset] at hx
          rw [Finset.mem_erase]
          exact ⟨fun hxT => hTn (hxT ▸ hx), List.mem_toFinset.mpr (hsub x hx)⟩
        have hcard := Finset.card_le_card hsubF
        rw [Finset.card_erase_of_mem (List.mem_toFinset.mpr hT)] at hcard
        have hlen : (visited s).toFinset.card = (visited s).length :=
          List.toFinset_card_of_nodup hnd
        have hTcard : 0 < OC.toFinset.card :=
          Finset.card_pos.mpr ⟨T, List.mem_toFinset.mpr hT⟩
        simp only [List.length_singleton]
        omega
      · obtain ⟨p, hp⟩ := hdone s snap hs hstep
        simp [hp]
    | skip s' =>
      obtain ⟨hi', hveq, hμ'⟩ := hskip s s' hs hstep
      obtain ⟨snaps, hrun, hbound, last, hlast, hpath⟩ := ih s' hi' (by omega)
      rw [hveq] at hbound
      exact ⟨snaps, by simp [runSolver, hstep, hrun], hbound, last, hlast, hpath⟩
    | yieldSnap s' snap =>
      obtain ⟨hi', hμ', c, hcn, hcOC, hveq⟩ := hyield s s' snap hs hstep
      obtain ⟨snaps, hrun, hbound, last, hlast, hpath⟩ := ih s' hi' (by omega)
      have hne : snaps ≠ [] := by
        intro h
        rw [h] at hlast
        simp at hlast
      refine ⟨snap :: snaps, by simp [runSolver, hstep, hrun], ?_, last, ?_, hpath⟩
      · rw [hveq] at hbound
        simp only [List.length_append, List.length_singleton] at hbound
        simp only [List.length_cons]
        omega
      · cases snaps with
        | nil => exact absurd rfl hne
        | cons a t => rw [List.getLast?_cons_cons]; exact hlast


theorem neighborsPos_foldl_step (g : Grid) (acc : List Cell) (row col : Int) :
    (match g.get_node row col with
      | some nb => if nb.state ≠ NodeState.wall then acc ++ [nb.get_pos] else acc
      | none => acc) = acc ++ openNbPos g row col := by
  unfold openNbPos
  cases g.get_node row col with
  | none => simp
  | some nb =>
    by_cases h : nb.state = NodeState.wall <;> simp [h]

theorem neighborsPos_eq (g : Grid) (c : Cell) :
    g.neighborsPos c =
      openNbPos g (c.1 - 1) c.2 ++ openNbPos g c.1 (c.2 + 1) ++
        openNbPos g (c.1 + 1) c.2 ++ openNbPos g (c.1 + 1) (c.2 + 1) ++
        openNbPos g c.1 (c.2 - 1) ++ openNbPos g (c.1 - 1) (c.2 - 1) := by
  show directions.foldl _ [] = _
  simp only [directions, List.foldl_cons, List.foldl_nil]
  rw [neighborsPos_foldl_step, neighborsPos_foldl_step, neighborsPos_foldl_step,
    neighborsPos_foldl_step, neighborsPos_foldl_step, neighborsPos_foldl_step]
  simp [sub_eq_add_neg]

theorem openNbPos_length (g : Grid) (row col : Int) :
    (openNbPos g row col).length ≤ 1 := by
  unfold openNbPos
  cases g.get_node row col with
  | none => simp
  | some nb =>
    by_cases h : nb.state = NodeState.wall <;> simp [h]

theorem length_neighborsPos_le (g : Grid) (c : Cell) :
    (g.neighborsPos c).length ≤ 6 := by
  rw [neighborsPos_eq]
  simp only [List.length_append]
  have h1 := openNbPos_length g (c.1 - 1) c.2
  have h2 := openNbPos_length g c.1 (c.2 + 1)
  have h3 := openNbPos_length g (c.1 + 1) c.2
  have h4 := openNbPos_length g (c.1 + 1) (c.2 + 1)
  have h5 := openNbPos_length g c.1 (c.2 - 1)
  have h6 := openNbPos_length g (c.1 - 1) (c.2 - 1)
  omega

theorem open_of_mem_openNbPos (g : Grid) (hcoh : coherent g) (row col : Int)
    (nb : Cell) (h : nb ∈ openNbPos g row col) : openCell g nb = true := by
  unfold openNbPos at h
  cases hn : g.get_node row col with
  | none =>
    rw [hn] at h
    simp at h
  | some n =>
    rw [hn] at h
    by_cases hw : n.state = NodeState.wall
    · simp [hw] at h
    · simp [hw] at h
      subst h
      have hpos := hcoh row col n hn
      rw [openCell_iff]
      refine ⟨n, ?_, hw⟩
      rw [hpos]
      exact hn

theorem mem_neighborsPos_open (g : Grid) (hcoh : coherent g) (c nb : Cell)
    (h : nb ∈ g.neighborsPos c) : openCell g nb = true := by
  rw [neighborsPos_eq] at h
  simp only [List.mem_append] at h
  rcases h with ((((h | h) | h) | h) | h) | h <;>
    exact open_of_mem_openNbPos g hcoh _ _ nb h

theorem coherent_of_coherentB (g : Grid) (h : coherentB g = true) : coherent g := by
  intro r c n hn
  have hb := get_node_some_bounds hn
  unfold coherentB at h
  rw [List.all_eq_true] at h
  have h1 := h r.toNat (by rw [List.mem_range]; omega)
  rw [List.all_eq_true] at h1
  have h2 := h1 c.toNat (by rw [List.mem_range]; omega)
  have hr : (Int.ofNat r.toNat) = r := by
    rw [Int.ofNat_eq_coe]
    exact Int.toNat_of_nonneg hb.1
  have hc : (Int.ofNat c.toNat) = c := by
    rw [Int.ofNat_eq_coe]
    exact Int.toNat_of_nonneg hb.2.2.1
  rw [hr, hc, hn] at h2
  simpa using h2


theorem bfsFold_props (g : Grid) (cur : Cell) (nbs : List Cell) (s : BFSState) :
    (nbs.foldl (fun s nb =>
        if nb ∉ s.visited ∧ nb ∉ s.frontier then
          { s with parent := (nb, cur) :: s.parent, frontier := s.frontier ++ [nb] }
        else s) s).visited = s.visited ∧
    (nbs.foldl (fun s nb =>
        if nb ∉ s.visited ∧ nb ∉ s.frontier then
          { s with parent := (nb, cur) :: s.parent, frontier := s.frontier ++ [nb] }
        else s) s).frontier.length ≤ s.frontier.length + nbs.length ∧
    ∀ c ∈ (nbs.foldl (fun s nb =>
        if nb ∉ s.visited ∧ nb ∉ s.frontier then
          { s with parent := (nb, cur) :: s.parent, frontier := s.frontier ++ [nb] }
        else s) s).frontier, c ∈ s.frontier ∨ c ∈ nbs := by
  induction nbs generalizing s with
  | nil => exact ⟨rfl, by simp, fun c hc => Or.inl hc⟩
  | cons nb rest ih =>
    simp only [List.foldl_cons]
    by_cases hcond : nb ∉ s.visited ∧ nb ∉ s.frontier
    · rw [if_pos hcond]
      obtain ⟨hv, hl, hm⟩ :=
        ih { s with parent := (nb, cur) :: s.parent, frontier := s.frontier ++ [nb] }
      refine ⟨hv, ?_, ?_⟩
      · simp only [List.length_append, List.length_singleton, List.length_cons,
          List.length_nil] at hl ⊢
        omega
      · intro c hc
        rcases hm c hc with hc' | hc'
        · rw [List.mem_append] at hc'
          rcases hc' with hc' | hc'
          · exact Or.inl hc'
          · rw [List.mem_singleton] at hc'
            exact Or.inr (hc' ▸ List.mem_cons_self nb rest)
        · exact Or.inr (List.mem_cons_of_mem nb hc')
    · rw [if_neg hcond]
      obtain ⟨hv, hl, hm⟩ := ih s
      refine ⟨hv, by simp only [List.length_cons]; omega, ?_⟩
      intro c hc
      rcases hm c hc with hc' | hc'
      · exact Or.inl hc'
      · exact Or.inr (List.mem_cons_of_mem nb hc')

theorem nodup_sub_length {l OC : List Cell} (hnd : l.Nodup) (hsub : ∀ c ∈ l, c ∈ OC) :
    l.length ≤ OC.length := by
  calc l.length = l.toFinset.card := (List.toFinset_card_of_nodup hnd).symm
    _ ≤ OC.toFinset.card :=
        Finset.card_le_card fun x hx =>
          List.mem_toFinset.mpr (hsub x (List.mem_toFinset.mp hx))
    _ ≤ OC.length := OC.toFinset_card_le

theorem bfsStep_cases (g : Grid) (s : BFSState) :
    (s.frontier = [] ∧ bfsStep g s = StepOut.done ⟨[], s.visited, some []⟩) ∨
    (∃ cur rest, s.frontier = cur :: rest ∧ cur ∈ s.visited ∧
      bfsStep g s = StepOut.skip { s with frontier := rest }) ∨
    (∃ cur rest, s.frontier = cur :: rest ∧ cur ∉ s.visited ∧ cur = g.target_pos ∧
      bfsStep g s = StepOut.done
        ⟨rest, s.visited ++ [cur], some (reconstruct_path s.parent cur)⟩) ∨
    (∃ cur rest, s.frontier = cur :: rest ∧ cur ∉ s.visited ∧ cur ≠ g.target_pos ∧
      bfsStep g s = StepOut.yieldSnap
        (bfsExpand g cur { frontier := rest, visited := s.visited ++ [cur], parent := s.parent })
        ⟨(bfsExpand g cur
            { frontier := rest, visited := s.visited ++ [cur], parent := s.parent }).frontier,
          (bfsExpand g cur
            { frontier := rest, visited := s.visited ++ [cur], parent := s.parent }).visited,
          none⟩) := by
  unfold bfsStep
  cases hf : s.frontier with
  | nil => exact Or.inl ⟨rfl, rfl⟩
  | cons cur rest =>
    by_cases hvis : cur ∈ s.visited
    · refine Or.inr (Or.inl ⟨cur, rest, rfl, hvis, ?_⟩)
      dsimp only
      rw [if_pos hvis]
    · by_cases htar : cur = g.target_pos
      · refine Or.inr (Or.inr (Or.inl ⟨cur, rest, rfl, hvis, htar, ?_⟩))
        dsimp only
        rw [if_neg hvis, if_pos htar]
      · refine Or.inr (Or.inr (Or.inr ⟨cur, rest, rfl, hvis, htar, ?_⟩))
        dsimp only
        rw [if_neg hvis, if_neg htar]

/-- BFS terminates with a terminal snapshot within a number of yielded
snapshots bounded by the number of open cells, on every coherent grid whose
endpoints are open. -/
theorem bfs_bound (g : Grid) (hcoh : coherent g)
    (hso : openCell g g.start_pos = true) (hto : openCell g g.target_pos = true) :
    ∃ snaps, bfsSolve g (7 * ((openCells g).length + 1) + 2) = some snaps ∧
      snaps.length ≤ (openCells g).length ∧
      ∃ last, snaps.getLast? = some last ∧ last.path ≠ none := by
  have hT : g.target_pos ∈ openCells g := (mem_openCells g _).mpr hto
  have hmain := runSolver_bound (bfsStep g) BFSState.visited (bfsMeasure g) (bfsInv g)
    (openCells g) g.target_pos hT
    (by
      intro s s' hs hstep
      rcases bfsStep_cases g s with ⟨hf, he⟩ | ⟨cur, rest, hf, hvis, he⟩ |
        ⟨cur, rest, hf, hvis, htar, he⟩ | ⟨cur, rest, hf, hvis, htar, he⟩
      · rw [he] at hstep
        exact StepOut.noConfusion hstep
      · rw [he] at hstep
        injection hstep with h1
        subst h1
        obtain ⟨hfo, hnd, hTn, hvsub⟩ := hs
        refine ⟨⟨?_, hnd, hTn, hvsub⟩, rfl, ?_⟩
        · intro c hc
          exact hfo c (hf ▸ List.mem_cons_of_mem cur hc)
        · unfold bfsMeasure
          rw [hf]
          simp only [List.length_cons]
          omega
      · rw [he] at hstep
        exact StepOut.noConfusion hstep
      · rw [he] at hstep
        exact StepOut.noConfusion hstep)
    (by
      intro s s' snap hs hstep
      rcases bfsStep_cases g s with ⟨hf, he⟩ | ⟨cur, rest, hf, hvis, he⟩ |
        ⟨cur, rest, hf, hvis, htar, he⟩ | ⟨cur, rest, hf, hvis, htar, he⟩
      · rw [he] at hstep
        exact StepOut.noConfusion hstep
      · rw [he] at hstep
        exact StepOut.noConfusion hstep
      · rw [he] at hstep
        exact StepOut.noConfusion hstep
      · rw [he] at hstep
        injection hstep with h1 h2
        subst h1
        obtain ⟨hfo, hnd, hTn, hvsub⟩ := hs
        have hcur_open : openCell g cur = true := hfo cur (hf ▸ List.mem_cons_self cur rest)
        have hcur_mem : cur ∈ openCells g := (mem_openCells g cur).mpr hcur_open
        obtain ⟨hv, hl, hm⟩ := bfsFold_props g cur (g.neighborsPos cur)
          { frontier := rest, visited := s.visited ++ [cur], parent := s.parent }
        have hbv : (bfsExpand g cur
            { frontier := rest, visited := s.visited ++ [cur], parent := s.parent }).visited =
            s.visited ++ [cur] := hv
        refine ⟨⟨?_, ?_, ?_, ?_⟩, ?_, cur, hvis, hcur_mem, hbv⟩
        · intro c hc
          rcases hm c hc with hc' | hc'
          · exact hfo c (hf ▸ List.mem_cons_of_mem cur hc')
          · exact mem_neighborsPos_open g hcoh cur c hc'
        · rw [hbv]
          simp only [List.nodup_append, List.nodup_singleton, List.disjoint_singleton]
          exact ⟨hnd, trivial, hvis⟩
        · rw [hbv]
          simp only [List.mem_append, List.mem_singleton]
          intro hcon
          rcases hcon with hcon | hcon
          · exact hTn hcon
          · exact htar hcon.symm
        · rw [hbv]
          intro c hc
          rcases List.mem_append.mp hc with hc' | hc'
          · exact hvsub c hc'
          · rw [List.mem_singleton] at hc'
            exact hc' ▸ hcur_mem
        · unfold bfsMeasure
          rw [hbv, hf]
          have hnb := length_neighborsPos_le g cur
          have hvlen : s.visited.length ≤ (openCells g).length := nodup_sub_length hnd hvsub
          have hexp : (bfsExpand g cur
              { frontier := rest, visited := s.visited ++ [cur],
                parent := s.parent }).frontier.length ≤
              rest.length + (g.neighborsPos cur).length := by
            simpa using hl
          simp only [List.length_append, List.length_singleton, List.length_cons]
          omega)
    (by
      intro s snap hs hstep
      rcases bfsStep_cases g s with ⟨hf, he⟩ | ⟨cur, rest, hf, hvis, he⟩ |
        ⟨cur, rest, hf, hvis, htar, he⟩ | ⟨cur, rest, hf, hvis, htar, he⟩
      · rw [he] at hstep
        injection hstep with h1
        exact ⟨[], by rw [← h1]⟩
      · rw [he] at hstep
        exact StepOut.noConfusion hstep
      · rw [he] at hstep
        injection hstep with h1
        exact ⟨reconstruct_path s.parent cur, by rw [← h1]⟩
      · rw [he] at hstep
        exact StepOut.noConfusion hstep)
    (fun s hs => ⟨hs.2.1, hs.2.2.1, hs.2.2.2⟩)
    (7 * ((openCells g).length + 1) + 2) (bfsInit g)
    (by
      refine ⟨?_, by simp [bfsInit], by simp [bfsInit], by simp [bfsInit]⟩
      intro c hc
      simp only [bfsInit, List.mem_singleton] at hc
      exact hc ▸ hso)
    (by
      unfold bfsMeasure bfsInit
      simp only [List.length_singleton, List.length_nil]
      omega)
  obtain ⟨snaps, hrun, hbound, last, hlast, hpath⟩ := hmain
  obtain ⟨ns, hns, -⟩ := (openCell_iff g g.start_pos).mp hso
  obtain ⟨nt, hnt, -⟩ := (openCell_iff g g.target_pos).mp hto
  refine ⟨snaps, ?_, ?_, last, hlast, hpath⟩
  · unfold bfsSolve
    rw [hns, hnt]
    exact hrun
  · have hcard := (openCells g).toFinset_card_le
    simp only [bfsInit, List.length_nil] at hbound
    omega

theorem dfsFold_props (cur : Cell) (nbs : List Cell) (s : BFSState) :
    (nbs.foldl (fun s nb =>
        if nb ∉ s.visited ∧ nb ∉ s.frontier then
          { s with parent := (nb, cur) :: s.parent, frontier := nb :: s.frontier }
        else s) s).visited = s.visited ∧
    (nbs.foldl (fun s nb =>
        if nb ∉ s.visited ∧ nb ∉ s.frontier then
          { s with parent := (nb, cur) :: s.parent, frontier := nb :: s.frontier }
        else s) s).frontier.length ≤ s.frontier.length + nbs.length ∧
    ∀ c ∈ (nbs.foldl (fun s nb =>
        if nb ∉ s.visited ∧ nb ∉ s.frontier then
          { s with parent := (nb, cur) :: s.parent, frontier := nb :: s.frontier }
        else s) s).frontier, c ∈ s.frontier ∨ c ∈ nbs := by
  induction nbs generalizing s with
  | nil => exact ⟨rfl, by simp, fun c hc => Or.inl hc⟩
  | cons nb rest ih =>
    simp only [List.foldl_cons]
    by_cases hcond : nb ∉ s.visited ∧ nb ∉ s.frontier
    · rw [if_pos hcond]
      obtain ⟨hv, hl, hm⟩ :=
        ih { s with parent := (nb, cur) :: s.parent, frontier := nb :: s.frontier }
      refine ⟨hv, ?_, ?_⟩
      · simp only [List.length_cons] at hl ⊢
        omega
      · intro c hc
        rcases hm c hc with hc' | hc'
        · rw [List.mem_cons] at hc'
          rcases hc' with hc' | hc'
          · exact Or.inr (hc' ▸ List.mem_cons_self nb rest)
          · exact Or.inl hc'
        · exact Or.inr (List.mem_cons_of_mem nb hc')
    · rw [if_neg hcond]
      obtain ⟨hv, hl, hm⟩ := ih s
      refine ⟨hv, by simp only [List.length_cons]; omega, ?_⟩
      intro c hc
      rcases hm c hc with hc' | hc'
      · exact Or.inl hc'
      · exact Or.inr (List.mem_cons_of_mem nb hc')

theorem dfsStep_cases (g : Grid) (s : BFSState) :
    (s.frontier = [] ∧ dfsStep g s = StepOut.done ⟨[], s.visited, some []⟩) ∨
    (∃ cur rest, s.frontier = cur :: rest ∧ cur ∈ s.visited ∧
      dfsStep g s = StepOut.skip { s with frontier := rest }) ∨
    (∃ cur rest, s.frontier = cur :: rest ∧ cur ∉ s.visited ∧ cur = g.target_pos ∧
      dfsStep g s = StepOut.done
        ⟨rest, s.visited ++ [cur], some (reconstruct_path s.parent cur)⟩) ∨
    (∃ cur rest, s.frontier = cur :: rest ∧ cur ∉ s.visited ∧ cur ≠ g.target_pos ∧
      dfsStep g s = StepOut.yieldSnap
        (dfsExpand g cur { frontier := rest, visited := s.visited ++ [cur], parent := s.parent })
        ⟨(dfsExpand g cur
            { frontier := rest, visited := s.visited ++ [cur], parent := s.parent }).frontier,
          (dfsExpand g cur
            { frontier := rest, visited := s.visited ++ [cur], parent := s.parent }).visited,
          none⟩) := by
  unfold dfsStep
  cases hf : s.frontier with
  | nil => exact Or.inl ⟨rfl, rfl⟩
  | cons cur rest =>
    by_cases hvis : cur ∈ s.visited
    · refine Or.inr (Or.inl ⟨cur, rest, rfl, hvis, ?_⟩)
      dsimp only
      rw [if_pos hvis]
    · by_cases htar : cur = g.target_pos
      · refine Or.inr (Or.inr (Or.inl ⟨cur, rest, rfl, hvis, htar, ?_⟩))
        dsimp only
        rw [if_neg hvis, if_pos htar]
      · refine Or.inr (Or.inr (Or.inr ⟨cur, rest, rfl, hvis, htar, ?_⟩))
        dsimp only
        rw [if_neg hvis, if_neg htar]

theorem dfs_bound (g : Grid) (hcoh : coherent g)
    (hso : openCell g g.start_pos = true) (hto : openCell g g.target_pos = true) :
    ∃ snaps, dfsSolve g (7 * ((openCells g).length + 1) + 2) = some snaps ∧
      snaps.length ≤ (openCells g).length ∧
      ∃ last, snaps.getLast? = some last ∧ last.path ≠ none := by
  have hT : g.target_pos ∈ openCells g := (mem_openCells g _).mpr hto
  have hmain := runSolver_bound (dfsStep g) BFSState.visited (bfsMeasure g) (bfsInv g)
    (openCells g) g.target_pos hT
    (by
      intro s s' hs hstep
      rcases dfsStep_cases g s with ⟨hf, he⟩ | ⟨cur, rest, hf, hvis, he⟩ |
        ⟨cur, rest, hf, hvis, htar, he⟩ | ⟨cur, rest, hf, hvis, htar, he⟩
      · rw [he] at hstep
        exact StepOut.noConfusion hstep
      · rw [he] at hstep
        injection hstep with h1
        subst h1
        obtain ⟨hfo, hnd, hTn, hvsub⟩ := hs
        refine ⟨⟨?_, hnd, hTn, hvsub⟩, rfl, ?_⟩
        · intro c hc
          exact hfo c (hf ▸ List.mem_cons_of_mem cur hc)
        · unfold bfsMeasure
          rw [hf]
          simp only [List.length_cons]
          omega
      · rw [he] at hstep
        exact StepOut.noConfusion hstep
      · rw [he] at hstep
        exact StepOut.noConfusion hstep)
    (by
      intro s s' snap hs hstep
      rcases dfsStep_cases g s with ⟨hf, he⟩ | ⟨cur, rest, hf, hvis, he⟩ |
        ⟨cur, rest, hf, hvis, htar, he⟩ | ⟨cur, rest, hf, hvis, htar, he⟩
      · rw [he] at hstep
        exact StepOut.noConfusion hstep
      · rw [he] at hstep
        exact StepOut.noConfusion hstep
      · rw [he] at hstep
        exact StepOut.noConfusion hstep
      · rw [he] at hstep
        injection hstep with h1 h2
        subst h1
        obtain ⟨hfo, hnd, hTn, hvsub⟩ := hs
        have hcur_open : openCell g cur = true := hfo cur (hf ▸ List.mem_cons_self cur rest)
        have hcur_mem : cur ∈ openCells g := (mem_openCells g cur).mpr hcur_open
        obtain ⟨hv, hl, hm⟩ := dfsFold_props cur ((g.neighborsPos cur).reverse)
          { frontier := rest, visited := s.visited ++ [cur], parent := s.parent }
        have hbv : (dfsExpand g cur
            { frontier := rest, visited := s.visited ++ [cur], parent := s.parent }).visited =
            s.visited ++ [cur] := hv
        refine ⟨⟨?_, ?_, ?_, ?_⟩, ?_, cur, hvis, hcur_mem, hbv⟩
        · intro c hc
          rcases hm c hc with hc' | hc'
          · exact hfo c (hf ▸ List.mem_cons_of_mem cur hc')
          · exact mem_neighborsPos_open g hcoh cur c (List.mem_reverse.mp hc')
        · rw [hbv]
          simp only [List.nodup_append, List.nodup_singleton, List.disjoint_singleton]
          exact ⟨hnd, trivial, hvis⟩
        · rw [hbv]
          simp only [List.mem_append, List.mem_singleton]
          intro hcon
          rcases hcon with hcon | hcon
          · exact hTn hcon
          · exact htar hcon.symm
        · rw [hbv]
          intro c hc
          rcases List.mem_append.mp hc with hc' | hc'
          · exact hvsub c hc'
          · rw [List.mem_singleton] at hc'
            exact hc' ▸ hcur_mem
        · unfold bfsMeasure
          rw [hbv, hf]
          have hnb := length_neighborsPos_le g cur
          have hvlen : s.visited.length ≤ (openCells g).length := nodup_sub_length hnd hvsub
          have hexp : (dfsExpand g cur
              { frontier := rest, visited := s.visited ++ [cur],
                parent := s.parent }).frontier.length ≤
              rest.length + ((g.neighborsPos cur).reverse).length := hl
          rw [List.length_reverse] at hexp
          simp only [List.length_append, List.length_singleton, List.length_cons]
          omega)
    (by
      intro s snap hs hstep
      rcases dfsStep_cases g s with ⟨hf, he⟩ | ⟨cur, rest, hf, hvis, he⟩ |
        ⟨cur, rest, hf, hvis, htar, he⟩ | ⟨cur, rest, hf, hvis, htar, he⟩
      · rw [he] at hstep
        injection hstep with h1
        exact ⟨[], by rw [← h1]⟩
      · rw [he] at hstep
        exact StepOut.noConfusion hstep
      · rw [he] at hstep
        injection hstep with h1
        exact ⟨reconstruct_path s.parent cur, by rw [← h1]⟩
      · rw [he] at hstep
        exact StepOut.noConfusion hstep)
    (fun s hs => ⟨hs.2.1, hs.2.2.1, hs.2.2.2⟩)
    (7 * ((openCells g).length + 1) + 2) (bfsInit g)
    (by
      refine ⟨?_, by simp [bfsInit], by simp [bfsInit], by simp [bfsInit]⟩
      intro c hc
      simp only [bfsInit, List.mem_singleton] at hc
      exact hc ▸ hso)
    (by
      unfold bfsMeasure bfsInit
      simp only [List.length_singleton, List.length_nil]
      omega)
  obtain ⟨snaps, hrun, hbound, last, hlast, hpath⟩ := hmain
  obtain ⟨ns, hns, -⟩ := (openCell_iff g g.start_pos).mp hso
  obtain ⟨nt, hnt, -⟩ := (openCell_iff g g.target_pos).mp hto
  refine ⟨snaps, ?_, ?_, last, hlast, hpath⟩
  · unfold dfsSolve
    rw [hns, hnt]
    exact hrun
  · have hcard := (openCells g).toFinset_card_le
    simp only [bfsInit, List.length_nil] at hbound
    omega

theorem lookupCell_cons_self {α : Type} (c : Cell) (x : α) (m : List (Cell × α)) :
    lookupCell ((c, x) :: m) c = some x := by
  unfold lookupCell
  rw [List.find?_cons_of_pos _ (by simp)]
  rfl

theorem lookupCell_cons_ne {α : Type} (b c : Cell) (x : α) (m : List (Cell × α))
    (h : b ≠ c) : lookupCell ((b, x) :: m) c = lookupCell m c := by
  unfold lookupCell
  rw [List.find?_cons_of_neg _ (by simp [h])]

theorem dlsFold_props (g : Grid) (cur : Cell) (d : Nat) (nbs : List Cell) (s : DLSState) :
    ∃ added : List Cell,
      (nbs.foldl (fun s nb =>
          if nb ∉ s.visited ∧ nb ∉ s.frontier then
            { s with parent := (nb, cur) :: s.parent,
                     depth := (nb, d + 1) :: s.depth,
                     frontier := nb :: s.frontier }
          else s) s).visited = s.visited ∧
      (nbs.foldl (fun s nb =>
          if nb ∉ s.visited ∧ nb ∉ s.frontier then
            { s with parent := (nb, cur) :: s.parent,
                     depth := (nb, d + 1) :: s.depth,
                     frontier := nb :: s.frontier }
          else s) s).frontier = added.reverse ++ s.frontier ∧
      added.length ≤ nbs.length ∧
      added.Nodup ∧
      (∀ a ∈ added, a ∈ nbs ∧ a ∉ s.visited ∧ a ∉ s.frontier) ∧
      (∀ a ∈ added, lookupCell (nbs.foldl (fun s nb =>
          if nb ∉ s.visited ∧ nb ∉ s.frontier then
            { s with parent := (nb, cur) :: s.parent,
                     depth := (nb, d + 1) :: s.depth,
                     frontier := nb :: s.frontier }
          else s) s).depth a = some (d + 1)) ∧
      (∀ c, c ∉ added → lookupCell (nbs.foldl (fun s nb =>
          if nb ∉ s.visited ∧ nb ∉ s.frontier then
            { s with parent := (nb, cur) :: s.parent,
                     depth := (nb, d + 1) :: s.depth,
                     frontier := nb :: s.frontier }
          else s) s).depth c = lookupCell s.depth c) ∧
      (∀ nb ∈ nbs, nb ∉ s.visited → nb ∈ (nbs.foldl (fun s nb =>
          if nb ∉ s.visited ∧ nb ∉ s.frontier then
            { s with parent := (nb, cur) :: s.parent,
                     depth := (nb, d + 1) :: s.depth,
                     frontier := nb :: s.frontier }
          else s) s).frontier) := by
  induction nbs generalizing s with
  | nil =>
    exact ⟨[], rfl, by simp, by simp, List.nodup_nil, by simp, by simp, fun c _ => rfl,
      by simp⟩
  | cons nb rest ih =>
    simp only [List.foldl_cons]
    by_cases hcond : nb ∉ s.visited ∧ nb ∉ s.frontier
    · rw [if_pos hcond]
      obtain ⟨added, hv, hf, hlen, hnd, hmem, hdl, hdo, hcomp⟩ :=
        ih { s with parent := (nb, cur) :: s.parent,
                    depth := (nb, d + 1) :: s.depth,
                    frontier := nb :: s.frontier }
      refine ⟨nb :: added, hv, ?_, ?_, ?_, ?_, ?_, ?_, ?_⟩
      · rw [hf]
        simp
      · simp only [List.length_cons]
        omega
      · rw [List.nodup_cons]
        refine ⟨fun hin => ?_, hnd⟩
        have := (hmem nb hin).2.2
        simp at this
      · intro a ha
        rw [List.mem_cons] at ha
        rcases ha with rfl | ha
        · exact ⟨List.mem_cons_self a rest, hcond.1, hcond.2⟩
        · obtain ⟨h1, h2, h3⟩ := hmem a ha
          refine ⟨List.mem_cons_of_mem nb h1, h2, fun hin => h3 ?_⟩
          exact List.mem_cons_of_mem nb hin
      · intro a ha
        rw [List.mem_cons] at ha
        rcases ha with rfl | ha
        · by_cases hin : a ∈ added
          · exact hdl a hin
          · rw [hdo a hin]
            exact lookupCell_cons_self a (d + 1) s.depth
        · exact hdl a ha
      · intro c hc
        rw [List.mem_cons, not_or] at hc
        rw [hdo c hc.2]
        exact lookupCell_cons_ne nb c (d + 1) s.depth (fun h => hc.1 h.symm)
      · intro nb0 hnb0 hnv
        rcases List.mem_cons.mp hnb0 with rfl | hnb0'
        · rw [hf]
          rw [List.mem_append]
          exact Or.inr (List.mem_cons_self nb0 s.frontier)
        · exact hcomp nb0 hnb0' hnv
    · rw [if_neg hcond]
      obtain ⟨added, hv, hf, hlen, hnd, hmem, hdl, hdo, hcomp⟩ := ih s
      refine ⟨added, hv, hf, by simp only [List.length_cons]; omega, hnd, ?_, hdl, hdo, ?_⟩
      · intro a ha
        obtain ⟨h1, h2, h3⟩ := hmem a ha
        exact ⟨List.mem_cons_of_mem nb h1, h2, h3⟩
      · intro nb0 hnb0 hnv
        rcases List.mem_cons.mp hnb0 with rfl | hnb0'
        · rw [not_and_or, not_not, not_not] at hcond
          rcases hcond with hcv | hcf
          · exact absurd hcv hnv
          · rw [hf, List.mem_append]
            exact Or.inr hcf
        · exact hcomp nb0 hnb0' hnv

theorem dlsStep_cases (g : Grid) (limit : Nat) (s : DLSState) :
    (s.frontier = [] ∧ dlsStep g limit s = StepOut.done ⟨[], s.visited, some []⟩) ∨
    (∃ cur rest, s.frontier = cur :: rest ∧ cur ∈ s.visited ∧
      dlsStep g limit s = StepOut.skip { s with frontier := rest }) ∨
    (∃ cur rest, s.frontier = cur :: rest ∧ cur ∉ s.visited ∧ cur = g.target_pos ∧
      dlsStep g limit s = StepOut.done
        ⟨rest, s.visited ++ [cur], some (reconstruct_path s.parent cur)⟩) ∨
    (∃ cur rest s', s.frontier = cur :: rest ∧ cur ∉ s.visited ∧ cur ≠ g.target_pos ∧
      s' = (if (lookupCell s.depth cur).getD 0 < limit
        then dlsExpand g cur ((lookupCell s.depth cur).getD 0)
          ⟨rest, s.visited ++ [cur], s.parent, s.depth⟩
        else ⟨rest, s.visited ++ [cur], s.parent, s.depth⟩) ∧
      dlsStep g limit s = StepOut.yieldSnap s' ⟨s'.frontier, s'.visited, none⟩) := by
  unfold dlsStep
  cases hf : s.frontier with
  | nil => exact Or.inl ⟨rfl, rfl⟩
  | cons cur rest =>
    by_cases hvis : cur ∈ s.visited
    · refine Or.inr (Or.inl ⟨cur, rest, rfl, hvis, ?_⟩)
      dsimp only
      rw [if_pos hvis]
    · by_cases htar : cur = g.target_pos
      · refine Or.inr (Or.inr (Or.inl ⟨cur, rest, rfl, hvis, htar, ?_⟩))
        dsimp only
        rw [if_neg hvis, if_pos htar]
      · refine Or.inr (Or.inr (Or.inr ⟨cur, rest, _, rfl, hvis, htar, rfl, ?_⟩))
        dsimp only
        rw [if_neg hvis, if_neg htar]

theorem dls_bound (g : Grid) (limit : Nat) (hcoh : coherent g)
    (hso : openCell g g.start_pos = true) (hto : openCell g g.target_pos = true) :
    ∃ snaps, dlsSolve g limit (7 * ((openCells g).length + 1) + 2) = some snaps ∧
      snaps.length ≤ (openCells g).length ∧
      ∃ last, snaps.getLast? = some last ∧ last.path ≠ none := by
  have hT : g.target_pos ∈ openCells g := (mem_openCells g _).mpr hto
  have hmain := runSolver_bound (dlsStep g limit) DLSState.visited (dlsMeasure g) (dlsInv g)
    (openCells g) g.target_pos hT
    (by
      intro s s' hs hstep
      rcases dlsStep_cases g limit s with ⟨hf, he⟩ | ⟨cur, rest, hf, hvis, he⟩ |
        ⟨cur, rest, hf, hvis, htar, he⟩ | ⟨cur, rest, s0, hf, hvis, htar, hs0, he⟩
      · rw [he] at hstep
        exact StepOut.noConfusion hstep
      · rw [he] at hstep
        injection hstep with h1
        subst h1
        obtain ⟨hfo, hnd, hTn, hvsub⟩ := hs
        refine ⟨⟨?_, hnd, hTn, hvsub⟩, rfl, ?_⟩
        · intro c hc
          exact hfo c (hf ▸ List.mem_cons_of_mem cur hc)
        · unfold dlsMeasure
          rw [hf]
          simp only [List.length_cons]
          omega
      · rw [he] at hstep
        exact StepOut.noConfusion hstep
      · rw [he] at hstep
        exact StepOut.noConfusion hstep)
    (by
      intro s s' snap hs hstep
      rcases dlsStep_cases g limit s with ⟨hf, he⟩ | ⟨cur, rest, hf, hvis, he⟩ |
        ⟨cur, rest, hf, hvis, htar, he⟩ | ⟨cur, rest, s0, hf, hvis, htar, hs0, he⟩
      · rw [he] at hstep
        exact StepOut.noConfusion hstep
      · rw [he] at hstep
        exact StepOut.noConfusion hstep
      · rw [he] at hstep
        exact StepOut.noConfusion hstep
      · rw [he] at hstep
        injection hstep with h1 h2
        subst h1
        obtain ⟨hfo, hnd, hTn, hvsub⟩ := hs
        have hcur_open : openCell g cur = true := hfo cur (hf ▸ List.mem_cons_self cur rest)
        have hcur_mem : cur ∈ openCells g := (mem_openCells g cur).mpr hcur_open
        have hvlen : s.visited.length ≤ (openCells g).length := nodup_sub_length hnd hvsub
        have hnb := length_neighborsPos_le g cur
        have hprops : s0.visited = s.visited ++ [cur] ∧
            s0.frontier.length ≤ rest.length + 6 ∧
            ∀ c ∈ s0.frontier, c ∈ rest ∨ c ∈ g.neighborsPos cur := by
          by_cases hd : (lookupCell s.depth cur).getD 0 < limit
          · rw [if_pos hd] at hs0
            obtain ⟨added, hv, hfr, hlen, -, hmem, -, -, -⟩ :=
              dlsFold_props g cur ((lookupCell s.depth cur).getD 0)
                ((g.neighborsPos cur).reverse) ⟨rest, s.visited ++ [cur], s.parent, s.depth⟩
            rw [hs0]
            refine ⟨hv, ?_, ?_⟩
            · show (dlsExpand g cur _ _).frontier.length ≤ _
              unfold dlsExpand
              rw [hfr]
              simp only [List.length_append, List.length_reverse]
              rw [List.length_reverse] at hlen
              simp only [List.length_cons, List.length_nil] at *
              omega
            · intro c hc
              show c ∈ rest ∨ _
              unfold dlsExpand at hc
              rw [hfr] at hc
              rcases List.mem_append.mp hc with hc' | hc'
              · exact Or.inr (List.mem_reverse.mp
                  ((hmem c (List.mem_reverse.mp hc')).1))
              · exact Or.inl hc'
          · rw [if_neg hd] at hs0
            rw [hs0]
            exact ⟨rfl, Nat.le_add_right rest.length 6, fun c hc => Or.inl hc⟩
        obtain ⟨hv0, hl0, hm0⟩ := hprops
        refine ⟨⟨?_, ?_, ?_, ?_⟩, ?_, cur, hvis, hcur_mem, hv0⟩
        · intro c hc
          rcases hm0 c hc with hc' | hc'
          · exact hfo c (hf ▸ List.mem_cons_of_mem cur hc')
          · exact mem_neighborsPos_open g hcoh cur c hc'
        · rw [hv0]
          simp only [List.nodup_append, List.nodup_singleton, List.disjoint_singleton]
          exact ⟨hnd, trivial, hvis⟩
        · rw [hv0]
          simp only [List.mem_append, List.mem_singleton]
          intro hcon
          rcases hcon with hcon | hcon
          · exact hTn hcon
          · exact htar hcon.symm
        · rw [hv0]
          intro c hc
          rcases List.mem_append.mp hc with hc' | hc'
          · exact hvsub c hc'
          · rw [List.mem_singleton] at hc'
            exact hc' ▸ hcur_mem
        · unfold dlsMeasure
          rw [hv0, hf]
          simp only [List.length_append, List.length_singleton, List.length_cons]
          omega)
    (by
      intro s snap hs hstep
      rcases dlsStep_cases g limit s with ⟨hf, he⟩ | ⟨cur, rest, hf, hvis, he⟩ |
        ⟨cur, rest, hf, hvis, htar, he⟩ | ⟨cur, rest, s0, hf, hvis, htar, hs0, he⟩
      · rw [he] at hstep
        injection hstep with h1
        exact ⟨[], by rw [← h1]⟩
      · rw [he] at hstep
        exact StepOut.noConfusion hstep
      · rw [he] at hstep
        injection hstep with h1
        exact ⟨reconstruct_path s.parent cur, by rw [← h1]⟩
      · rw [he] at hstep
        exact StepOut.noConfusion hstep)
    (fun s hs => ⟨hs.2.1, hs.2.2.1, hs.2.2.2⟩)
    (7 * ((openCells g).length + 1) + 2) (dlsInit g)
    (by
      refine ⟨?_, by simp [dlsInit], by simp [dlsInit], by simp [dlsInit]⟩
      intro c hc
      simp only [dlsInit, List.mem_singleton] at hc
      exact hc ▸ hso)
    (by
      unfold dlsMeasure dlsInit
      simp only [List.length_singleton, List.length_nil]
      omega)
  obtain ⟨snaps, hrun, hbound, last, hlast, hpath⟩ := hmain
  obtain ⟨ns, hns, -⟩ := (openCell_iff g g.start_pos).mp hso
  obtain ⟨nt, hnt, -⟩ := (openCell_iff g g.target_pos).mp hto
  refine ⟨snaps, ?_, ?_, last, hlast, hpath⟩
  · unfold dlsSolve
    rw [hns, hnt]
    exact hrun
  · have hcard := (openCells g).toFinset_card_le
    simp only [dlsInit, List.length_nil] at hbound
    omega

theorem randFold_props (cur : Cell) (nbs : List Cell) (s : RandState) :
    (nbs.foldl (fun s nb =>
        if nb ∉ s.visited ∧ nb ∉ s.frontier then
          { s with parent := (nb, cur) :: s.parent, frontier := nb :: s.frontier }
        else s) s).visited = s.visited ∧
    (nbs.foldl (fun s nb =>
        if nb ∉ s.visited ∧ nb ∉ s.frontier then
          { s with parent := (nb, cur) :: s.parent, frontier := nb :: s.frontier }
        else s) s).frontier.length ≤ s.frontier.length + nbs.length ∧
    ∀ c ∈ (nbs.foldl (fun s nb =>
        if nb ∉ s.visited ∧ nb ∉ s.frontier then
          { s with parent := (nb, cur) :: s.parent, frontier := nb :: s.frontier }
        else s) s).frontier, c ∈ s.frontier ∨ c ∈ nbs := by
  induction nbs generalizing s with
  | nil => exact ⟨rfl, by simp, fun c hc => Or.inl hc⟩
  | cons nb rest ih =>
    simp only [List.foldl_cons]
    by_cases hcond : nb ∉ s.visited ∧ nb ∉ s.frontier
    · rw [if_pos hcond]
      obtain ⟨hv, hl, hm⟩ :=
        ih { s with parent := (nb, cur) :: s.parent, frontier := nb :: s.frontier }
      refine ⟨hv, ?_, ?_⟩
      · simp only [List.length_cons] at hl ⊢
        omega
      · intro c hc
        rcases hm c hc with hc' | hc'
        · rw [List.mem_cons] at hc'
          rcases hc' with hc' | hc'
          · exact Or.inr (hc' ▸ List.mem_cons_self nb rest)
          · exact Or.inl hc'
        · exact Or.inr (List.mem_cons_of_mem nb hc')
    · rw [if_neg hcond]
      obtain ⟨hv, hl, hm⟩ := ih s
      refine ⟨hv, by simp only [List.length_cons]; omega, ?_⟩
      intro c hc
      rcases hm c hc with hc' | hc'
      · exact Or.inl hc'
      · exact Or.inr (List.mem_cons_of_mem nb hc')

theorem randStep_cases (g : Grid) (shuffle : Nat → List Cell → List Cell) (s : RandState) :
    (s.frontier = [] ∧ randStep g shuffle s = StepOut.done ⟨[], s.visited, some []⟩) ∨
    (∃ cur rest, s.frontier = cur :: rest ∧ cur ∈ s.visited ∧
      randStep g shuffle s = StepOut.skip { s with frontier := rest }) ∨
    (∃ cur rest, s.frontier = cur :: rest ∧ cur ∉ s.visited ∧ cur = g.target_pos ∧
      randStep g shuffle s = StepOut.done
        ⟨rest, s.visited ++ [cur], some (reconstruct_path s.parent cur)⟩) ∨
    (∃ cur rest, s.frontier = cur :: rest ∧ cur ∉ s.visited ∧ cur ≠ g.target_pos ∧
      randStep g shuffle s = StepOut.yieldSnap
        (randExpand cur (shuffle s.idx (g.neighborsPos cur))
          { frontier := rest, visited := s.visited ++ [cur],
            parent := s.parent, idx := s.idx + 1 })
        ⟨(randExpand cur (shuffle s.idx (g.neighborsPos cur))
            { frontier := rest, visited := s.visited ++ [cur],
              parent := s.parent, idx := s.idx + 1 }).frontier,
          (randExpand cur (shuffle s.idx (g.neighborsPos cur))
            { frontier := rest, visited := s.visited ++ [cur],
              parent := s.parent, idx := s.idx + 1 }).visited,
          none⟩) := by
  unfold randStep
  cases hf : s.frontier with
  | nil => exact Or.inl ⟨rfl, rfl⟩
  | cons cur rest =>
    by_cases hvis : cur ∈ s.visited
    · refine Or.inr (Or.inl ⟨cur, rest, rfl, hvis, ?_⟩)
      dsimp only
      rw [if_pos hvis]
    · by_cases htar : cur = g.target_pos
      · refine Or.inr (Or.inr (Or.inl ⟨cur, rest, rfl, hvis, htar, ?_⟩))
        dsimp only
        rw [if_neg hvis, if_pos htar]
      · refine Or.inr (Or.inr (Or.inr ⟨cur, rest, rfl, hvis, htar, ?_⟩))
        dsimp only
        rw [if_neg hvis, if_neg htar]

theorem rand_bound (g : Grid) (shuffle : Nat → List Cell → List Cell)
    (hshuf : ∀ i l, (shuffle i l).Perm l) (hcoh : coherent g)
    (hso : openCell g g.start_pos = true) (hto : openCell g g.target_pos = true) :
    ∃ snaps, randSolve g shuffle (7 * ((openCells g).length + 1) + 2) = some snaps ∧
      snaps.length ≤ (openCells g).length ∧
      ∃ last, snaps.getLast? = some last ∧ last.path ≠ none := by
  have hT : g.target_pos ∈ openCells g := (mem_openCells g _).mpr hto
  have hmain := runSolver_bound (randStep g shuffle) RandState.visited (randMeasure g)
    (randInv g) (openCells g) g.target_pos hT
    (by
      intro s s' hs hstep
      rcases randStep_cases g shuffle s with ⟨hf, he⟩ | ⟨cur, rest, hf, hvis, he⟩ |
        ⟨cur, rest, hf, hvis, htar, he⟩ | ⟨cur, rest, hf, hvis, htar, he⟩
      · rw [he] at hstep
        exact StepOut.noConfusion hstep
      · rw [he] at hstep
        injection hstep with h1
        subst h1
        obtain ⟨hfo, hnd, hTn, hvsub⟩ := hs
        refine ⟨⟨?_, hnd, hTn, hvsub⟩, rfl, ?_⟩
        · intro c hc
          exact hfo c (hf ▸ List.mem_cons_of_mem cur hc)
        · unfold randMeasure
          rw [hf]
          simp only [List.length_cons]
          omega
      · rw [he] at hstep
        exact StepOut.noConfusion hstep
      · rw [he] at hstep
        exact StepOut.noConfusion hstep)
    (by
      intro s s' snap hs hstep
      rcases randStep_cases g shuffle s with ⟨hf, he⟩ | ⟨cur, rest, hf, hvis, he⟩ |
        ⟨cur, rest, hf, hvis, htar, he⟩ | ⟨cur, rest, hf, hvis, htar, he⟩
      · rw [he] at hstep
        exact StepOut.noConfusion hstep
      · rw [he] at hstep
        exact StepOut.noConfusion hstep
      · rw [he] at hstep
        exact StepOut.noConfusion hstep
      · rw [he] at hstep
        injection hstep with h1 h2
        subst h1
        obtain ⟨hfo, hnd, hTn, hvsub⟩ := hs
        have hcur_open : openCell g cur = true := hfo cur (hf ▸ List.mem_cons_self cur rest)
        have hcur_mem : cur ∈ openCells g := (mem_openCells g cur).mpr hcur_open
        obtain ⟨hv, hl, hm⟩ := randFold_props cur (shuffle s.idx (g.neighborsPos cur))
          { frontier := rest, visited := s.visited ++ [cur],
            parent := s.parent, idx := s.idx + 1 }
        have hbv : (randExpand cur (shuffle s.idx (g.neighborsPos cur))
            { frontier := rest, visited := s.visited ++ [cur],
              parent := s.parent, idx := s.idx + 1 }).visited =
            s.visited ++ [cur] := hv
        refine ⟨⟨?_, ?_, ?_, ?_⟩, ?_, cur, hvis, hcur_mem, hbv⟩
        · intro c hc
          rcases hm c hc with hc' | hc'
          · exact hfo c (hf ▸ List.mem_cons_of_mem cur hc')
          · exact mem_neighborsPos_open g hcoh cur c
              ((hshuf s.idx (g.neighborsPos cur)).mem_iff.mp hc')
        · rw [hbv]
          simp only [List.nodup_append, List.nodup_singleton, List.disjoint_singleton]
          exact ⟨hnd, trivial, hvis⟩
        · rw [hbv]
          simp only [List.mem_append, List.mem_singleton]
          intro hcon
          rcases hcon with hcon | hcon
          · exact hTn hcon
          · exact htar hcon.symm
        · rw [hbv]
          intro c hc
          rcases List.mem_append.mp hc with hc' | hc'
          · exact hvsub c hc'
          · rw [List.mem_singleton] at hc'
            exact hc' ▸ hcur_mem
        · unfold randMeasure
          rw [hbv, hf]
          have hnb := length_neighborsPos_le g cur
          have hvlen : s.visited.length ≤ (openCells g).length := nodup_sub_length hnd hvsub
          have hexp : (randExpand cur (shuffle s.idx (g.neighborsPos cur))
              { frontier := rest, visited := s.visited ++ [cur],
                parent := s.parent, idx := s.idx + 1 }).frontier.length ≤
              rest.length + (shuffle s.idx (g.neighborsPos cur)).length := hl
          rw [(hshuf s.idx (g.neighborsPos cur)).length_eq] at hexp
          simp only [List.length_append, List.length_singleton, List.length_cons]
          omega)
    (by
      intro s snap hs hstep
      rcases randStep_cases g shuffle s with ⟨hf, he⟩ | ⟨cur, rest, hf, hvis, he⟩ |
        ⟨cur, rest, hf, hvis, htar, he⟩ | ⟨cur, rest, hf, hvis, htar, he⟩
      · rw [he] at hstep
        injection hstep with h1
        exact ⟨[], by rw [← h1]⟩
      · rw [he] at hstep
        exact StepOut.noConfusion hstep
      · rw [he] at hstep
        injection hstep with h1
        exact ⟨reconstruct_path s.parent cur, by rw [← h1]⟩
      · rw [he] at hstep
        exact StepOut.noConfusion hstep)
    (fun s hs => ⟨hs.2.1, hs.2.2.1, hs.2.2.2⟩)
    (7 * ((openCells g).length + 1) + 2) ⟨[g.start_pos], [], [], 0⟩
    (by
      refine ⟨?_, by simp, by simp, by simp⟩
      intro c hc
      simp only [List.mem_singleton] at hc
      exact hc ▸ hso)
    (by
      unfold randMeasure
      simp only [List.length_singleton, List.length_nil]
      omega)
  obtain ⟨snaps, hrun, hbound, last, hlast, hpath⟩ := hmain
  obtain ⟨ns, hns, -⟩ := (openCell_iff g g.start_pos).mp hso
  obtain ⟨nt, hnt, -⟩ := (openCell_iff g g.target_pos).mp hto
  refine ⟨snaps, ?_, ?_, last, hlast, hpath⟩
  · unfold randSolve
    rw [hns, hnt]
    exact hrun
  · have hcard := (openCells g).toFinset_card_le
    simp only [List.length_nil] at hbound
    omega

theorem beamStep_cases (g : Grid) (w : Nat) (s : BFSState) :
    (s.frontier = [] ∧ beamStep g w s = StepOut.done ⟨[], s.visited, some []⟩) ∨
    (beamStep g w s = StepOut.done ⟨[], [], some []⟩) ∨
    (∃ cur rest, cur ∈ s.frontier ∧ (∀ c ∈ rest, c ∈ s.frontier) ∧
      rest.length + 1 ≤ s.frontier.length ∧
      ((cur ∈ s.visited ∧ beamStep g w s = StepOut.skip { s with frontier := rest }) ∨
       (cur ∉ s.visited ∧ cur = g.target_pos ∧ beamStep g w s = StepOut.done
          ⟨rest, s.visited ++ [cur], some (reconstruct_path s.parent cur)⟩) ∨
       (cur ∉ s.visited ∧ cur ≠ g.target_pos ∧ ∃ s',
          s'.visited = s.visited ++ [cur] ∧
          s'.frontier.length ≤ rest.length + (g.neighborsPos cur).length ∧
          (∀ c ∈ s'.frontier, c ∈ rest ∨ c ∈ g.neighborsPos cur) ∧
          beamStep g w s = StepOut.yieldSnap s' ⟨s'.frontier, s'.visited, none⟩))) := by
  unfold beamStep
  cases hf : s.frontier with
  | nil => exact Or.inl ⟨rfl, rfl⟩
  | cons f0 frest =>
    cases ht : (f0 :: frest).take w with
    | nil =>
      exact Or.inr (Or.inl rfl)
    | cons cur rest =>
      have hsub : ∀ c ∈ cur :: rest, c ∈ f0 :: frest := by
        intro c hc
        exact List.take_subset w (f0 :: frest) (ht ▸ hc)
      have hlen : rest.length + 1 ≤ (f0 :: frest).length := by
        have h1 : ((f0 :: frest).take w).length ≤ (f0 :: frest).length := by
          rw [List.length_take]
          exact min_le_right _ _
        rw [ht] at h1
        simpa using h1
      refine Or.inr (Or.inr ⟨cur, rest, hsub cur (List.mem_cons_self cur rest),
        fun c hc => hsub c (List.mem_cons_of_mem cur hc), hlen, ?_⟩)
      by_cases hvis : cur ∈ s.visited
      · refine Or.inl ⟨hvis, ?_⟩
        dsimp only
        rw [if_pos hvis]
      · by_cases htar : cur = g.target_pos
        · refine Or.inr (Or.inl ⟨hvis, htar, ?_⟩)
          dsimp only
          rw [if_neg hvis, if_pos htar]
        · refine Or.inr (Or.inr ⟨hvis, htar, ?_⟩)
          obtain ⟨hv, hl, hm⟩ := bfsFold_props g cur
            ((g.neighborsPos cur).mergeSort
              (fun a b => manh a g.target_pos ≤ manh b g.target_pos))
            { frontier := rest, visited := s.visited ++ [cur], parent := s.parent }
          have hperm := List.mergeSort_perm (g.neighborsPos cur)
            (fun a b => manh a g.target_pos ≤ manh b g.target_pos)
          refine ⟨_, hv, ?_, ?_, ?_⟩
          · calc _ ≤ rest.length + ((g.neighborsPos cur).mergeSort
                (fun a b => manh a g.target_pos ≤ manh b g.target_pos)).length := hl
              _ = rest.length + (g.neighborsPos cur).length := by rw [hperm.length_eq]
          · intro c hc
            rcases hm c hc with hc' | hc'
            · exact Or.inl hc'
            · exact Or.inr (hperm.mem_iff.mp hc')
          · dsimp only
            rw [if_neg hvis, if_neg htar]

theorem beam_bound (g : Grid) (w : Nat) (hcoh : coherent g)
    (hso : openCell g g.start_pos = true) (hto : openCell g g.target_pos = true) :
    ∃ snaps, beamSolve g w (7 * ((openCells g).length + 1) + 2) = some snaps ∧
      snaps.length ≤ (openCells g).length ∧
      ∃ last, snaps.getLast? = some last ∧ last.path ≠ none := by
  have hT : g.target_pos ∈ openCells g := (mem_openCells g _).mpr hto
  have hmain := runSolver_bound (beamStep g w) BFSState.visited (bfsMeasure g) (bfsInv g)
    (openCells g) g.target_pos hT
    (by
      intro s s' hs hstep
      rcases beamStep_cases g w s with ⟨hf, he⟩ | he |
        ⟨cur, rest, hcur, hsub, hlen, ⟨hvis, he⟩ | ⟨hvis, htar, he⟩ |
          ⟨hvis, htar, s0, hv0, hl0, hm0, he⟩⟩
      · rw [he] at hstep
        exact StepOut.noConfusion hstep
      · rw [he] at hstep
        exact StepOut.noConfusion hstep
      · rw [he] at hstep
        injection hstep with h1
        subst h1
        obtain ⟨hfo, hnd, hTn, hvsub⟩ := hs
        have hfne : s.frontier ≠ [] := by
          intro h
          rw [h] at hcur
          simp at hcur
        refine ⟨⟨fun c hc => hfo c (hsub c hc), hnd, hTn, hvsub⟩, rfl, ?_⟩
        show 7 * ((openCells g).length + 1 - s.visited.length) + rest.length <
          7 * ((openCells g).length + 1 - s.visited.length) + s.frontier.length
        have : 0 < s.frontier.length := List.length_pos.mpr hfne
        omega
      · rw [he] at hstep
        exact StepOut.noConfusion hstep
      · rw [he] at hstep
        exact StepOut.noConfusion hstep)
    (by
      intro s s' snap hs hstep
      rcases beamStep_cases g w s with ⟨hf, he⟩ | he |
        ⟨cur, rest, hcur, hsub, hlen, ⟨hvis, he⟩ | ⟨hvis, htar, he⟩ |
          ⟨hvis, htar, s0, hv0, hl0, hm0, he⟩⟩
      · rw [he] at hstep
        exact StepOut.noConfusion hstep
      · rw [he] at hstep
        exact StepOut.noConfusion hstep
      · rw [he] at hstep
        exact StepOut.noConfusion hstep
      · rw [he] at hstep
        exact StepOut.noConfusion hstep
      · rw [he] at hstep
        injection hstep with h1 h2
        subst h1
        obtain ⟨hfo, hnd, hTn, hvsub⟩ := hs
        have hcur_open : openCell g cur = true := hfo cur hcur
        have hcur_mem : cur ∈ openCells g := (mem_openCells g cur).mpr hcur_open
        refine ⟨⟨?_, ?_, ?_, ?_⟩, ?_, cur, hvis, hcur_mem, hv0⟩
        · intro c hc
          rcases hm0 c hc with hc' | hc'
          · exact hfo c (hsub c hc')
          · exact mem_neighborsPos_open g hcoh cur c hc'
        · rw [hv0]
          simp only [List.nodup_append, List.nodup_singleton, List.disjoint_singleton]
          exact ⟨hnd, trivial, hvis⟩
        · rw [hv0]
          simp only [List.mem_append, List.mem_singleton]
          intro hcon
          rcases hcon with hcon | hcon
          · exact hTn hcon
          · exact htar hcon.symm
        · rw [hv0]
          intro c hc
          rcases List.mem_append.mp hc with hc' | hc'
          · exact hvsub c hc'
          · rw [List.mem_singleton] at hc'
            exact hc' ▸ hcur_mem
        · show 7 * ((openCells g).length + 1 - s0.visited.length) + s0.frontier.length <
            7 * ((openCells g).length + 1 - s.visited.length) + s.frontier.length
          rw [hv0]
          have hnb := length_neighborsPos_le g cur
          have hvlen : s.visited.length ≤ (openCells g).length := nodup_sub_length hnd hvsub
          simp only [List.length_append, List.length_singleton]
          omega)
    (by
      intro s snap hs hstep
      rcases beamStep_cases g w s with ⟨hf, he⟩ | he |
        ⟨cur, rest, hcur, hsub, hlen, ⟨hvis, he⟩ | ⟨hvis, htar, he⟩ |
          ⟨hvis, htar, s0, hv0, hl0, hm0, he⟩⟩
      · rw [he] at hstep
        injection hstep with h1
        exact ⟨[], by rw [← h1]⟩
      · rw [he] at hstep
        injection hstep with h1
        exact ⟨[], by rw [← h1]⟩
      · rw [he] at hstep
        exact StepOut.noConfusion hstep
      · rw [he] at hstep
        injection hstep with h1
        exact ⟨reconstruct_path s.parent cur, by rw [← h1]⟩
      · rw [he] at hstep
        exact StepOut.noConfusion hstep)
    (fun s hs => ⟨hs.2.1, hs.2.2.1, hs.2.2.2⟩)
    (7 * ((openCells g).length + 1) + 2) (bfsInit g)
    (by
      refine ⟨?_, by simp [bfsInit], by simp [bfsInit], by simp [bfsInit]⟩
      intro c hc
      simp only [bfsInit, List.mem_singleton] at hc
      exact hc ▸ hso)
    (by
      unfold bfsMeasure bfsInit
      simp only [List.length_singleton, List.length_nil]
      omega)
  obtain ⟨snaps, hrun, hbound, last, hlast, hpath⟩ := hmain
  obtain ⟨ns, hns, -⟩ := (openCell_iff g g.start_pos).mp hso
  obtain ⟨nt, hnt, -⟩ := (openCell_iff g g.target_pos).mp hto
  refine ⟨snaps, ?_, ?_, last, hlast, hpath⟩
  · unfold beamSolve
    rw [hns, hnt]
    exact hrun
  · have hcard := (openCells g).toFinset_card_le
    simp only [bfsInit, List.length_nil] at hbound
    omega

theorem scoutFold_props (cur : Cell) (d : Nat) (nbs : List Cell) (s : ScoutState × Bool) :
    (nbs.foldl (fun sb nb =>
        if nb ∉ sb.1.visited ∧ nb ∉ sb.1.frontier then
          ({ sb.1 with parent := (nb, cur) :: sb.1.parent,
                       depth := (nb, d + 1) :: sb.1.depth,
                       frontier := sb.1.frontier ++ [nb] }, true)
        else sb) s).1.visited = s.1.visited ∧
    (nbs.foldl (fun sb nb =>
        if nb ∉ sb.1.visited ∧ nb ∉ sb.1.frontier then
          ({ sb.1 with parent := (nb, cur) :: sb.1.parent,
                       depth := (nb, d + 1) :: sb.1.depth,
                       frontier := sb.1.frontier ++ [nb] }, true)
        else sb) s).1.frontier.length ≤ s.1.frontier.length + nbs.length ∧
    ∀ c ∈ (nbs.foldl (fun sb nb =>
        if nb ∉ sb.1.visited ∧ nb ∉ sb.1.frontier then
          ({ sb.1 with parent := (nb, cur) :: sb.1.parent,
                       depth := (nb, d + 1) :: sb.1.depth,
                       frontier := sb.1.frontier ++ [nb] }, true)
        else sb) s).1.frontier, c ∈ s.1.frontier ∨ c ∈ nbs := by
  induction nbs generalizing s with
  | nil => exact ⟨rfl, by simp, fun c hc => Or.inl hc⟩
  | cons nb rest ih =>
    simp only [List.foldl_cons]
    by_cases hcond : nb ∉ s.1.visited ∧ nb ∉ s.1.frontier
    · rw [if_pos hcond]
      obtain ⟨hv, hl, hm⟩ :=
        ih ({ s.1 with parent := (nb, cur) :: s.1.parent,
                       depth := (nb, d + 1) :: s.1.depth,
                       frontier := s.1.frontier ++ [nb] }, true)
      refine ⟨hv, ?_, ?_⟩
      · simp only [List.length_append, List.length_singleton, List.length_cons,
          List.length_nil] at hl ⊢
        omega
      · intro c hc
        rcases hm c hc with hc' | hc'
        · rw [List.mem_append] at hc'
          rcases hc' with hc' | hc'
          · exact Or.inl hc'
          · rw [List.mem_singleton] at hc'
            exact Or.inr (hc' ▸ List.mem_cons_self nb rest)
        · exact Or.inr (List.mem_cons_of_mem nb hc')
    · rw [if_neg hcond]
      obtain ⟨hv, hl, hm⟩ := ih s
      refine ⟨hv, le_trans hl (by simp only [List.length_cons]; omega), ?_⟩
      intro c hc
      rcases hm c hc with hc' | hc'
      · exact Or.inl hc'
      · exact Or.inr (List.mem_cons_of_mem nb hc')

theorem scoutStep_cases (g : Grid) (bl dl : Nat) (s : ScoutState) :
    (s.frontier = [] ∧ scoutStep g bl dl s = StepOut.done ⟨[], s.visited, some []⟩) ∨
    (∃ cur rest, cur ∈ s.frontier ∧ (∀ c ∈ rest, c ∈ s.frontier) ∧
      rest.length + 1 = s.frontier.length ∧
      ((cur ∈ s.visited ∧ scoutStep g bl dl s = StepOut.skip { s with frontier := rest }) ∨
       (cur ∉ s.visited ∧ cur = g.target_pos ∧ scoutStep g bl dl s = StepOut.done
          ⟨rest, s.visited ++ [cur], some (reconstruct_path s.parent cur)⟩) ∨
       (cur ∉ s.visited ∧ cur ≠ g.target_pos ∧ ∃ s',
          scoutStep g bl dl s = StepOut.yieldSnap s' ⟨s'.frontier, s'.visited, none⟩ ∧
          s'.visited = s.visited ++ [cur] ∧
          s'.frontier.length ≤ rest.length + (g.neighborsPos cur).length ∧
          (∀ c ∈ s'.frontier, c ∈ rest ∨ c ∈ g.neighborsPos cur)))) := by
  unfold scoutStep
  cases hfr : s.frontier with
  | nil => exact Or.inl ⟨rfl, rfl⟩
  | cons f0 frest =>
    cases hm : s.bfsMode with
    | true =>
      have hcur : f0 ∈ f0 :: frest := List.mem_cons_self f0 frest
      refine Or.inr ⟨f0, frest, hcur, fun c hc => List.mem_cons_of_mem f0 hc, by simp, ?_⟩
      by_cases hvis : f0 ∈ s.visited
      · refine Or.inl ⟨hvis, ?_⟩
        dsimp only
        simp only [reduceIte]
        rw [if_pos hvis]
      · by_cases htar : f0 = g.target_pos
        · refine Or.inr (Or.inl ⟨hvis, htar, ?_⟩)
          dsimp only
          simp only [reduceIte]
          rw [if_neg hvis, if_pos htar]
        · refine Or.inr (Or.inr ⟨hvis, htar, ?_⟩)
          obtain ⟨hv, hl, hmm⟩ := scoutFold_props f0 ((lookupCell s.depth f0).getD 0)
            (g.neighborsPos f0)
            (({ frontier := frest, visited := s.visited ++ [f0], parent := s.parent,
                depth := s.depth, bfsMode := true } : ScoutState), false)
          refine ⟨{ (scoutExpand f0 ((lookupCell s.depth f0).getD 0) (g.neighborsPos f0)
              (({ frontier := frest, visited := s.visited ++ [f0], parent := s.parent,
                  depth := s.depth, bfsMode := true } : ScoutState), false)).1 with
              bfsMode := scoutModeSwitch bl dl ((lookupCell s.depth f0).getD 0)
                (scoutExpand f0 ((lookupCell s.depth f0).getD 0) (g.neighborsPos f0)
                  (({ frontier := frest, visited := s.visited ++ [f0], parent := s.parent,
                      depth := s.depth, bfsMode := true } : ScoutState), false)) },
            ?_, ?_, ?_, ?_⟩
          · dsimp only
            simp only [reduceIte]
            rw [if_neg hvis, if_neg htar]
          · exact hv
          · exact hl
          · exact hmm
    | false =>
      have hne : f0 :: frest ≠ [] := List.cons_ne_nil f0 frest
      have hcur : (f0 :: frest).getLastD f0 ∈ f0 :: frest := by
        rw [List.getLastD_eq_getLast?, List.getLast?_eq_getLast _ hne]
        exact List.getLast_mem _
      have hsub : ∀ c ∈ (f0 :: frest).dropLast, c ∈ f0 :: frest :=
        fun c hc => List.dropLast_subset _ hc
      have hlen : (f0 :: frest).dropLast.length + 1 = (f0 :: frest).length := by
        rw [List.length_dropLast]
        simp
      refine Or.inr ⟨(f0 :: frest).getLastD f0, (f0 :: frest).dropLast, hcur, hsub, hlen, ?_⟩
      by_cases hvis : (f0 :: frest).getLastD f0 ∈ s.visited
      · refine Or.inl ⟨hvis, ?_⟩
        dsimp only
        simp only [Bool.false_eq_true, if_false]
        rw [if_pos hvis]
      · by_cases htar : (f0 :: frest).getLastD f0 = g.target_pos
        · refine Or.inr (Or.inl ⟨hvis, htar, ?_⟩)
          dsimp only
          simp only [Bool.false_eq_true, if_false]
          rw [if_neg hvis, if_pos htar]
        · refine Or.inr (Or.inr ⟨hvis, htar, ?_⟩)
          obtain ⟨hv, hl, hmm⟩ := scoutFold_props ((f0 :: frest).getLastD f0)
            ((lookupCell s.depth ((f0 :: frest).getLastD f0)).getD 0)
            (g.neighborsPos ((f0 :: frest).getLastD f0))
            (({ frontier := (f0 :: frest).dropLast,
                visited := s.visited ++ [(f0 :: frest).getLastD f0], parent := s.parent,
                depth := s.depth, bfsMode := false } : ScoutState), false)
          refine ⟨{ (scoutExpand ((f0 :: frest).getLastD f0)
              ((lookupCell s.depth ((f0 :: frest).getLastD f0)).getD 0)
              (g.neighborsPos ((f0 :: frest).getLastD f0))
              (({ frontier := (f0 :: frest).dropLast,
                  visited := s.visited ++ [(f0 :: frest).getLastD f0], parent := s.parent,
                  depth := s.depth, bfsMode := false } : ScoutState), false)).1 with
              bfsMode := scoutModeSwitch bl dl
                ((lookupCell s.depth ((f0 :: frest).getLastD f0)).getD 0)
                (scoutExpand ((f0 :: frest).getLastD f0)
                  ((lookupCell s.depth ((f0 :: frest).getLastD f0)).getD 0)
                  (g.neighborsPos ((f0 :: frest).getLastD f0))
                  (({ frontier := (f0 :: frest).dropLast,
                      visited := s.visited ++ [(f0 :: frest).getLastD f0], parent := s.parent,
                      depth := s.depth, bfsMode := false } : ScoutState), false)) },
            ?_, ?_, ?_, ?_⟩
          · dsimp only
            simp only [Bool.false_eq_true, if_false]
            rw [if_neg hvis, if_neg htar]
          · exact hv
          · exact hl
          · exact hmm

theorem scout_bound (g : Grid) (bl dl : Nat) (hcoh : coherent g)
    (hso : openCell g g.start_pos = true) (hto : openCell g g.target_pos = true) :
    ∃ snaps, scoutSolve g bl dl (7 * ((openCells g).length + 1) + 2) = some snaps ∧
      snaps.length ≤ (openCells g).length ∧
      ∃ last, snaps.getLast? = some last ∧ last.path ≠ none := by
  have hT : g.target_pos ∈ openCells g := (mem_openCells g _).mpr hto
  have hmain := runSolver_bound (scoutStep g bl dl) ScoutState.visited (scoutMeasure g)
    (scoutInv g) (openCells g) g.target_pos hT
    (by
      intro s s' hs hstep
      rcases scoutStep_cases g bl dl s with ⟨hf, he⟩ |
        ⟨cur, rest, hcur, hsub, hlen, ⟨hvis, he⟩ | ⟨hvis, htar, he⟩ |
          ⟨hvis, htar, s0, he, hv0, hl0, hm0⟩⟩
      · rw [he] at hstep
        exact StepOut.noConfusion hstep
      · rw [he] at hstep
        injection hstep with h1
        subst h1
        obtain ⟨hfo, hnd, hTn, hvsub⟩ := hs
        refine ⟨⟨fun c hc => hfo c (hsub c hc), hnd, hTn, hvsub⟩, rfl, ?_⟩
        show 7 * ((openCells g).length + 1 - s.visited.length) + rest.length <
          7 * ((openCells g).length + 1 - s.visited.length) + s.frontier.length
        omega
      · rw [he] at hstep
        exact StepOut.noConfusion hstep
      · rw [he] at hstep
        exact StepOut.noConfusion hstep)
    (by
      intro s s' snap hs hstep
      rcases scoutStep_cases g bl dl s with ⟨hf, he⟩ |
        ⟨cur, rest, hcur, hsub, hlen, ⟨hvis, he⟩ | ⟨hvis, htar, he⟩ |
          ⟨hvis, htar, s0, he, hv0, hl0, hm0⟩⟩
      · rw [he] at hstep
        exact StepOut.noConfusion hstep
      · rw [he] at hstep
        exact StepOut.noConfusion hstep
      · rw [he] at hstep
        exact StepOut.noConfusion hstep
      · rw [he] at hstep
        injection hstep with h1 h2
        subst h1
        obtain ⟨hfo, hnd, hTn, hvsub⟩ := hs
        have hcur_open : openCell g cur = true := hfo cur hcur
        have hcur_mem : cur ∈ openCells g := (mem_openCells g cur).mpr hcur_open
        refine ⟨⟨?_, ?_, ?_, ?_⟩, ?_, cur, hvis, hcur_mem, hv0⟩
        · intro c hc
          rcases hm0 c hc with hc' | hc'
          · exact hfo c (hsub c hc')
          · exact mem_neighborsPos_open g hcoh cur c hc'
        · rw [hv0]
          simp only [List.nodup_append, List.nodup_singleton, List.disjoint_singleton]
          exact ⟨hnd, trivial, hvis⟩
        · rw [hv0]
          simp only [List.mem_append, List.mem_singleton]
          intro hcon
          rcases hcon with hcon | hcon
          · exact hTn hcon
          · exact htar hcon.symm
        · rw [hv0]
          intro c hc
          rcases List.mem_append.mp hc with hc' | hc'
          · exact hvsub c hc'
          · rw [List.mem_singleton] at hc'
            exact hc' ▸ hcur_mem
        · show 7 * ((openCells g).length + 1 - s0.visited.length) + s0.frontier.length <
            7 * ((openCells g).length + 1 - s.visited.length) + s.frontier.length
          rw [hv0]
          have hnb := length_neighborsPos_le g cur
          have hvlen : s.visited.length ≤ (openCells g).length := nodup_sub_length hnd hvsub
          simp only [List.length_append, List.length_singleton]
          omega)
    (by
      intro s snap hs hstep
      rcases scoutStep_cases g bl dl s with ⟨hf, he⟩ |
        ⟨cur, rest, hcur, hsub, hlen, ⟨hvis, he⟩ | ⟨hvis, htar, he⟩ |
          ⟨hvis, htar, s0, he, hv0, hl0, hm0⟩⟩
      · rw [he] at hstep
        injection hstep with h1
        exact ⟨[], by rw [← h1]⟩
      · rw [he] at hstep
        exact StepOut.noConfusion hstep
      · rw [he] at hstep
        injection hstep with h1
        exact ⟨reconstruct_path s.parent cur, by rw [← h1]⟩
      · rw [he] at hstep
        exact StepOut.noConfusion hstep)
    (fun s hs => ⟨hs.2.1, hs.2.2.1, hs.2.2.2⟩)
    (7 * ((openCells g).length + 1) + 2) (scoutInit g)
    (by
      refine ⟨?_, by simp [scoutInit], by simp [scoutInit], by simp [scoutInit]⟩
      intro c hc
      simp only [scoutInit, List.mem_singleton] at hc
      exact hc ▸ hso)
    (by
      unfold scoutMeasure scoutInit
      simp only [List.length_singleton, List.length_nil]
      omega)
  obtain ⟨snaps, hrun, hbound, last, hlast, hpath⟩ := hmain
  obtain ⟨ns, hns, -⟩ := (openCell_iff g g.start_pos).mp hso
  obtain ⟨nt, hnt, -⟩ := (openCell_iff g g.target_pos).mp hto
  refine ⟨snaps, ?_, ?_, last, hlast, hpath⟩
  · unfold scoutSolve
    rw [hns, hnt]
    exact hrun
  · have hcard := (openCells g).toFinset_card_le
    simp only [scoutInit, List.length_nil] at hbound
    omega

theorem ucsExpand_props (g : Grid) (cur : Cell) (cst : ℚ) (nbs : List Cell) (s : UCSState) :
    (ucsExpand g cur cst nbs s).visited = s.visited ∧
    (ucsExpand g cur cst nbs s).frontier.length ≤ s.frontier.length + nbs.length ∧
    ∀ e ∈ (ucsExpand g cur cst nbs s).frontier, e ∈ s.frontier ∨ e.2.2 ∈ nbs := by
  induction nbs generalizing s with
  | nil =>
    unfold ucsExpand
    exact ⟨rfl, by simp, fun e he => Or.inl he⟩
  | cons nb rest ih =>
    unfold ucsExpand
    dsimp only
    generalize (if (nb.1 - cur.1).natAbs = 1 ∧ (nb.2 - cur.2).natAbs = 1
      then (1.414 : ℚ) else 1) = q
    by_cases h1 : nb ∉ s.visited ∧ nb ∉ s.frontier_set
    · rw [if_pos h1]
      obtain ⟨hv, hl, hm⟩ := ih
        { s with
          cost := (nb, cst + q) :: s.cost
          parent := (nb, cur) :: s.parent
          counter := s.counter + 1
          frontier := (cst + q, s.counter + 1, nb) :: s.frontier
          frontier_set := s.frontier_set ++ [nb] }
      refine ⟨hv, ?_, ?_⟩
      · refine le_trans hl ?_
        simp only [List.length_cons]
        omega
      · intro e he
        rcases hm e he with he' | he'
        · rcases List.mem_cons.mp he' with he'' | he''
          · exact Or.inr (by rw [he'']; exact List.mem_cons_self nb rest)
          · exact Or.inl he''
        · exact Or.inr (List.mem_cons_of_mem nb he')
    · rw [if_neg h1]
      by_cases h2 : nb ∈ s.frontier_set ∧ ((cst + q : ℚ) : WithTop ℚ) < lookupCost s.cost nb
      · rw [if_pos h2]
        obtain ⟨hv, hl, hm⟩ := ih
          { s with
            cost := (nb, cst + q) :: s.cost
            parent := (nb, cur) :: s.parent
            counter := s.counter + 1
            frontier := (cst + q, s.counter + 1, nb) :: s.frontier }
        refine ⟨hv, ?_, ?_⟩
        · refine le_trans hl ?_
          simp only [List.length_cons]
          omega
        · intro e he
          rcases hm e he with he' | he'
          · rcases List.mem_cons.mp he' with he'' | he''
            · exact Or.inr (by rw [he'']; exact List.mem_cons_self nb rest)
            · exact Or.inl he''
          · exact Or.inr (List.mem_cons_of_mem nb he')
      · rw [if_neg h2]
        obtain ⟨hv, hl, hm⟩ := ih s
        refine ⟨hv, le_trans hl (by simp only [List.length_cons]; omega), ?_⟩
        intro e he
        rcases hm e he with he' | he'
        · exact Or.inl he'
        · exact Or.inr (List.mem_cons_of_mem nb he')

theorem ucsStep_cases (g : Grid) (s : UCSState) :
    (s.frontier = [] ∧ ucsStep g s = StepOut.done ⟨s.frontier_set, s.visited, some []⟩) ∨
    (∃ e rest, e ∈ s.frontier ∧
      rest.length + 1 = s.frontier.length ∧ (∀ x ∈ rest, x ∈ s.frontier) ∧
      ((e.2.2 ∈ s.visited ∧ ucsStep g s = StepOut.skip
          { s with frontier := rest, frontier_set := s.frontier_set.erase e.2.2 }) ∨
       (e.2.2 ∉ s.visited ∧ e.2.2 = g.target_pos ∧ ucsStep g s = StepOut.done
          ⟨s.frontier_set.erase e.2.2, s.visited ++ [e.2.2],
            some (reconstruct_path s.parent e.2.2)⟩) ∨
       (e.2.2 ∉ s.visited ∧ e.2.2 ≠ g.target_pos ∧ ∃ s',
          s' = ucsExpand g e.2.2 e.1 (g.neighborsPos e.2.2)
            { s with
              frontier := rest
              frontier_set := s.frontier_set.erase e.2.2
              visited := s.visited ++ [e.2.2] } ∧
          ucsStep g s = StepOut.yieldSnap s' ⟨s'.frontier_set, s'.visited, none⟩))) := by
  unfold ucsStep
  cases hp : heapPop s.frontier with
  | none =>
    refine Or.inl ⟨?_, rfl⟩
    unfold heapPop at hp
    cases hmn : heapMin s.frontier with
    | none => exact heapMin_eq_none.mp hmn
    | some m =>
      rw [hmn] at hp
      exact Option.noConfusion hp
  | some pr =>
    obtain ⟨⟨cst, cnt, cell⟩, rest⟩ := pr
    have hme : heapMin s.frontier = some (cst, cnt, cell) ∧ rest = s.frontier.erase (cst, cnt, cell) := by
      unfold heapPop at hp
      cases hmn : heapMin s.frontier with
      | none =>
        rw [hmn] at hp
        exact Option.noConfusion hp
      | some m =>
        rw [hmn] at hp
        injection hp with h1
        injection h1 with h2 h3
        subst h2
        exact ⟨rfl, h3.symm⟩
    obtain ⟨hmn, hrest⟩ := hme
    have hmem : (cst, cnt, cell) ∈ s.frontier := (heapMin_spec _ _ hmn).1
    have hlen : rest.length + 1 = s.frontier.length := by
      rw [hrest, List.length_erase_of_mem hmem]
      exact Nat.succ_pred_eq_of_pos (List.length_pos.mpr (by
        rintro hnil
        rw [hnil] at hmem
        simp at hmem))
    have hsub : ∀ x ∈ rest, x ∈ s.frontier := by
      intro x hx
      rw [hrest] at hx
      exact List.mem_of_mem_erase hx
    refine Or.inr ⟨(cst, cnt, cell), rest, hmem, hlen, hsub, ?_⟩
    by_cases hvis : cell ∈ s.visited
    · refine Or.inl ⟨hvis, ?_⟩
      dsimp only
      rw [if_pos hvis]
    · by_cases htar : cell = g.target_pos
      · refine Or.inr (Or.inl ⟨hvis, htar, ?_⟩)
        dsimp only
        rw [if_neg hvis, if_pos htar]
      · refine Or.inr (Or.inr ⟨hvis, htar, _, rfl, ?_⟩)
        dsimp only
        rw [if_neg hvis, if_neg htar]

theorem ucs_bound (g : Grid) (hcoh : coherent g)
    (hso : openCell g g.start_pos = true) (hto : openCell g g.target_pos = true) :
    ∃ snaps, ucsSolve g (7 * ((openCells g).length + 1) + 2) = some snaps ∧
      snaps.length ≤ (openCells g).length ∧
      ∃ last, snaps.getLast? = some last ∧ last.path ≠ none := by
  have hT : g.target_pos ∈ openCells g := (mem_openCells g _).mpr hto
  have hmain := runSolver_bound (ucsStep g) UCSState.visited (ucsMeasure g) (ucsInv g)
    (openCells g) g.target_pos hT
    (by
      intro s s' hs hstep
      rcases ucsStep_cases g s with ⟨hf, he⟩ |
        ⟨e, rest, hmem, hlen, hsub, ⟨hvis, he⟩ | ⟨hvis, htar, he⟩ |
          ⟨hvis, htar, s0, hs0, he⟩⟩
      · rw [he] at hstep
        exact StepOut.noConfusion hstep
      · rw [he] at hstep
        injection hstep with h1
        subst h1
        obtain ⟨hfo, hnd, hTn, hvsub⟩ := hs
        refine ⟨⟨fun x hx => hfo x (hsub x hx), hnd, hTn, hvsub⟩, rfl, ?_⟩
        show 7 * ((openCells g).length + 1 - s.visited.length) + rest.length <
          7 * ((openCells g).length + 1 - s.visited.length) + s.frontier.length
        omega
      · rw [he] at hstep
        exact StepOut.noConfusion hstep
      · rw [he] at hstep
        exact StepOut.noConfusion hstep)
    (by
      intro s s' snap hs hstep
      rcases ucsStep_cases g s with ⟨hf, he⟩ |
        ⟨e, rest, hmem, hlen, hsub, ⟨hvis, he⟩ | ⟨hvis, htar, he⟩ |
          ⟨hvis, htar, s0, hs0, he⟩⟩
      · rw [he] at hstep
        exact StepOut.noConfusion hstep
      · rw [he] at hstep
        exact StepOut.noConfusion hstep
      · rw [he] at hstep
        exact StepOut.noConfusion hstep
      · rw [he] at hstep
        injection hstep with h1 h2
        subst h1
        obtain ⟨hfo, hnd, hTn, hvsub⟩ := hs
        have hcell_open : openCell g e.2.2 = true := hfo e hmem
        have hcell_mem : e.2.2 ∈ openCells g := (mem_openCells g e.2.2).mpr hcell_open
        obtain ⟨hv, hl, hm⟩ := ucsExpand_props g e.2.2 e.1 (g.neighborsPos e.2.2)
          { s with
            frontier := rest
            frontier_set := s.frontier_set.erase e.2.2
            visited := s.visited ++ [e.2.2] }
        rw [← hs0] at hv hl hm
        have hv0 : s0.visited = s.visited ++ [e.2.2] := hv
        refine ⟨⟨?_, ?_, ?_, ?_⟩, ?_, e.2.2, hvis, hcell_mem, hv0⟩
        · intro x hx
          rcases hm x hx with hx' | hx'
          · exact hfo x (hsub x hx')
          · exact mem_neighborsPos_open g hcoh e.2.2 x.2.2 hx'
        · rw [hv0]
          simp only [List.nodup_append, List.nodup_singleton, List.disjoint_singleton]
          exact ⟨hnd, trivial, hvis⟩
        · rw [hv0]
          simp only [List.mem_append, List.mem_singleton]
          intro hcon
          rcases hcon with hcon | hcon
          · exact hTn hcon
          · exact htar hcon.symm
        · rw [hv0]
          intro c hc
          rcases List.mem_append.mp hc with hc' | hc'
          · exact hvsub c hc'
          · rw [List.mem_singleton] at hc'
            exact hc' ▸ hcell_mem
        · show 7 * ((openCells g).length + 1 - s0.visited.length) + s0.frontier.length <
            7 * ((openCells g).length + 1 - s.visited.length) + s.frontier.length
          rw [hv0]
          have hnb := length_neighborsPos_le g e.2.2
          have hvlen : s.visited.length ≤ (openCells g).length := nodup_sub_length hnd hvsub
          have hexp : s0.frontier.length ≤ rest.length + (g.neighborsPos e.2.2).length := hl
          simp only [List.length_append, List.length_singleton]
          omega)
    (by
      intro s snap hs hstep
      rcases ucsStep_cases g s with ⟨hf, he⟩ |
        ⟨e, rest, hmem, hlen, hsub, ⟨hvis, he⟩ | ⟨hvis, htar, he⟩ |
          ⟨hvis, htar, s0, hs0, he⟩⟩
      · rw [he] at hstep
        injection hstep with h1
        exact ⟨[], by rw [← h1]⟩
      · rw [he] at hstep
        exact StepOut.noConfusion hstep
      · rw [he] at hstep
        injection hstep with h1
        exact ⟨reconstruct_path s.parent e.2.2, by rw [← h1]⟩
      · rw [he] at hstep
        exact StepOut.noConfusion hstep)
    (fun s hs => ⟨hs.2.1, hs.2.2.1, hs.2.2.2⟩)
    (7 * ((openCells g).length + 1) + 2) (ucsInit g)
    (by
      refine ⟨?_, by simp [ucsInit], by simp [ucsInit], by simp [ucsInit]⟩
      intro e hein
      simp only [ucsInit, List.mem_singleton] at hein
      rw [hein]
      exact hso)
    (by
      unfold ucsMeasure ucsInit
      simp only [List.length_singleton, List.length_nil]
      omega)
  obtain ⟨snaps, hrun, hbound, last, hlast, hpath⟩ := hmain
  obtain ⟨ns, hns, -⟩ := (openCell_iff g g.start_pos).mp hso
  obtain ⟨nt, hnt, -⟩ := (openCell_iff g g.target_pos).mp hto
  refine ⟨snaps, ?_, ?_, last, hlast, hpath⟩
  · unfold ucsSolve
    rw [hns, hnt]
    exact hrun
  · have hcard := (openCells g).toFinset_card_le
    simp only [ucsInit, List.length_nil] at hbound
    omega

theorem bidiExpand_props (cur : Cell) (nbs : List Cell) :
    ∀ (myv otherv myf : List Cell) (par : List (Cell × Cell))
      (vs' fs' : List Cell) (par' : List (Cell × Cell)) (m : Option Cell),
      bidiExpand cur nbs myv otherv myf par = (vs', fs', par', m) →
      ∃ added, vs' = myv ++ added ∧ fs' = myf ++ added ∧
        (∀ a ∈ added, a ∈ nbs ∧ a ∉ myv) ∧
        (myv.Nodup → vs'.Nodup) ∧
        (m = none → ∀ a ∈ added, a ∉ otherv) := by
  induction nbs with
  | nil =>
    intro myv otherv myf par vs' fs' par' m h
    unfold bidiExpand at h
    injection h with h1 h2
    injection h2 with h2 h3
    injection h3 with h3 h4
    subst h1
    subst h2
    subst h4
    exact ⟨[], by simp, by simp, by simp, fun hnd => by simpa using hnd, by simp⟩
  | cons nb rest ih =>
    intro myv otherv myf par vs' fs' par' m h
    unfold bidiExpand at h
    by_cases h1 : nb ∉ myv
    · rw [if_pos h1] at h
      dsimp only at h
      by_cases h2 : nb ∈ otherv
      · rw [if_pos h2] at h
        injection h with e1 e2
        injection e2 with e2 e3
        injection e3 with e3 e4
        subst e1
        subst e2
        subst e4
        refine ⟨[nb], rfl, rfl, ?_, ?_, ?_⟩
        · intro a ha
          rw [List.mem_singleton] at ha
          subst ha
          exact ⟨List.mem_cons_self a rest, h1⟩
        · intro hnd
          simp only [List.nodup_append, List.nodup_singleton, List.disjoint_singleton]
          exact ⟨hnd, trivial, h1⟩
        · intro hcon
          exact Option.noConfusion hcon
      · rw [if_neg h2] at h
        obtain ⟨added, hvs, hfs, hmem, hnd, hno⟩ := ih _ _ _ _ _ _ _ _ h
        refine ⟨nb :: added, ?_, ?_, ?_, ?_, ?_⟩
        · rw [hvs, List.append_assoc]
          rfl
        · rw [hfs, List.append_assoc]
          rfl
        · intro a ha
          rcases List.mem_cons.mp ha with ha' | ha'
          · subst ha'
            exact ⟨List.mem_cons_self a rest, h1⟩
          · obtain ⟨hr, hnm⟩ := hmem a ha'
            refine ⟨List.mem_cons_of_mem nb hr, fun hin => hnm ?_⟩
            rw [List.mem_append]
            exact Or.inl hin
        · intro hnodup
          apply hnd
          simp only [List.nodup_append, List.nodup_singleton, List.disjoint_singleton]
          exact ⟨hnodup, trivial, h1⟩
        · intro hm a ha
          rcases List.mem_cons.mp ha with ha' | ha'
          · subst ha'
            exact h2
          · exact hno hm a ha'
    · rw [if_neg h1] at h
      obtain ⟨added, hvs, hfs, hmem, hnd, hno⟩ := ih _ _ _ _ _ _ _ _ h
      refine ⟨added, hvs, hfs, ?_, hnd, hno⟩
      intro a ha
      obtain ⟨hr, hnm⟩ := hmem a ha
      exact ⟨List.mem_cons_of_mem nb hr, hnm⟩

theorem bidiStep_cases (g : Grid) (s : BidiState) :
    (∃ snap, bidiStep g s = StepOut.done snap ∧ snap.path ≠ none) ∨
    (∃ cs fsrest ct ftrest vs1 fs1 par1 vt1 ft1 par2,
      s.fs = cs :: fsrest ∧ s.ft = ct :: ftrest ∧
      bidiExpand cs (g.neighborsPos cs) s.vs s.vt fsrest s.parent = (vs1, fs1, par1, none) ∧
      bidiExpand ct (g.neighborsPos ct) s.vt vs1 ftrest par1 = (vt1, ft1, par2, none) ∧
      bidiStep g s = StepOut.yieldSnap ⟨fs1, ft1, vs1, vt1, par2⟩
        ⟨fs1 ++ ft1, vs1 ++ vt1, none⟩) := by
  unfold bidiStep
  cases hfs : s.fs with
  | nil => exact Or.inl ⟨_, rfl, by simp⟩
  | cons cs fsrest =>
    cases hft : s.ft with
    | nil => exact Or.inl ⟨_, rfl, by simp⟩
    | cons ct ftrest =>
      rcases hex1 : bidiExpand cs (g.neighborsPos cs) s.vs s.vt fsrest s.parent with
        ⟨vs1, fs1, par1, m1⟩
      cases m1 with
      | some m =>
        refine Or.inl ⟨⟨fs1 ++ ct :: ftrest, vs1 ++ s.vt,
            some (bidiReconstruct par1 m g.start_pos)⟩, ?_, by simp⟩
        dsimp only
        rw [hex1]
      | none =>
        rcases hex2 : bidiExpand ct (g.neighborsPos ct) s.vt vs1 ftrest par1 with
          ⟨vt1, ft1, par2, m2⟩
        cases m2 with
        | some m =>
          refine Or.inl ⟨⟨fs1 ++ ft1, vs1 ++ vt1,
              some (bidiReconstruct par2 m g.start_pos)⟩, ?_, by simp⟩
          dsimp only
          rw [hex1]
          dsimp only
          rw [hex2]
        | none =>
          refine Or.inr ⟨cs, fsrest, ct, ftrest, vs1, fs1, par1, vt1, ft1, par2,
            rfl, rfl, hex1, hex2, ?_⟩
          dsimp only
          rw [hex1]
          dsimp only
          rw [hex2]

theorem bidiRun_bound (g : Grid) (hcoh : coherent g) :
    ∀ (fuel : Nat) (s : BidiState), bidiInv g s → bidiMeasure g s < fuel →
      ∃ snaps, runSolver (bidiStep g) fuel s = some snaps ∧
        snaps.length + s.vs.length + s.vt.length ≤
          (openCells g).length + 1 + s.fs.length ∧
        ∃ last, snaps.getLast? = some last ∧ last.path ≠ none := by
  intro fuel
  induction fuel with
  | zero =>
    intro s hs hμ
    omega
  | succ fuel ih =>
    intro s hs hμ
    obtain ⟨hfsub, hftsub, hvnd, htnd, hvop, htop, hdis⟩ := hs
    have hvtlen : s.vs.length + s.vt.length ≤ (openCells g).length := by
      have hnd : (s.vs ++ s.vt).Nodup := by
        rw [List.nodup_append]
        exact ⟨hvnd, htnd, fun a ha hb => hdis a ha hb⟩
      have hsub : ∀ c ∈ s.vs ++ s.vt, c ∈ openCells g := by
        intro c hc
        rcases List.mem_append.mp hc with hc' | hc'
        · exact hvop c hc'
        · exact htop c hc'
      have := nodup_sub_length hnd hsub
      simpa using this
    rcases bidiStep_cases g s with ⟨snap, he, hpath⟩ |
      ⟨cs, fsrest, ct, ftrest, vs1, fs1, par1, vt1, ft1, par2, hfs, hft, hex1, hex2, he⟩
    · refine ⟨[snap], by simp [runSolver, he], ?_, snap, by simp, hpath⟩
      simp only [List.length_singleton]
      omega
    · obtain ⟨a1, hv1, hf1, ha1mem, ha1nd, ha1no⟩ :=
        bidiExpand_props cs (g.neighborsPos cs) _ _ _ _ _ _ _ _ hex1
      obtain ⟨a2, hv2, hf2, ha2mem, ha2nd, ha2no⟩ :=
        bidiExpand_props ct (g.neighborsPos ct) _ _ _ _ _ _ _ _ hex2
      have ha1open : ∀ a ∈ a1, a ∈ openCells g := fun a ha =>
        (mem_openCells g a).mpr (mem_neighborsPos_open g hcoh cs a (ha1mem a ha).1)
      have ha2open : ∀ a ∈ a2, a ∈ openCells g := fun a ha =>
        (mem_openCells g a).mpr (mem_neighborsPos_open g hcoh ct a (ha2mem a ha).1)
      have hinv' : bidiInv g ⟨fs1, ft1, vs1, vt1, par2⟩ := by
        refine ⟨?_, ?_, ha1nd hvnd, ha2nd htnd, ?_, ?_, ?_⟩
        · intro c hc
          rw [hf1] at hc
          rw [hv1]
          rcases List.mem_append.mp hc with hc' | hc'
          · exact List.mem_append.mpr (Or.inl (hfsub c (hfs ▸ List.mem_cons_of_mem cs hc')))
          · exact List.mem_append.mpr (Or.inr hc')
        · intro c hc
          rw [hf2] at hc
          rw [hv2]
          rcases List.mem_append.mp hc with hc' | hc'
          · exact List.mem_append.mpr (Or.inl (hftsub c (hft ▸ List.mem_cons_of_mem ct hc')))
          · exact List.mem_append.mpr (Or.inr hc')
        · intro c hc
          rw [hv1] at hc
          rcases List.mem_append.mp hc with hc' | hc'
          · exact hvop c hc'
          · exact ha1open c hc'
        · intro c hc
          rw [hv2] at hc
          rcases List.mem_append.mp hc with hc' | hc'
          · exact htop c hc'
          · exact ha2open c hc'
        · intro c hc hin
          rw [hv1] at hc
          rw [hv2] at hin
          rcases List.mem_append.mp hc with hc' | hc'
          · rcases List.mem_append.mp hin with hin' | hin'
            · exact hdis c hc' hin'
            · exact ha2no rfl c hin' (hv1 ▸ List.mem_append.mpr (Or.inl hc'))
          · rcases List.mem_append.mp hin with hin' | hin'
            · exact ha1no rfl c hc' hin'
            · exact ha2no rfl c hin' (hv1 ▸ List.mem_append.mpr (Or.inr hc'))
      have hvs1l : vs1.length = s.vs.length + a1.length := by
        rw [hv1, List.length_append]
      have hvt1l : vt1.length = s.vt.length + a2.length := by
        rw [hv2, List.length_append]
      have hfs1l : fs1.length = fsrest.length + a1.length := by
        rw [hf1, List.length_append]
      have hft1l : ft1.length = ftrest.length + a2.length := by
        rw [hf2, List.length_append]
      have hvtlen' : vs1.length + vt1.length ≤ (openCells g).length := by
        obtain ⟨h1, h2, h3, h4, h5, h6, h7⟩ := hinv'
        have hnd : (vs1 ++ vt1).Nodup := by
          rw [List.nodup_append]
          exact ⟨h3, h4, fun a ha hb => h7 a ha hb⟩
        have hsub : ∀ c ∈ vs1 ++ vt1, c ∈ openCells g := by
          intro c hc
          rcases List.mem_append.mp hc with hc' | hc'
          · exact h5 c hc'
          · exact h6 c hc'
        have := nodup_sub_length hnd hsub
        simpa using this
      have hμ' : bidiMeasure g ⟨fs1, ft1, vs1, vt1, par2⟩ < fuel := by
        unfold bidiMeasure at hμ ⊢
        dsimp only
        rw [hfs] at hμ
        rw [hft] at hμ
        simp only [List.length_cons] at hμ
        omega
      obtain ⟨snaps, hrun, hbound, last, hlast, hpath⟩ :=
        ih ⟨fs1, ft1, vs1, vt1, par2⟩ hinv' hμ'
      have hne : snaps ≠ [] := by
        intro h
        rw [h] at hlast
        simp at hlast
      refine ⟨⟨fs1 ++ ft1, vs1 ++ vt1, none⟩ :: snaps,
        by simp [runSolver, he, hrun], ?_, last, ?_, hpath⟩
      · dsimp only at hbound
        rw [hfs]
        simp only [List.length_cons]
        omega
      · cases snaps with
        | nil => exact absurd rfl hne
        | cons a t => rw [List.getLast?_cons_cons]; exact hlast

theorem bidi_bound (g : Grid) (hcoh : coherent g)
    (hso : openCell g g.start_pos = true) (hto : openCell g g.target_pos = true)
    (hst : g.start_pos ≠ g.target_pos) :
    ∃ snaps, bidiSolve g (2 * (openCells g).length + 4) = some snaps ∧
      snaps.length ≤ (openCells g).length ∧
      ∃ last, snaps.getLast? = some last ∧ last.path ≠ none := by
  have hmain := bidiRun_bound g hcoh (2 * (openCells g).length + 4) (bidiInit g)
    (by
      refine ⟨?_, ?_, by simp [bidiInit], by simp [bidiInit], ?_, ?_, ?_⟩
      · intro c hc
        simpa [bidiInit] using hc
      · intro c hc
        simpa [bidiInit] using hc
      · intro c hc
        simp only [bidiInit, List.mem_singleton] at hc
        exact hc ▸ (mem_openCells g _).mpr hso
      · intro c hc
        simp only [bidiInit, List.mem_singleton] at hc
        exact hc ▸ (mem_openCells g _).mpr hto
      · intro c hc
        simp only [bidiInit, List.mem_singleton] at hc ⊢
        exact hc ▸ hst)
    (by
      show 2 * ((openCells g).length - [g.start_pos].length - [g.target_pos].length) +
        [g.start_pos].length + [g.target_pos].length + 1 < 2 * (openCells g).length + 4
      simp only [List.length_singleton]
      omega)
  obtain ⟨snaps, hrun, hbound, last, hlast, hpath⟩ := hmain
  obtain ⟨ns, hns, -⟩ := (openCell_iff g g.start_pos).mp hso
  obtain ⟨nt, hnt, -⟩ := (openCell_iff g g.target_pos).mp hto
  refine ⟨snaps, ?_, ?_, last, hlast, hpath⟩
  · unfold bidiSolve
    rw [hns, hnt]
    exact hrun
  · simp only [bidiInit, List.length_singleton] at hbound
    omega

theorem iddfsInner_bound (g : Grid) (limit : Nat) (hcoh : coherent g) :
    ∀ (fuel : Nat) (s : DLSState), dlsInv g s → dlsMeasure g s < fuel →
      ∃ snaps b, iddfsInner g limit fuel s = some (snaps, b) ∧
        snaps.length + s.visited.length ≤ (openCells g).toFinset.card ∧
        (b = true → ∃ last, snaps.getLast? = some last ∧ last.path ≠ none) := by
  intro fuel
  induction fuel with
  | zero =>
    intro s hs hμ
    omega
  | succ fuel ih =>
    intro s hs hμ
    obtain ⟨hfo, hnd, hTn, hvsub⟩ := hs
    have hvlen : s.visited.length ≤ (openCells g).length := nodup_sub_length hnd hvsub
    have hvcard : s.visited.length ≤ (openCells g).toFinset.card := by
      calc s.visited.length = s.visited.toFinset.card :=
          (List.toFinset_card_of_nodup hnd).symm
        _ ≤ (openCells g).toFinset.card :=
          Finset.card_le_card fun x hx =>
            List.mem_toFinset.mpr (hvsub x (List.mem_toFinset.mp hx))
    rw [iddfsInner]
    cases hf : s.frontier with
    | nil =>
      refine ⟨[], false, rfl, by simpa using hvcard, by simp⟩
    | cons cur rest =>
      dsimp only
      by_cases hvis : cur ∈ s.visited
      · rw [if_pos hvis]
        have hinv' : dlsInv g { s with frontier := rest } := by
          refine ⟨?_, hnd, hTn, hvsub⟩
          intro c hc
          exact hfo c (hf ▸ List.mem_cons_of_mem cur hc)
        have hμ' : dlsMeasure g { s with frontier := rest } < fuel := by
          show 7 * ((openCells g).length + 1 - s.visited.length) + rest.length < fuel
          unfold dlsMeasure at hμ
          rw [hf] at hμ
          simp only [List.length_cons] at hμ
          omega
        obtain ⟨snaps, b, hrun, hbound, hlast⟩ := ih { s with frontier := rest } hinv' hμ'
        exact ⟨snaps, b, hrun, hbound, hlast⟩
      · rw [if_neg hvis]
        by_cases htar : cur = g.target_pos
        · rw [if_pos htar]
          refine ⟨[⟨rest, s.visited ++ [cur], some (reconstruct_path s.parent cur)⟩],
            true, rfl, ?_, ?_⟩
          · have hsubF : s.visited.toFinset ⊆ (openCells g).toFinset.erase g.target_pos := by
              intro x hx
              rw [List.mem_toFinset] at hx
              rw [Finset.mem_erase]
              exact ⟨fun hxT => hTn (hxT ▸ hx), List.mem_toFinset.mpr (hvsub x hx)⟩
            have hcard := Finset.card_le_card hsubF
            have hTm : g.target_pos ∈ (openCells g).toFinset := by
              rw [List.mem_toFinset]
              refine (mem_openCells g _).mpr ?_
              rw [← htar]
              exact hfo cur (hf ▸ List.mem_cons_self cur rest)
            rw [Finset.card_erase_of_mem hTm] at hcard
            have hlen : s.visited.toFinset.card = s.visited.length :=
              List.toFinset_card_of_nodup hnd
            have hTcard : 0 < (openCells g).toFinset.card :=
              Finset.card_pos.mpr ⟨g.target_pos, hTm⟩
            simp only [List.length_singleton]
            omega
          · exact fun _ => ⟨⟨rest, s.visited ++ [cur], some (reconstruct_path s.parent cur)⟩,
              by simp, by simp⟩
        · rw [if_neg htar]
          have hcur_open : openCell g cur = true := hfo cur (hf ▸ List.mem_cons_self cur rest)
          have hcur_mem : cur ∈ openCells g := (mem_openCells g cur).mpr hcur_open
          have hprops : ∀ s0 : DLSState,
              s0 = (if (lookupCell s.depth cur).getD 0 < limit
                then dlsExpand g cur ((lookupCell s.depth cur).getD 0)
                  ⟨rest, s.visited ++ [cur], s.parent, s.depth⟩
                else ⟨rest, s.visited ++ [cur], s.parent, s.depth⟩) →
              s0.visited = s.visited ++ [cur] ∧
              s0.frontier.length ≤ rest.length + 6 ∧
              ∀ c ∈ s0.frontier, c ∈ rest ∨ c ∈ g.neighborsPos cur := by
            intro s0 hs0
            have hnb := length_neighborsPos_le g cur
            by_cases hd : (lookupCell s.depth cur).getD 0 < limit
            · rw [if_pos hd] at hs0
              obtain ⟨added, hv, hfr, hlen, -, hmem, -, -, -⟩ :=
                dlsFold_props g cur ((lookupCell s.depth cur).getD 0)
                  ((g.neighborsPos cur).reverse) ⟨rest, s.visited ++ [cur], s.parent, s.depth⟩
              rw [hs0]
              refine ⟨hv, ?_, ?_⟩
              · show (dlsExpand g cur _ _).frontier.length ≤ _
                unfold dlsExpand
                rw [hfr]
                simp only [List.length_append, List.length_reverse]
                rw [List.length_reverse] at hlen
                simp only [List.length_cons, List.length_nil] at *
                omega
              · intro c hc
                show c ∈ rest ∨ _
                unfold dlsExpand at hc
                rw [hfr] at hc
                rcases List.mem_append.mp hc with hc' | hc'
                · exact Or.inr (List.mem_reverse.mp
                    ((hmem c (List.mem_reverse.mp hc')).1))
                · exact Or.inl hc'
            · rw [if_neg hd] at hs0
              rw [hs0]
              exact ⟨rfl, Nat.le_add_right rest.length 6, fun c hc => Or.inl hc⟩
          obtain ⟨hv0, hl0, hm0⟩ := hprops _ rfl
          have hinv' : dlsInv g (if (lookupCell s.depth cur).getD 0 < limit
              then dlsExpand g cur ((lookupCell s.depth cur).getD 0)
                ⟨rest, s.visited ++ [cur], s.parent, s.depth⟩
              else ⟨rest, s.visited ++ [cur], s.parent, s.depth⟩) := by
            refine ⟨?_, ?_, ?_, ?_⟩
            · intro c hc
              rcases hm0 c hc with hc' | hc'
              · exact hfo c (hf ▸ List.mem_cons_of_mem cur hc')
              · exact mem_neighborsPos_open g hcoh cur c hc'
            · rw [hv0]
              simp only [List.nodup_append, List.nodup_singleton, List.disjoint_singleton]
              exact ⟨hnd, trivial, hvis⟩
            · rw [hv0]
              simp only [List.mem_append, List.mem_singleton]
              intro hcon
              rcases hcon with hcon | hcon
              · exact hTn hcon
              · exact htar hcon.symm
            · rw [hv0]
              intro c hc
              rcases List.mem_append.mp hc with hc' | hc'
              · exact hvsub c hc'
              · rw [List.mem_singleton] at hc'
                exact hc' ▸ hcur_mem
          have hμ' : dlsMeasure g (if (lookupCell s.depth cur).getD 0 < limit
              then dlsExpand g cur ((lookupCell s.depth cur).getD 0)
                ⟨rest, s.visited ++ [cur], s.parent, s.depth⟩
              else ⟨rest, s.visited ++ [cur], s.parent, s.depth⟩) < fuel := by
            unfold dlsMeasure
            rw [hv0]
            unfold dlsMeasure at hμ
            rw [hf] at hμ
            simp only [List.length_cons] at hμ
            simp only [List.length_append, List.length_singleton]
            omega
          obtain ⟨snaps, b, hrun, hbound, hlast⟩ := ih _ hinv' hμ'
          rw [hrun]
          refine ⟨_ :: snaps, b, rfl, ?_, ?_⟩
          · rw [hv0] at hbound
            simp only [List.length_append, List.length_singleton] at hbound
            simp only [List.length_cons]
            omega
          · intro hb
            obtain ⟨last, hl, hp⟩ := hlast hb
            have hne : snaps ≠ [] := by
              intro h
              rw [h] at hl
              simp at hl
            refine ⟨last, ?_, hp⟩
            cases snaps with
            | nil => exact absurd rfl hne
            | cons a t => rw [List.getLast?_cons_cons]; exact hl

theorem iddfsLoop_bound (g : Grid) (hcoh : coherent g)
    (hso : openCell g g.start_pos = true) :
    ∀ ls : List Nat, ∃ snaps,
      iddfsLoop g (7 * ((openCells g).length + 1) + 2) ls = some snaps ∧
      snaps.length ≤ ls.length * (openCells g).length + 1 ∧
      ∃ last, snaps.getLast? = some last ∧ last.path ≠ none := by
  intro ls
  induction ls with
  | nil =>
    exact ⟨[⟨[], [], some []⟩], rfl, by simp, ⟨[], [], some []⟩, by simp, by simp⟩
  | cons limit more ih =>
    have hinit : dlsInv g (dlsInit g) := by
      refine ⟨?_, by simp [dlsInit], by simp [dlsInit], by simp [dlsInit]⟩
      intro c hc
      simp only [dlsInit, List.mem_singleton] at hc
      exact hc ▸ hso
    have hμ : dlsMeasure g (dlsInit g) < 7 * ((openCells g).length + 1) + 2 := by
      unfold dlsMeasure dlsInit
      simp only [List.length_singleton, List.length_nil]
      omega
    obtain ⟨snaps1, b, hrun1, hbound1, hlast1⟩ :=
      iddfsInner_bound g limit hcoh (7 * ((openCells g).length + 1) + 2) (dlsInit g)
        hinit hμ
    have hb1 : snaps1.length ≤ (openCells g).length := by
      have hcard := (openCells g).toFinset_card_le
      simp only [dlsInit, List.length_nil] at hbound1
      omega
    cases b with
    | true =>
      obtain ⟨last, hl, hp⟩ := hlast1 rfl
      refine ⟨snaps1, ?_, ?_, last, hl, hp⟩
      · unfold iddfsLoop
        rw [hrun1]
      · calc snaps1.length ≤ (openCells g).length := hb1
          _ ≤ (more.length + 1) * (openCells g).length + 1 := by
            have : (openCells g).length ≤ (more.length + 1) * (openCells g).length :=
              Nat.le_mul_of_pos_left _ (by omega)
            omega
    | false =>
      obtain ⟨tail, hrunt, hboundt, last, hl, hp⟩ := ih
      refine ⟨snaps1 ++ tail, ?_, ?_, last, ?_, hp⟩
      · unfold iddfsLoop
        rw [hrun1, hrunt]
      · rw [List.length_append]
        simp only [List.length_cons]
        have : (more.length + 1) * (openCells g).length =
            more.length * (openCells g).length + (openCells g).length := by ring
        omega
      · rw [List.getLast?_append, hl]
        rfl

theorem iddfs_bound (g : Grid) (maxd : Nat) (hcoh : coherent g)
    (hso : openCell g g.start_pos = true) (hto : openCell g g.target_pos = true) :
    ∃ snaps, iddfsSolve g maxd (7 * ((openCells g).length + 1) + 2) = some snaps ∧
      snaps.length ≤ maxd * (openCells g).length + 1 ∧
      ∃ last, snaps.getLast? = some last ∧ last.path ≠ none := by
  obtain ⟨snaps, hrun, hbound, last, hl, hp⟩ :=
    iddfsLoop_bound g hcoh hso (List.range' 1 maxd)
  obtain ⟨ns, hns, -⟩ := (openCell_iff g g.start_pos).mp hso
  obtain ⟨nt, hnt, -⟩ := (openCell_iff g g.target_pos).mp hto
  refine ⟨snaps, ?_, ?_, last, hl, hp⟩
  · unfold iddfsSolve
    rw [hns, hnt]
    exact hrun
  · rw [List.length_range'] at hbound
    exact hbound

/-- C7 (counterexample part).  The claimed bound — terminal snapshot within a
number of advance steps at most the number of open cells — fails for the
bidirectional strategy on Grid(1, 1): there Grid.init places start and target
on the same single open cell, the two frontiers never meet (a cell is never
its own neighbor), and the run takes two advance steps against one open
cell. -/
theorem bidirectional_exceeds_open_cells :
    ∃ snaps, bidiSolve (Grid.init 1 1) 5 = some snaps ∧
      (openCells (Grid.init 1 1)).length < snaps.length := by
  refine ⟨_, rfl, ?_⟩
  decide

/-- C7.  On every coherent grid with open start and target cells, every
strategy terminates with a terminal snapshot (a found path, or an empty path
on exhaustion) within a bounded number of one-unit advance steps: at most
the number of open cells for BFS, DFS, DLS (any limit), UCS, beam search
(any width), Scout (any layer parameters), and randomized DFS (any shuffle
outcome); at most max_depth times the number of open cells plus one for
IDDFS; and at most the number of open cells for bidirectional search when
the start and target differ (when they coincide the bound fails; see the
counterexample). -/
theorem strategy_termination_bound (g : Grid) (hcoh : coherent g)
    (hso : openCell g g.start_pos = true) (hto : openCell g g.target_pos = true)
    (shuffle : Nat → List Cell → List Cell) (hshuf : ∀ i l, (shuffle i l).Perm l)
    (hst : g.start_pos ≠ g.target_pos) :
    (∃ snaps, bfsSolve g (7 * ((openCells g).length + 1) + 2) = some snaps ∧
      snaps.length ≤ (openCells g).length ∧
      ∃ last, snaps.getLast? = some last ∧ last.path ≠ none) ∧
    (∃ snaps, dfsSolve g (7 * ((openCells g).length + 1) + 2) = some snaps ∧
      snaps.length ≤ (openCells g).length ∧
      ∃ last, snaps.getLast? = some last ∧ last.path ≠ none) ∧
    (∀ limit, ∃ snaps, dlsSolve g limit (7 * ((openCells g).length + 1) + 2) = some snaps ∧
      snaps.length ≤ (openCells g).length ∧
      ∃ last, snaps.getLast? = some last ∧ last.path ≠ none) ∧
    (∃ snaps, ucsSolve g (7 * ((openCells g).length + 1) + 2) = some snaps ∧
      snaps.length ≤ (openCells g).length ∧
      ∃ last, snaps.getLast? = some last ∧ last.path ≠ none) ∧
    (∀ w, ∃ snaps, beamSolve g w (7 * ((openCells g).length + 1) + 2) = some snaps ∧
      snaps.length ≤ (openCells g).length ∧
      ∃ last, snaps.getLast? = some last ∧ last.path ≠ none) ∧
    (∀ bl dl, ∃ snaps, scoutSolve g bl dl (7 * ((openCells g).length + 1) + 2) = some snaps ∧
      snaps.length ≤ (openCells g).length ∧
      ∃ last, snaps.getLast? = some last ∧ last.path ≠ none) ∧
    (∃ snaps, randSolve g shuffle (7 * ((openCells g).length + 1) + 2) = some snaps ∧
      snaps.length ≤ (openCells g).length ∧
      ∃ last, snaps.getLast? = some last ∧ last.path ≠ none) ∧
    (∃ snaps, bidiSolve g (2 * (openCells g).length + 4) = some snaps ∧
      snaps.length ≤ (openCells g).length ∧
      ∃ last, snaps.getLast? = some last ∧ last.path ≠ none) ∧
    (∀ max_depth, ∃ snaps,
      iddfsSolve g max_depth (7 * ((openCells g).length + 1) + 2) = some snaps ∧
      snaps.length ≤ max_depth * (openCells g).length + 1 ∧
      ∃ last, snaps.getLast? = some last ∧ last.path ≠ none) :=
  ⟨bfs_bound g hcoh hso hto,
   dfs_bound g hcoh hso hto,
   fun limit => dls_bound g limit hcoh hso hto,
   ucs_bound g hcoh hso hto,
   fun w => beam_bound g w hcoh hso hto,
   fun bl dl => scout_bound g bl dl hcoh hso hto,
   rand_bound g shuffle hshuf hcoh hso hto,
   bidi_bound g hcoh hso hto hst,
   fun max_depth => iddfs_bound g max_depth hcoh hso hto⟩

theorem strategy_termination_bound_witness :
    ∃ snaps, bfsSolve (Grid.init 5 5)
        (7 * ((openCells (Grid.init 5 5)).length + 1) + 2) = some snaps ∧
      snaps.length ≤ (openCells (Grid.init 5 5)).length ∧
      ∃ last, snaps.getLast? = some last ∧ last.path ≠ none :=
  (strategy_termination_bound (Grid.init 5 5)
    (coherent_of_coherentB _ (by decide))
    (by decide) (by decide)
    (fun _ l => l) (fun _ l => List.Perm.refl l)
    (by decide)).1

theorem reconstruct_path_ne_nil (par : List (Cell × Cell)) (c : Cell) :
    reconstruct_path par c ≠ [] := by
  unfold reconstruct_path
  intro h
  rw [List.reverse_eq_nil_iff] at h
  unfold reconstructAux at h
  cases hl : lookupCell par c with
  | none =>
    rw [hl] at h
    exact List.noConfusion h
  | some p =>
    rw [hl] at h
    exact List.noConfusion h

theorem isWalk_append_one (g : Grid) (w : List Cell) (b c : Cell)
    (hw : IsWalk g w) (hl : w.getLast? = some b) (hc : c ∈ g.neighborsPos b) :
    IsWalk g (w ++ [c]) := by
  unfold IsWalk at *
  rw [List.chain'_append]
  refine ⟨hw, List.chain'_singleton c, ?_⟩
  intro x hx y hy
  rw [hl] at hx
  simp only [Option.mem_def, Option.some.injEq] at hx
  simp only [List.head?_cons, Option.mem_def, Option.some.injEq] at hy
  subst hx
  subst hy
  exact hc

theorem last_mem_split (S : Cell → Prop) [DecidablePred S] :
    ∀ (q : List Cell), (∃ c ∈ q, S c) →
      ∃ q1 e q2, q = q1 ++ e :: q2 ∧ S e ∧ ∀ c ∈ q2, ¬ S c := by
  intro q
  induction q with
  | nil =>
    rintro ⟨c, hc, -⟩
    simp at hc
  | cons a t ih =>
    intro hex
    by_cases ht : ∃ c ∈ t, S c
    · obtain ⟨q1, e, q2, heq, hSe, hq2⟩ := ih ht
      exact ⟨a :: q1, e, q2, by rw [heq]; rfl, hSe, hq2⟩
    · push_neg at ht
      obtain ⟨c, hc, hSc⟩ := hex
      rcases List.mem_cons.mp hc with rfl | hct
      · exact ⟨[], c, t, rfl, hSc, ht⟩
      · exact absurd hSc (ht c hct)

theorem walk_extract (g : Grid) :
    ∀ (n : Nat) (w : List Cell) (a b : Cell), w.length ≤ n → IsWalk g w →
      w.head? = some a → w.getLast? = some b →
      ∃ q, IsWalk g q ∧ q.Nodup ∧ q.head? = some a ∧ q.getLast? = some b ∧
        q.length ≤ w.length ∧ ∀ c ∈ q, c ∈ w := by
  intro n
  induction n with
  | zero =>
    intro w a b hn hw hh hl
    have hwnil : w = [] := List.length_eq_zero.mp (Nat.le_zero.mp hn)
    rw [hwnil] at hh
    exact Option.noConfusion hh
  | succ n ih =>
    intro w a b hn hw hh hl
    cases w with
    | nil => exact Option.noConfusion hh
    | cons a0 rest =>
      have ha0 : a0 = a := by simpa using hh
      subst ha0
      by_cases hmem : a0 ∈ rest
      · obtain ⟨u, v, huv⟩ := List.append_of_mem hmem
        subst huv
        have hsuffix : (a0 :: v) <:+ (a0 :: (u ++ a0 :: v)) := ⟨a0 :: u, by simp⟩
        have hwalk : IsWalk g (a0 :: v) := List.Chain'.suffix hw hsuffix
        have hlen2 : (a0 :: v).length ≤ n := by
          simp only [List.length_cons, List.length_append] at hn ⊢
          omega
        have hlast2 : (a0 :: v).getLast? = some b := by
          rw [show a0 :: (u ++ a0 :: v) = (a0 :: u) ++ a0 :: v by simp] at hl
          rw [List.getLast?_append] at hl
          cases hgl : (a0 :: v).getLast? with
          | none =>
            rw [List.getLast?_eq_getLast _ (List.cons_ne_nil a0 v)] at hgl
            exact Option.noConfusion hgl
          | some x =>
            rw [hgl] at hl
            simp only [Option.or_some] at hl
            exact hl
        obtain ⟨q, h1, h2, h3, h4, h5, h6⟩ := ih (a0 :: v) a0 b hlen2 hwalk (by simp) hlast2
        refine ⟨q, h1, h2, h3, h4, ?_, fun c hc => ?_⟩
        · simp only [List.length_cons, List.length_append] at h5 ⊢
          omega
        · have := h6 c hc
          simp only [List.mem_cons, List.mem_append] at this ⊢
          tauto
      · cases rest with
        | nil =>
          have hb : a0 = b := by simpa using hl
          subst hb
          exact ⟨[a0], List.chain'_singleton a0, List.nodup_singleton a0, by simp, by simp,
            by simp, by simp⟩
        | cons r rest' =>
          obtain ⟨hab, htail⟩ := List.chain'_cons.mp hw
          have hlast2 : (r :: rest').getLast? = some b := by
            rw [← hl]
            rfl
          have hlen2 : (r :: rest').length ≤ n := by
            simp only [List.length_cons] at hn ⊢
            omega
          obtain ⟨q, h1, h2, h3, h4, h5, h6⟩ := ih (r :: rest') r b hlen2 htail (by simp) hlast2
          have hqne : q ≠ [] := by
            intro h
            rw [h] at h3
            exact Option.noConfusion h3
          refine ⟨a0 :: q, ?_, ?_, by simp, ?_, ?_, ?_⟩
          · rw [IsWalk, List.chain'_cons']
            refine ⟨fun y hy => ?_, h1⟩
            rw [h3] at hy
            simp only [Option.mem_def, Option.some.injEq] at hy
            subst hy
            exact hab
          · rw [List.nodup_cons]
            refine ⟨fun hin => hmem (h6 a0 hin), h2⟩
          · cases q with
            | nil => exact absurd rfl hqne
            | cons x t => rw [List.getLast?_cons_cons]; exact h4
          · simp only [List.length_cons] at h5 ⊢
            omega
          · intro c hc
            rcases List.mem_cons.mp hc with rfl | hc'
            · exact List.mem_cons_self c (r :: rest')
            · exact List.mem_cons_of_mem a0 (h6 c hc')

theorem runSolver_last_spec {σ : Type} (step : σ → StepOut σ) (Inv : σ → Prop)
    (Pr : Snapshot → Prop)
    (hskip : ∀ s s', Inv s → step s = StepOut.skip s' → Inv s')
    (hyield : ∀ s s' snap, Inv s → step s = StepOut.yieldSnap s' snap → Inv s')
    (hdone : ∀ s snap, Inv s → step s = StepOut.done snap → Pr snap) :
    ∀ (fuel : Nat) (s : σ) (snaps : List Snapshot), Inv s →
      runSolver step fuel s = some snaps →
      ∃ last, snaps.getLast? = some last ∧ Pr last := by
  intro fuel
  induction fuel with
  | zero =>
    intro s snaps hs hrun
    exact Option.noConfusion hrun
  | succ fuel ih =>
    intro s snaps hs hrun
    unfold runSolver at hrun
    cases hstep : step s with
    | done snap =>
      rw [hstep] at hrun
      injection hrun with h
      subst h
      exact ⟨snap, by simp, hdone s snap hs hstep⟩
    | skip s' =>
      rw [hstep] at hrun
      exact ih s' snaps (hskip s s' hs hstep) hrun
    | yieldSnap s' snap =>
      rw [hstep] at hrun
      dsimp only at hrun
      cases hrun' : runSolver step fuel s' with
      | none =>
        rw [hrun'] at hrun
        exact Option.noConfusion hrun
      | some snaps' =>
        rw [hrun'] at hrun
        simp only [Option.map_some'] at hrun
        obtain ⟨last, hl, hp⟩ := ih s' snaps' (hyield s s' snap hs hstep) hrun'
        have hsn : snaps = snap :: snaps' := by
          injection hrun with h
          exact h.symm
        subst hsn
        have hne : snaps' ≠ [] := by
          intro h
          rw [h] at hl
          simp at hl
        refine ⟨last, ?_, hp⟩
        cases snaps' with
        | nil => exact absurd rfl hne
        | cons a t => rw [List.getLast?_cons_cons]; exact hl

theorem unique_path_min_walk (g : Grid) (P : List Cell) (hlen : P.length = 6)
    (huniq : ∀ Q, IsSimplePath g Q g.start_pos g.target_pos → Q = P) :
    ∀ w, IsWalk g w → w.head? = some g.start_pos → w.getLast? = some g.target_pos →
      6 ≤ w.length := by
  intro w hw hh hl
  obtain ⟨q, h1, h2, h3, h4, h5, -⟩ := walk_extract g w.length w _ _ le_rfl hw hh hl
  have hq := huniq q ⟨h1, h2, h3, h4⟩
  rw [hq, hlen] at h5
  exact h5

theorem c5FailInv_yield (g : Grid) (limit : Nat) (s : DLSState) (cur : Cell)
    (rest : List Cell) (hf : s.frontier = cur :: rest) (hinv : c5FailInv g limit s) :
    c5FailInv g limit (if (lookupCell s.depth cur).getD 0 < limit
      then dlsExpand g cur ((lookupCell s.depth cur).getD 0)
        ⟨rest, s.visited ++ [cur], s.parent, s.depth⟩
      else ⟨rest, s.visited ++ [cur], s.parent, s.depth⟩) := by
  obtain ⟨d0, hld, hdle, w0, hw0, hh0, hl0, hwl0⟩ :=
    hinv cur (hf ▸ List.mem_cons_self cur rest)
  have hgd : (lookupCell s.depth cur).getD 0 = d0 := by
    rw [hld]
    rfl
  rw [hgd]
  by_cases hd : d0 < limit
  · rw [if_pos hd]
    obtain ⟨added, hv, hfr, -, -, hmem, hdl, hdo, -⟩ :=
      dlsFold_props g cur d0 ((g.neighborsPos cur).reverse)
        ⟨rest, s.visited ++ [cur], s.parent, s.depth⟩
    intro c hc
    have hc2 : c ∈ added.reverse ++ rest := by
      rw [← hfr]
      exact hc
    rcases List.mem_append.mp hc2 with hca | hcr
    · have hca' : c ∈ added := List.mem_reverse.mp hca
      have hnb : c ∈ g.neighborsPos cur := List.mem_reverse.mp (hmem c hca').1
      refine ⟨d0 + 1, hdl c hca', by omega, w0 ++ [c], ?_, ?_, ?_, ?_⟩
      · exact isWalk_append_one g w0 cur c hw0 hl0 hnb
      · rw [List.head?_append_of_ne_nil]
        · exact hh0
        · intro h
          rw [h] at hh0
          exact Option.noConfusion hh0
      · rw [List.getLast?_append]
        rfl
      · rw [List.length_append, hwl0]
        rfl
    · have hcna : c ∉ added := by
        intro hin
        exact (hmem c hin).2.2 hcr
      obtain ⟨d, hld', hdle', hww⟩ := hinv c (hf ▸ List.mem_cons_of_mem cur hcr)
      refine ⟨d, ?_, hdle', hww⟩
      have h := hdo c hcna
      rw [hld'] at h
      exact h
  · rw [if_neg hd]
    intro c hc
    exact hinv c (hf ▸ List.mem_cons_of_mem cur hc)

theorem c5FailInv_no_target (g : Grid) (limit : Nat) (hlim : limit ≤ 4)
    (hmin : ∀ w, IsWalk g w → w.head? = some g.start_pos →
      w.getLast? = some g.target_pos → 6 ≤ w.length)
    (s : DLSState) (cur : Cell) (rest : List Cell)
    (hf : s.frontier = cur :: rest) (hinv : c5FailInv g limit s)
    (htar : cur = g.target_pos) : False := by
  obtain ⟨d, -, hdle, w, hw, hh, hl, hwl⟩ := hinv cur (hf ▸ List.mem_cons_self cur rest)
  have := hmin w hw hh (htar ▸ hl)
  omega

theorem dls_c5_fail (g : Grid) (hcoh : coherent g)
    (hso : openCell g g.start_pos = true) (hto : openCell g g.target_pos = true)
    (P : List Cell) (hlen : P.length = 6)
    (huniq : ∀ Q, IsSimplePath g Q g.start_pos g.target_pos → Q = P)
    (limit : Nat) (hlim : limit ≤ 4) :
    ∃ snaps last, dlsSolve g limit (7 * ((openCells g).length + 1) + 2) = some snaps ∧
      snaps.length ≤ (openCells g).length ∧
      snaps.getLast? = some last ∧ last.path = some [] := by
  have hmin := unique_path_min_walk g P hlen huniq
  obtain ⟨snaps, hrun, hbound, last0, hl0, -⟩ := dls_bound g limit hcoh hso hto
  obtain ⟨ns, hns, -⟩ := (openCell_iff g g.start_pos).mp hso
  obtain ⟨nt, hnt, -⟩ := (openCell_iff g g.target_pos).mp hto
  have hrun2 : runSolver (dlsStep g limit) (7 * ((openCells g).length + 1) + 2)
      (dlsInit g) = some snaps := by
    unfold dlsSolve at hrun
    rw [hns, hnt] at hrun
    exact hrun
  obtain ⟨last, hl, hp⟩ := runSolver_last_spec (dlsStep g limit) (c5FailInv g limit)
    (fun snap => snap.path = some [])
    (by
      intro s s' hs hstep
      rcases dlsStep_cases g limit s with ⟨hf, he⟩ | ⟨cur, rest, hf, hvis, he⟩ |
        ⟨cur, rest, hf, hvis, htar, he⟩ | ⟨cur, rest, s0, hf, hvis, htar, hs0, he⟩
      · rw [he] at hstep
        exact StepOut.noConfusion hstep
      · rw [he] at hstep
        injection hstep with h1
        subst h1
        intro c hc
        exact hs c (hf ▸ List.mem_cons_of_mem cur hc)
      · rw [he] at hstep
        exact StepOut.noConfusion hstep
      · rw [he] at hstep
        exact StepOut.noConfusion hstep)
    (by
      intro s s' snap hs hstep
      rcases dlsStep_cases g limit s with ⟨hf, he⟩ | ⟨cur, rest, hf, hvis, he⟩ |
        ⟨cur, rest, hf, hvis, htar, he⟩ | ⟨cur, rest, s0, hf, hvis, htar, hs0, he⟩
      · rw [he] at hstep
        exact StepOut.noConfusion hstep
      · rw [he] at hstep
        exact StepOut.noConfusion hstep
      · rw [he] at hstep
        exact StepOut.noConfusion hstep
      · rw [he] at hstep
        injection hstep with h1 h2
        subst h1
        rw [hs0]
        exact c5FailInv_yield g limit s cur rest hf hs)
    (by
      intro s snap hs hstep
      rcases dlsStep_cases g limit s with ⟨hf, he⟩ | ⟨cur, rest, hf, hvis, he⟩ |
        ⟨cur, rest, hf, hvis, htar, he⟩ | ⟨cur, rest, s0, hf, hvis, htar, hs0, he⟩
      · rw [he] at hstep
        injection hstep with h1
        rw [← h1]
      · rw [he] at hstep
        exact StepOut.noConfusion hstep
      · exact (c5FailInv_no_target g limit hlim hmin s cur rest hf hs htar).elim
      · rw [he] at hstep
        exact StepOut.noConfusion hstep)
    (7 * ((openCells g).length + 1) + 2) (dlsInit g) snaps
    (by
      intro c hc
      simp only [dlsInit, List.mem_singleton] at hc
      subst hc
      refine ⟨0, ?_, by omega, [g.start_pos], List.chain'_singleton _, by simp, by simp,
        by simp⟩
      show lookupCell [(g.start_pos, 0)] g.start_pos = some 0
      exact lookupCell_cons_self g.start_pos 0 [])
    hrun2
  rw [hl0] at hl
  injection hl with heq
  refine ⟨snaps, last0, hrun, hbound, hl0, ?_⟩
  rw [heq]
  exact hp

theorem iddfsInner_fail (g : Grid) (limit : Nat) (hlim : limit ≤ 4)
    (hmin : ∀ w, IsWalk g w → w.head? = some g.start_pos →
      w.getLast? = some g.target_pos → 6 ≤ w.length) :
    ∀ (fuel : Nat) (s : DLSState) (snaps : List Snapshot) (b : Bool),
      c5FailInv g limit s → iddfsInner g limit fuel s = some (snaps, b) → b = false := by
  intro fuel
  induction fuel with
  | zero =>
    intro s snaps b hs hrun
    exact Option.noConfusion hrun
  | succ fuel ih =>
    intro s snaps b hs hrun
    rw [iddfsInner] at hrun
    cases hf : s.frontier with
    | nil =>
      rw [hf] at hrun
      dsimp only at hrun
      injection hrun with h
      exact (congrArg Prod.snd h).symm
    | cons cur rest =>
      rw [hf] at hrun
      dsimp only at hrun
      by_cases hvis : cur ∈ s.visited
      · rw [if_pos hvis] at hrun
        refine ih { s with frontier := rest } snaps b ?_ hrun
        intro c hc
        exact hs c (hf ▸ List.mem_cons_of_mem cur hc)
      · rw [if_neg hvis] at hrun
        by_cases htar : cur = g.target_pos
        · exact (c5FailInv_no_target g limit hlim hmin s cur rest hf hs htar).elim
        · rw [if_neg htar] at hrun
          cases hrun' : iddfsInner g limit fuel
              (if (lookupCell s.depth cur).getD 0 < limit
                then dlsExpand g cur ((lookupCell s.depth cur).getD 0)
                  ⟨rest, s.visited ++ [cur], s.parent, s.depth⟩
                else ⟨rest, s.visited ++ [cur], s.parent, s.depth⟩) with
          | none =>
            rw [hrun'] at hrun
            exact Option.noConfusion hrun
          | some pr =>
            obtain ⟨snaps', b'⟩ := pr
            rw [hrun'] at hrun
            dsimp only at hrun
            injection hrun with h
            have hb : b = b' := (congrArg Prod.snd h).symm
            rw [hb]
            exact ih _ snaps' b' (c5FailInv_yield g limit s cur rest hf hs) hrun'

theorem c5_no_chord (g : Grid) (P : List Cell)
    (hP : IsSimplePath g P g.start_pos g.target_pos)
    (huniq : ∀ Q, IsSimplePath g Q g.start_pos g.target_pos → Q = P)
    (pre : List Cell) (cur b : Cell) (postt : List Cell)
    (hsplit : P = pre ++ cur :: b :: postt)
    (c : Cell) (hc : c ∈ postt) (hadj : c ∈ g.neighborsPos cur) : False := by
  obtain ⟨u, v, huv⟩ := List.append_of_mem hc
  subst huv
  obtain ⟨hPw, hPnd, hPh, hPl⟩ := hP
  have hR : IsSimplePath g (pre ++ cur :: c :: v) g.start_pos g.target_pos := by
    refine ⟨?_, ?_, ?_, ?_⟩
    · rw [IsWalk, List.chain'_append]
      rw [hsplit, IsWalk, List.chain'_append] at hPw
      obtain ⟨hpre, hcp, hjun⟩ := hPw
      refine ⟨hpre, ?_, ?_⟩
      · rw [List.chain'_cons']
        refine ⟨fun y hy => ?_, ?_⟩
        · simp only [List.head?_cons, Option.mem_def, Option.some.injEq] at hy
          subst hy
          exact hadj
        · have hsuf : (c :: v) <:+ (cur :: b :: (u ++ c :: v)) :=
            ⟨cur :: b :: u, by simp⟩
          exact List.Chain'.suffix hcp hsuf
      · intro y hy z hz
        simp only [List.head?_cons, Option.mem_def, Option.some.injEq] at hz
        subst hz
        exact hjun y hy cur rfl
    · have hsub : List.Sublist (pre ++ cur :: c :: v) (pre ++ cur :: b :: (u ++ c :: v)) := by
        refine List.Sublist.append_left ?_ pre
        refine List.Sublist.cons₂ cur ?_
        exact List.Sublist.cons b (List.sublist_append_right u (c :: v))
      exact hsub.nodup (hsplit ▸ hPnd)
    · rw [hsplit] at hPh
      rw [List.head?_append] at hPh ⊢
      simpa using hPh
    · rw [hsplit] at hPl
      rw [List.getLast?_append] at hPl ⊢
      rw [show cur :: b :: (u ++ c :: v) = (cur :: b :: u) ++ c :: v by simp] at hPl
      rw [List.getLast?_append] at hPl
      cases hgl : (c :: v).getLast? with
      | none =>
        rw [List.getLast?_eq_getLast _ (List.cons_ne_nil c v)] at hgl
        exact Option.noConfusion hgl
      | some y =>
        rw [hgl] at hPl
        simp only [Option.or_some] at hPl ⊢
        rw [show (cur :: c :: v).getLast? = (c :: v).getLast? from rfl, hgl]
        simpa using hPl
  have hRP := huniq _ hR
  have hLen := congrArg List.length hRP
  rw [hsplit] at hLen
  simp only [List.length_append, List.length_cons] at hLen
  omega

theorem c5_no_outside_edge (g : Grid) (P : List Cell)
    (hP : IsSimplePath g P g.start_pos g.target_pos)
    (huniq : ∀ Q, IsSimplePath g Q g.start_pos g.target_pos → Q = P)
    (pre : List Cell) (cur : Cell) (post : List Cell)
    (hsplit : P = pre ++ cur :: post)
    (x : Cell) (hxP : x ∉ P)
    (w : List Cell) (hw : IsWalk g w) (hwh : w.head? = some g.start_pos)
    (hwl : w.getLast? = some x) (hwavoid : ∀ c ∈ w, c ∉ cur :: post)
    (c : Cell) (hcpost : c ∈ post) (hadj : c ∈ g.neighborsPos x) : False := by
  obtain ⟨hPw, hPnd, hPh, hPl⟩ := hP
  obtain ⟨q, hqw, hqnd, hqh, hql, -, hqsub⟩ := walk_extract g w.length w _ _ le_rfl hw hwh hwl
  have hqavoid : ∀ a ∈ q, a ∉ cur :: post := fun a ha => hwavoid a (hqsub a ha)
  have hstart_mem : ∃ a ∈ q, a ∈ P := by
    refine ⟨g.start_pos, ?_, ?_⟩
    · exact List.mem_of_mem_head? (by rw [hqh]; rfl)
    · exact List.mem_of_mem_head? (by rw [hPh]; rfl)
  obtain ⟨q1, e, q2, hqsplit, heP, hq2P⟩ := last_mem_split (· ∈ P) q hstart_mem
  have heq2 : e ∈ q := by
    rw [hqsplit]
    exact List.mem_append.mpr (Or.inr (List.mem_cons_self e q2))
  have hepre : e ∈ pre := by
    rw [hsplit] at heP
    rcases List.mem_append.mp heP with h | h
    · exact h
    · exact absurd h (hqavoid e heq2)
  obtain ⟨pr1, pr2, hpre⟩ := List.append_of_mem hepre
  obtain ⟨u, v, hpost⟩ := List.append_of_mem hcpost
  have heq2last : (e :: q2).getLast? = some x := by
    rw [hqsplit, List.getLast?_append] at hql
    cases hgl : (e :: q2).getLast? with
    | none =>
      rw [List.getLast?_eq_getLast _ (List.cons_ne_nil e q2)] at hgl
      exact Option.noConfusion hgl
    | some y =>
      rw [hgl] at hql
      simp only [Option.or_some] at hql
      exact hql
  have hxq2 : x ∈ e :: q2 := List.mem_of_mem_getLast? (by rw [heq2last]; rfl)
  have hR : IsSimplePath g (pr1 ++ ((e :: q2) ++ (c :: v))) g.start_pos g.target_pos := by
    refine ⟨?_, ?_, ?_, ?_⟩
    · rw [IsWalk, List.chain'_append]
      refine ⟨?_, ?_, ?_⟩
      · have hpr1 : pr1 <+: P := by
          rw [hsplit, hpre]
          exact ⟨e :: pr2 ++ cur :: post, by simp⟩
        exact List.Chain'.prefix hPw hpr1
      · rw [List.chain'_append]
        refine ⟨?_, ?_, ?_⟩
        · have hsuf : (e :: q2) <:+ q := by
            rw [hqsplit]
            exact ⟨q1, rfl⟩
          exact List.Chain'.suffix hqw hsuf
        · have hsuf : (c :: v) <:+ P := by
            rw [hsplit, hpost]
            exact ⟨pre ++ cur :: u, by simp⟩
          exact List.Chain'.suffix hPw hsuf
        · intro y hy z hz
          rw [heq2last] at hy
          simp only [Option.mem_def, Option.some.injEq] at hy
          simp only [List.head?_cons, Option.mem_def, Option.some.injEq] at hz
          subst hy
          subst hz
          exact hadj
      · intro y hy z hz
        rw [List.head?_append] at hz
        simp only [List.head?_cons, Option.or_some] at hz
        simp only [Option.mem_def, Option.some.injEq] at hz
        subst hz
        rw [hsplit, hpre] at hPw
        rw [show (pr1 ++ e :: pr2) ++ cur :: post = pr1 ++ (e :: (pr2 ++ cur :: post))
          by simp] at hPw
        rw [IsWalk, List.chain'_append] at hPw
        exact hPw.2.2 y hy e rfl
    · rw [List.nodup_append]
      refine ⟨?_, ?_, ?_⟩
      · have hpr1 : List.Sublist pr1 P := by
          rw [hsplit, hpre]
          exact (List.sublist_append_left pr1 (e :: pr2)).trans
            (List.sublist_append_left (pr1 ++ e :: pr2) (cur :: post))
        exact hpr1.nodup hPnd
      · rw [List.nodup_append]
        refine ⟨?_, ?_, ?_⟩
        · have hsuf : (e :: q2) <:+ q := by
            rw [hqsplit]
            exact ⟨q1, rfl⟩
          exact hsuf.sublist.nodup hqnd
        · have hcv : List.Sublist (c :: v) P := by
            rw [hsplit, hpost,
              show pre ++ cur :: (u ++ c :: v) = (pre ++ cur :: u) ++ c :: v by simp]
            exact List.sublist_append_right (pre ++ cur :: u) (c :: v)
          exact hcv.nodup hPnd
        · intro a ha hacv
          rcases List.mem_cons.mp ha with rfl | haq2
          · have hda : (pre ++ cur :: post).Nodup := hsplit ▸ hPnd
            rw [List.nodup_append] at hda
            refine hda.2.2 hepre ?_
            rw [hpost]
            refine List.mem_cons_of_mem cur ?_
            rcases List.mem_cons.mp hacv with rfl | hv'
            · exact List.mem_append.mpr (Or.inr (List.mem_cons_self a v))
            · exact List.mem_append.mpr (Or.inr (List.mem_cons_of_mem c hv'))
          · refine hq2P a haq2 ?_
            rw [hsplit, hpost]
            refine List.mem_append.mpr (Or.inr (List.mem_cons_of_mem cur ?_))
            rcases List.mem_cons.mp hacv with rfl | hv'
            · exact List.mem_append.mpr (Or.inr (List.mem_cons_self a v))
            · exact List.mem_append.mpr (Or.inr (List.mem_cons_of_mem c hv'))
      · intro a ha hain
        rcases List.mem_append.mp hain with hae | hacv
        · rcases List.mem_cons.mp hae with rfl | haq2
          · have : pre.Nodup := by
              have hda : (pre ++ cur :: post).Nodup := hsplit ▸ hPnd
              rw [List.nodup_append] at hda
              exact hda.1
            rw [hpre, List.nodup_append] at this
            exact this.2.2 ha (List.mem_cons_self a pr2)
          · refine hq2P a haq2 ?_
            rw [hsplit, hpre]
            exact List.mem_append.mpr (Or.inl (List.mem_append.mpr (Or.inl ha)))
        · have hda : (pre ++ cur :: post).Nodup := hsplit ▸ hPnd
          rw [List.nodup_append] at hda
          have h1 : a ∈ pre := by
            rw [hpre]
            exact List.mem_append.mpr (Or.inl ha)
          have h2 : a ∈ cur :: post := by
            rw [hpost]
            refine List.mem_cons_of_mem cur ?_
            rcases List.mem_cons.mp hacv with rfl | hv'
            · exact List.mem_append.mpr (Or.inr (List.mem_cons_self _ v))
            · exact List.mem_append.mpr (Or.inr (List.mem_cons_of_mem c hv'))
          exact hda.2.2 h1 h2
    · rw [List.head?_append]
      rw [hsplit, hpre] at hPh
      rw [show (pr1 ++ e :: pr2) ++ cur :: post = pr1 ++ (e :: (pr2 ++ cur :: post))
        by simp, List.head?_append] at hPh
      simpa using hPh
    · rw [List.getLast?_append]
      rw [show (e :: q2) ++ c :: v = (e :: q2) ++ (c :: v) from rfl, List.getLast?_append]
      rw [hsplit, hpost] at hPl
      rw [show pre ++ cur :: (u ++ c :: v) = (pre ++ cur :: u) ++ c :: v by simp,
        List.getLast?_append] at hPl
      cases hgl : (c :: v).getLast? with
      | none =>
        rw [List.getLast?_eq_getLast _ (List.cons_ne_nil c v)] at hgl
        exact Option.noConfusion hgl
      | some y =>
        rw [hgl] at hPl
        simp only [Option.or_some] at hPl ⊢
        exact hPl
  have hRP := huniq _ hR
  have hxR : x ∈ pr1 ++ ((e :: q2) ++ (c :: v)) :=
    List.mem_append.mpr (Or.inr (List.mem_append.mpr (Or.inl hxq2)))
  rw [hRP] at hxR
  exact hxP hxR

theorem c5SuccInv_yield (g : Grid) (P : List Cell)
    (hP : IsSimplePath g P g.start_pos g.target_pos)
    (huniq : ∀ Q, IsSimplePath g Q g.start_pos g.target_pos → Q = P)
    (limit : Nat) (hlim : P.length ≤ limit + 1)
    (s : DLSState) (x : Cell) (rest : List Cell)
    (hf : s.frontier = x :: rest) (hxv : x ∉ s.visited) (hxt : x ≠ g.target_pos)
    (hinv : c5SuccInv g P s) :
    c5SuccInv g P (if (lookupCell s.depth x).getD 0 < limit
      then dlsExpand g x ((lookupCell s.depth x).getD 0)
        ⟨rest, s.visited ++ [x], s.parent, s.depth⟩
      else ⟨rest, s.visited ++ [x], s.parent, s.depth⟩) := by
  obtain ⟨pre, cur, post, hsplit, hprevis, hcurf, hcurd, hnovis, hnofr, hfnd, hfdisj,
    hwalks⟩ := hinv
  have hrestnd : rest.Nodup := (List.nodup_cons.mp (hf ▸ hfnd)).2
  have hxrest : x ∉ rest := (List.nodup_cons.mp (hf ▸ hfnd)).1
  have hupgrade : ∀ y, (y ∈ s.visited ∨ y ∈ s.frontier) →
      ∃ w, IsWalk g w ∧ w.head? = some g.start_pos ∧ w.getLast? = some y ∧
        ∀ c ∈ w, c ∈ s.visited ++ [x] ∨ c = y := by
    intro y hy
    obtain ⟨w0, h1, h2, h3, h4⟩ := hwalks y hy
    exact ⟨w0, h1, h2, h3, fun c hc =>
      (h4 c hc).imp (fun h => List.mem_append.mpr (Or.inl h)) id⟩
  have hextend : ∀ y ∈ g.neighborsPos x,
      ∃ w, IsWalk g w ∧ w.head? = some g.start_pos ∧ w.getLast? = some y ∧
        ∀ c ∈ w, c ∈ s.visited ++ [x] ∨ c = y := by
    intro y hyn
    obtain ⟨w0, h1, h2, h3, h4⟩ := hwalks x (Or.inr (hf ▸ List.mem_cons_self x rest))
    refine ⟨w0 ++ [y], isWalk_append_one g w0 x y h1 h3 hyn, ?_, ?_, ?_⟩
    · rw [List.head?_append, h2]
      rfl
    · rw [List.getLast?_append]
      rfl
    · intro c hc
      rcases List.mem_append.mp hc with hc | hc
      · rcases h4 c hc with h | h
        · exact Or.inl (List.mem_append.mpr (Or.inl h))
        · exact Or.inl (List.mem_append.mpr (Or.inr (by simp [h])))
      · rw [List.mem_singleton] at hc
        exact Or.inr hc
  by_cases hxcur : x = cur
  · subst hxcur
    have hpostne : post ≠ [] := by
      intro h
      rw [h] at hsplit
      obtain ⟨-, -, -, hPl⟩ := hP
      rw [hsplit, List.getLast?_append] at hPl
      simp only [List.getLast?_singleton, Option.or_some, Option.some.injEq] at hPl
      exact hxt hPl
    obtain ⟨next, postt, rfl⟩ : ∃ a l, post = a :: l := by
      cases post with
      | nil => exact absurd rfl hpostne
      | cons a l => exact ⟨a, l, rfl⟩
    have hgd : (lookupCell s.depth x).getD 0 = pre.length := by
      rw [hcurd]
      rfl
    have hplen : pre.length < limit := by
      have h := congrArg List.length hsplit
      simp only [List.length_append, List.length_cons] at h
      omega
    rw [hgd, if_pos hplen]
    obtain ⟨added, hv, hfr, -, hadnd, hmem, hdl, hdo, hcomp⟩ :=
      dlsFold_props g x pre.length ((g.neighborsPos x).reverse)
        ⟨rest, s.visited ++ [x], s.parent, s.depth⟩
    have hv2 : (dlsExpand g x pre.length
        ⟨rest, s.visited ++ [x], s.parent, s.depth⟩).visited = s.visited ++ [x] := hv
    have hfr2 : (dlsExpand g x pre.length
        ⟨rest, s.visited ++ [x], s.parent, s.depth⟩).frontier =
        added.reverse ++ rest := hfr
    have hchain : List.Chain' (fun a b => b ∈ g.neighborsPos a) (x :: next :: postt) := by
      have hsuf : (x :: next :: postt) <:+ P := ⟨pre, by rw [hsplit]⟩
      exact List.Chain'.suffix hP.1 hsuf
    have hcnd : (x :: next :: postt).Nodup := by
      have hsuf : (x :: next :: postt) <:+ P := ⟨pre, by rw [hsplit]⟩
      exact hsuf.sublist.nodup hP.2.1
    have hxnotin : x ∉ next :: postt := (List.nodup_cons.mp hcnd).1
    have hnext_nb : next ∈ g.neighborsPos x := (List.chain'_cons.mp hchain).1
    have hnext_nv : next ∉ s.visited ++ [x] := by
      simp only [List.mem_append, List.mem_singleton]
      push_neg
      refine ⟨hnovis next (List.mem_cons_of_mem x (List.mem_cons_self next postt)), ?_⟩
      intro h
      exact hxnotin (h ▸ List.mem_cons_self next postt)
    have hnext_in : next ∈ (dlsExpand g x pre.length
        ⟨rest, s.visited ++ [x], s.parent, s.depth⟩).frontier :=
      hcomp next (List.mem_reverse.mpr hnext_nb) hnext_nv
    have hnext_added : next ∈ added := by
      rw [hfr2] at hnext_in
      rcases List.mem_append.mp hnext_in with h | h
      · exact List.mem_reverse.mp h
      · exact absurd (hf ▸ List.mem_cons_of_mem x h :
          next ∈ s.frontier)
          (hnofr next (List.mem_cons_self next postt))
    refine ⟨pre ++ [x], next, postt, by rw [hsplit]; simp, ?_, hnext_in, ?_, ?_, ?_, ?_,
      ?_, ?_⟩
    · intro c hc
      rw [hv2]
      rcases List.mem_append.mp hc with h | h
      · exact List.mem_append.mpr (Or.inl (hprevis c h))
      · exact List.mem_append.mpr (Or.inr h)
    · have := hdl next hnext_added
      rw [List.length_append, List.length_cons, List.length_nil]
      exact this
    · intro c hc
      rw [hv2]
      simp only [List.mem_append, List.mem_singleton]
      push_neg
      refine ⟨hnovis c (List.mem_cons_of_mem x hc), ?_⟩
      intro h
      exact hxnotin (h ▸ hc)
    · intro c hc
      rw [hfr2]
      simp only [List.mem_append, List.mem_reverse]
      push_neg
      constructor
      · intro hcadd
        have hadj : c ∈ g.neighborsPos x :=
          List.mem_reverse.mp (hmem c hcadd).1
        exact (c5_no_chord g P hP huniq pre x next postt hsplit c hc hadj).elim
      · intro hcr
        exact hnofr c (List.mem_cons_of_mem next hc)
          (hf ▸ List.mem_cons_of_mem x hcr)
    · rw [hfr2, List.nodup_append]
      refine ⟨List.nodup_reverse.mpr hadnd, hrestnd, ?_⟩
      intro a ha har
      exact (hmem a (List.mem_reverse.mp ha)).2.2 har
    · intro c hc
      rw [hfr2] at hc
      rw [hv2]
      rcases List.mem_append.mp hc with h | h
      · exact (hmem c (List.mem_reverse.mp h)).2.1
      · simp only [List.mem_append, List.mem_singleton]
        push_neg
        refine ⟨hfdisj c (hf ▸ List.mem_cons_of_mem x h), ?_⟩
        intro he
        exact hxrest (he ▸ h)
    · intro y hy
      rw [hv2, hfr2] at hy
      have hmain : (y ∈ s.visited ∨ y ∈ s.frontier) ∨ y ∈ added := by
        rcases hy with hy | hy
        · rcases List.mem_append.mp hy with h | h
          · exact Or.inl (Or.inl h)
          · rw [List.mem_singleton] at h
            exact Or.inl (Or.inr (hf ▸ (h ▸ List.mem_cons_self x rest)))
        · rcases List.mem_append.mp hy with h | h
          · exact Or.inr (List.mem_reverse.mp h)
          · exact Or.inl (Or.inr (hf ▸ List.mem_cons_of_mem x h))
      rcases hmain with hy' | hy'
      · obtain ⟨w0, h1, h2, h3, h4⟩ := hupgrade y hy'
        exact ⟨w0, h1, h2, h3, fun c hc => by rw [hv2]; exact h4 c hc⟩
      · obtain ⟨w0, h1, h2, h3, h4⟩ :=
          hextend y (List.mem_reverse.mp (hmem y hy').1)
        exact ⟨w0, h1, h2, h3, fun c hc => by rw [hv2]; exact h4 c hc⟩
  · have hcur_rest : cur ∈ rest := by
      rcases List.mem_cons.mp (hf ▸ hcurf) with h | h
      · exact absurd h.symm hxcur
      · exact h
    have hxfront : x ∈ s.frontier := hf ▸ List.mem_cons_self x rest
    have hxP : x ∉ P := by
      rw [hsplit]
      intro hin
      rcases List.mem_append.mp hin with h | h
      · exact hxv (hprevis x h)
      · rcases List.mem_cons.mp h with h | h
        · exact hxcur h
        · exact hnofr x h hxfront
    obtain ⟨wx, hwxw, hwxh, hwxl, hwxc⟩ := hwalks x (Or.inr hxfront)
    have hwavoid : ∀ c ∈ wx, c ∉ cur :: post := by
      intro c hc hcin
      rcases hwxc c hc with h | h
      · exact hnovis c hcin h
      · rw [h] at hcin
        exact hxP (hsplit ▸ List.mem_append.mpr (Or.inr hcin))
    have hmaincommon : ∀ (st : DLSState), st.visited = s.visited ++ [x] →
        (∀ c ∈ pre, c ∈ st.visited) ∧ (∀ c ∈ cur :: post, c ∉ st.visited) := by
      intro st hst
      constructor
      · intro c hc
        rw [hst]
        exact List.mem_append.mpr (Or.inl (hprevis c hc))
      · intro c hc
        rw [hst]
        simp only [List.mem_append, List.mem_singleton]
        push_neg
        refine ⟨hnovis c hc, ?_⟩
        intro h
        rw [h] at hc
        exact hxP (hsplit ▸ List.mem_append.mpr (Or.inr hc))
    by_cases hd : (lookupCell s.depth x).getD 0 < limit
    · rw [if_pos hd]
      obtain ⟨added, hv, hfr, -, hadnd, hmem, hdl, hdo, -⟩ :=
        dlsFold_props g x ((lookupCell s.depth x).getD 0) ((g.neighborsPos x).reverse)
          ⟨rest, s.visited ++ [x], s.parent, s.depth⟩
      have hv2 : (dlsExpand g x ((lookupCell s.depth x).getD 0)
          ⟨rest, s.visited ++ [x], s.parent, s.depth⟩).visited = s.visited ++ [x] := hv
      have hfr2 : (dlsExpand g x ((lookupCell s.depth x).getD 0)
          ⟨rest, s.visited ++ [x], s.parent, s.depth⟩).frontier =
          added.reverse ++ rest := hfr
      have hcadd : cur ∉ added := by
        intro h
        exact (hmem cur h).2.2 hcur_rest
      obtain ⟨hpre', hnov'⟩ := hmaincommon _ hv2
      refine ⟨pre, cur, post, hsplit, hpre', ?_, ?_, hnov', ?_, ?_, ?_, ?_⟩
      · rw [hfr2]
        exact List.mem_append.mpr (Or.inr hcur_rest)
      · have hdepthkeep : lookupCell (dlsExpand g x ((lookupCell s.depth x).getD 0)
            ⟨rest, s.visited ++ [x], s.parent, s.depth⟩).depth cur =
            lookupCell s.depth cur := hdo cur hcadd
        rw [hdepthkeep]
        exact hcurd
      · intro c hc
        rw [hfr2]
        simp only [List.mem_append, List.mem_reverse]
        push_neg
        constructor
        · intro hcin
          have hadj : c ∈ g.neighborsPos x :=
            List.mem_reverse.mp (hmem c hcin).1
          exact (c5_no_outside_edge g P hP huniq pre cur post hsplit x hxP
            wx hwxw hwxh hwxl hwavoid c hc hadj).elim
        · intro hcr
          exact hnofr c hc (hf ▸ List.mem_cons_of_mem x hcr)
      · rw [hfr2, List.nodup_append]
        refine ⟨List.nodup_reverse.mpr hadnd, hrestnd, ?_⟩
        intro a ha har
        exact (hmem a (List.mem_reverse.mp ha)).2.2 har
      · intro c hc
        rw [hfr2] at hc
        rw [hv2]
        rcases List.mem_append.mp hc with h | h
        · exact (hmem c (List.mem_reverse.mp h)).2.1
        · simp only [List.mem_append, List.mem_singleton]
          push_neg
          refine ⟨hfdisj c (hf ▸ List.mem_cons_of_mem x h), ?_⟩
          intro he
          exact hxrest (he ▸ h)
      · intro y hy
        rw [hv2, hfr2] at hy
        have hmain : (y ∈ s.visited ∨ y ∈ s.frontier) ∨ y ∈ added := by
          rcases hy with hy | hy
          · rcases List.mem_append.mp hy with h | h
            · exact Or.inl (Or.inl h)
            · rw [List.mem_singleton] at h
              exact Or.inl (Or.inr (h ▸ hxfront))
          · rcases List.mem_append.mp hy with h | h
            · exact Or.inr (List.mem_reverse.mp h)
            · exact Or.inl (Or.inr (hf ▸ List.mem_cons_of_mem x h))
        rcases hmain with hy' | hy'
        · obtain ⟨w0, h1, h2, h3, h4⟩ := hupgrade y hy'
          exact ⟨w0, h1, h2, h3, fun c hc => by rw [hv2]; exact h4 c hc⟩
        · obtain ⟨w0, h1, h2, h3, h4⟩ :=
            hextend y (List.mem_reverse.mp (hmem y hy').1)
          exact ⟨w0, h1, h2, h3, fun c hc => by rw [hv2]; exact h4 c hc⟩
    · rw [if_neg hd]
      obtain ⟨hpre', hnov'⟩ := hmaincommon ⟨rest, s.visited ++ [x], s.parent, s.depth⟩ rfl
      refine ⟨pre, cur, post, hsplit, hpre', hcur_rest, hcurd, hnov', ?_, hrestnd, ?_, ?_⟩
      · intro c hc
        exact fun hcr => hnofr c hc (hf ▸ List.mem_cons_of_mem x hcr)
      · intro c hc
        show c ∉ s.visited ++ [x]
        simp only [List.mem_append, List.mem_singleton]
        push_neg
        refine ⟨hfdisj c (hf ▸ List.mem_cons_of_mem x hc), ?_⟩
        intro he
        exact hxrest (he ▸ hc)
      · intro y hy
        have hy' : y ∈ s.visited ∨ y ∈ s.frontier := by
          rcases hy with hy | hy
          · rcases List.mem_append.mp hy with h | h
            · exact Or.inl h
            · rw [List.mem_singleton] at h
              exact Or.inr (h ▸ hxfront)
          · exact Or.inr (hf ▸ List.mem_cons_of_mem x hy)
        obtain ⟨w0, h1, h2, h3, h4⟩ := hupgrade y hy'
        exact ⟨w0, h1, h2, h3, h4⟩

theorem c5FailInv_init (g : Grid) (limit : Nat) : c5FailInv g limit (dlsInit g) := by
  intro c hc
  simp only [dlsInit, List.mem_singleton] at hc
  subst hc
  refine ⟨0, ?_, by omega, [g.start_pos], List.chain'_singleton _, by simp, by simp,
    by simp⟩
  show lookupCell [(g.start_pos, 0)] g.start_pos = some 0
  exact lookupCell_cons_self g.start_pos 0 []

theorem c5SuccInv_init (g : Grid) (P : List Cell)
    (hP : IsSimplePath g P g.start_pos g.target_pos) :
    c5SuccInv g P (dlsInit g) := by
  obtain ⟨hPw, hPnd, hPh, hPl⟩ := hP
  cases P with
  | nil => exact Option.noConfusion hPh
  | cons a t =>
    have ha : a = g.start_pos := by
      simp only [List.head?_cons, Option.some.injEq] at hPh
      exact hPh
    subst ha
    refine ⟨[], g.start_pos, t, rfl, by simp, ?_, ?_, ?_, ?_, ?_, ?_, ?_⟩
    · show g.start_pos ∈ [g.start_pos]
      simp
    · show lookupCell [(g.start_pos, 0)] g.start_pos = some ([] : List Cell).length
      simpa using lookupCell_cons_self g.start_pos 0 []
    · intro c hc
      show c ∉ ([] : List Cell)
      simp
    · intro c hc
      show c ∉ [g.start_pos]
      simp only [List.mem_singleton]
      intro h
      exact (List.nodup_cons.mp hPnd).1 (h ▸ hc)
    · show ([g.start_pos] : List Cell).Nodup
      simp
    · intro c hc
      show c ∉ ([] : List Cell)
      simp
    · intro y hy
      have hy' : y = g.start_pos := by
        simp only [dlsInit, List.not_mem_nil, List.mem_singleton, false_or] at hy
        exact hy
      subst hy'
      exact ⟨[g.start_pos], List.chain'_singleton _, by simp, by simp,
        fun c hc => Or.inr (by simpa using hc)⟩

theorem iddfsInner_succeeds (g : Grid) (P : List Cell)
    (hP : IsSimplePath g P g.start_pos g.target_pos)
    (huniq : ∀ Q, IsSimplePath g Q g.start_pos g.target_pos → Q = P)
    (limit : Nat) (hlim : P.length ≤ limit + 1) :
    ∀ (fuel : Nat) (s : DLSState) (snaps : List Snapshot) (b : Bool),
      c5SuccInv g P s → iddfsInner g limit fuel s = some (snaps, b) →
      b = true ∧ ∃ last p, snaps.getLast? = some last ∧ last.path = some p ∧ p ≠ [] := by
  intro fuel
  induction fuel with
  | zero =>
    intro s snaps b hs hrun
    exact Option.noConfusion hrun
  | succ fuel ih =>
    intro s snaps b hs hrun
    obtain ⟨pre, cur, post, hsplit, hprevis, hcurf, hcurd, hnovis, hnofr, hfnd, hfdisj,
      hwalks⟩ := hs
    rw [iddfsInner] at hrun
    cases hf : s.frontier with
    | nil =>
      rw [hf] at hcurf
      exact absurd hcurf (List.not_mem_nil cur)
    | cons x rest =>
      rw [hf] at hrun
      dsimp only at hrun
      have hxnv : x ∉ s.visited := hfdisj x (hf ▸ List.mem_cons_self x rest)
      rw [if_neg hxnv] at hrun
      by_cases htar : x = g.target_pos
      · rw [if_pos htar] at hrun
        injection hrun with h
        injection h with h1 h2
        refine ⟨h2.symm, ⟨rest, s.visited ++ [x], some (reconstruct_path s.parent x)⟩,
          reconstruct_path s.parent x, ?_, rfl, reconstruct_path_ne_nil s.parent x⟩
        rw [← h1]
        simp
      · rw [if_neg htar] at hrun
        have hinv : c5SuccInv g P s :=
          ⟨pre, cur, post, hsplit, hprevis, hcurf, hcurd, hnovis, hnofr, hfnd, hfdisj,
            hwalks⟩
        have hinv' := c5SuccInv_yield g P hP huniq limit hlim s x rest hf hxnv htar hinv
        cases hrun' : iddfsInner g limit fuel
            (if (lookupCell s.depth x).getD 0 < limit
              then dlsExpand g x ((lookupCell s.depth x).getD 0)
                ⟨rest, s.visited ++ [x], s.parent, s.depth⟩
              else ⟨rest, s.visited ++ [x], s.parent, s.depth⟩) with
        | none =>
          rw [hrun'] at hrun
          exact Option.noConfusion hrun
        | some pr =>
          obtain ⟨snaps', b'⟩ := pr
          rw [hrun'] at hrun
          dsimp only at hrun
          injection hrun with h
          injection h with h1 h2
          obtain ⟨hb', last, p, hl, hpa, hpne⟩ := ih _ snaps' b' hinv' hrun'
          refine ⟨h2 ▸ hb', last, p, ?_, hpa, hpne⟩
          rw [← h1]
          cases snaps' with
          | nil => exact absurd hl (by simp)
          | cons a t =>
            rw [List.getLast?_cons_cons]
            exact hl

theorem iddfsLoop_fail_prefix (g : Grid) (hcoh : coherent g)
    (hso : openCell g g.start_pos = true)
    (hmin : ∀ w, IsWalk g w → w.head? = some g.start_pos →
      w.getLast? = some g.target_pos → 6 ≤ w.length) :
    ∀ ls : List Nat, (∀ l ∈ ls, l ≤ 4) → ∀ ks : List Nat, ∀ res : List Snapshot,
      iddfsLoop g (7 * ((openCells g).length + 1) + 2) ks = some res →
      ∃ spre, iddfsLoop g (7 * ((openCells g).length + 1) + 2) (ls ++ ks) =
        some (spre ++ res) := by
  intro ls
  induction ls with
  | nil =>
    intro _ ks res hres
    exact ⟨[], by simpa using hres⟩
  | cons l more ih =>
    intro hall ks res hres
    have hinit : dlsInv g (dlsInit g) := by
      refine ⟨?_, by simp [dlsInit], by simp [dlsInit], by simp [dlsInit]⟩
      intro c hc
      simp only [dlsInit, List.mem_singleton] at hc
      exact hc ▸ hso
    have hμ : dlsMeasure g (dlsInit g) < 7 * ((openCells g).length + 1) + 2 := by
      unfold dlsMeasure dlsInit
      simp only [List.length_singleton, List.length_nil]
      omega
    obtain ⟨snaps1, b, hrun1, -, -⟩ :=
      iddfsInner_bound g l hcoh (7 * ((openCells g).length + 1) + 2) (dlsInit g)
        hinit hμ
    have hb : b = false :=
      iddfsInner_fail g l (hall l (List.mem_cons_self l more)) hmin
        (7 * ((openCells g).length + 1) + 2) (dlsInit g) snaps1 b
        (c5FailInv_init g l) hrun1
    subst hb
    obtain ⟨spre, hx⟩ := ih (fun a ha => hall a (List.mem_cons_of_mem l ha)) ks res hres
    refine ⟨snaps1 ++ spre, ?_⟩
    have hstep : iddfsLoop g (7 * ((openCells g).length + 1) + 2)
        (l :: (more ++ ks)) = some (snaps1 ++ (spre ++ res)) := by
      unfold iddfsLoop
      rw [hrun1, hx]
    rw [List.cons_append, hstep, List.append_assoc]

theorem iddfsLoop_succeed_head (g : Grid) (hcoh : coherent g)
    (hso : openCell g g.start_pos = true)
    (P : List Cell) (hP : IsSimplePath g P g.start_pos g.target_pos)
    (huniq : ∀ Q, IsSimplePath g Q g.start_pos g.target_pos → Q = P)
    (limit : Nat) (hlim : P.length ≤ limit + 1) (more : List Nat) :
    ∃ res last p, iddfsLoop g (7 * ((openCells g).length + 1) + 2) (limit :: more) =
        some res ∧ res.getLast? = some last ∧ last.path = some p ∧ p ≠ [] := by
  have hinit : dlsInv g (dlsInit g) := by
    refine ⟨?_, by simp [dlsInit], by simp [dlsInit], by simp [dlsInit]⟩
    intro c hc
    simp only [dlsInit, List.mem_singleton] at hc
    exact hc ▸ hso
  have hμ : dlsMeasure g (dlsInit g) < 7 * ((openCells g).length + 1) + 2 := by
    unfold dlsMeasure dlsInit
    simp only [List.length_singleton, List.length_nil]
    omega
  obtain ⟨snaps1, b, hrun1, -, -⟩ :=
    iddfsInner_bound g limit hcoh (7 * ((openCells g).length + 1) + 2) (dlsInit g)
      hinit hμ
  obtain ⟨hb, last, p, hl, hpa, hpne⟩ :=
    iddfsInner_succeeds g P hP huniq limit hlim (7 * ((openCells g).length + 1) + 2)
      (dlsInit g) snaps1 b (c5SuccInv_init g P hP) hrun1
  subst hb
  refine ⟨snaps1, last, p, ?_, hl, hpa, hpne⟩
  unfold iddfsLoop
  rw [hrun1]

/-- C5.  On every coherent grid with open start and target cells whose unique
simple start-to-target path has six cells (so the target sits at depth 5),
DLS with depth limit 3 terminates normally within the open-cell step bound
and reports the empty path in its terminal snapshot, while IDDFS with any
max_depth ≥ 5 terminates normally with a non-empty success path. -/
theorem dls_limit_three_empty_iddfs_succeeds (g : Grid) (hcoh : coherent g)
    (hso : openCell g g.start_pos = true) (hto : openCell g g.target_pos = true)
    (P : List Cell) (hlen : P.length = 6)
    (hP : IsSimplePath g P g.start_pos g.target_pos)
    (huniq : ∀ Q, IsSimplePath g Q g.start_pos g.target_pos → Q = P) :
    (∃ snaps last, dlsSolve g 3 (7 * ((openCells g).length + 1) + 2) = some snaps ∧
      snaps.length ≤ (openCells g).length ∧
      snaps.getLast? = some last ∧ last.path = some []) ∧
    (∀ max_depth, 5 ≤ max_depth →
      ∃ snaps last p,
        iddfsSolve g max_depth (7 * ((openCells g).length + 1) + 2) = some snaps ∧
        snaps.getLast? = some last ∧ last.path = some p ∧ p ≠ []) := by
  constructor
  · exact dls_c5_fail g hcoh hso hto P hlen huniq 3 (by omega)
  · intro maxd hmaxd
    have hmin := unique_path_min_walk g P hlen huniq
    have h1 : List.range' 1 4 ++ List.range' 5 (maxd - 4) = List.range' 1 maxd := by
      have h0 := List.range'_append 1 4 (maxd - 4) 1
      norm_num at h0
      rw [show maxd - 4 + 4 = maxd from by omega] at h0
      exact h0
    have h2 : List.range' 5 (maxd - 4) = 5 :: List.range' 6 (maxd - 5) := by
      rw [show maxd - 4 = (maxd - 5) + 1 from by omega]
      rfl
    have hrange : List.range' 1 maxd = [1, 2, 3, 4] ++ (5 :: List.range' 6 (maxd - 5)) := by
      rw [← h1, h2]
      rfl
    obtain ⟨res, last, p, hres, hl, hpa, hpne⟩ :=
      iddfsLoop_succeed_head g hcoh hso P hP huniq 5 (by omega) (List.range' 6 (maxd - 5))
    obtain ⟨spre, hloop⟩ :=
      iddfsLoop_fail_prefix g hcoh hso hmin [1, 2, 3, 4] (by decide)
        (5 :: List.range' 6 (maxd - 5)) res hres
    obtain ⟨ns, hns, -⟩ := (openCell_iff g g.start_pos).mp hso
    obtain ⟨nt, hnt, -⟩ := (openCell_iff g g.target_pos).mp hto
    refine ⟨spre ++ res, last, p, ?_, ?_, hpa, hpne⟩
    · unfold iddfsSolve
      rw [hns, hnt, hrange]
      exact hloop
    · rw [List.getLast?_append, hl]
      rfl

theorem corridor_unique_aux :
    ∀ (Q : List Cell) (k : Nat), k ≤ 5 →
      IsWalk c5Grid Q → Q.Nodup → Q.head? = some ((0 : Int), (k : Int)) →
      Q.getLast? = some ((0 : Int), (5 : Int)) →
      (∀ j : Nat, j < k → ((0 : Int), (j : Int)) ∉ Q) →
      Q = corridorFrom k := by
  intro Q
  induction Q with
  | nil =>
    intro k hk hw hnd hh hl havoid
    exact Option.noConfusion hh
  | cons a Q' ih =>
    intro k hk hw hnd hh hl havoid
    have ha : a = ((0 : Int), (k : Int)) := by
      simp only [List.head?_cons, Option.some.injEq] at hh
      exact hh
    subst ha
    by_cases hk5 : k = 5
    · subst hk5
      cases Q' with
      | nil => decide
      | cons c Q'' =>
        have hc : c ∈ c5Grid.neighborsPos ((0 : Int), ((5 : Nat) : Int)) :=
          (List.chain'_cons.mp hw).1
        have hall := (by decide :
          ∀ z ∈ c5Grid.neighborsPos ((0 : Int), ((5 : Nat) : Int)),
            z = ((0 : Int), (4 : Int)))
        have hl' : (c :: Q'').getLast? = some ((0 : Int), (5 : Int)) := by
          rw [List.getLast?_cons_cons] at hl
          exact hl
        have hmem : ((0 : Int), (5 : Int)) ∈ c :: Q'' :=
          List.mem_of_mem_getLast? (by rw [hl']; rfl)
        exact absurd hmem (by
          have h5 : ((0 : Int), (5 : Int)) = ((0 : Int), ((5 : Nat) : Int)) := by decide
          rw [h5]
          exact (List.nodup_cons.mp hnd).1)
    · cases Q' with
      | nil =>
        have h5 : ((k : Nat) : Int) = 5 := by
          simp only [List.getLast?_singleton, Option.some.injEq, Prod.mk.injEq] at hl
          exact hl.2
        omega
      | cons c Q'' =>
        have hk4 : k ≤ 4 := by omega
        have hc : c ∈ c5Grid.neighborsPos ((0 : Int), (k : Int)) :=
          (List.chain'_cons.mp hw).1
        have hstep : c = ((0 : Int), ((k + 1 : Nat) : Int)) := by
          interval_cases k
          · have hall := (by decide :
              ∀ z ∈ c5Grid.neighborsPos ((0 : Int), ((0 : Nat) : Int)),
                z = ((0 : Int), (1 : Int)))
            rw [hall c hc]
            decide
          · have hall := (by decide :
              ∀ z ∈ c5Grid.neighborsPos ((0 : Int), ((1 : Nat) : Int)),
                z = ((0 : Int), (2 : Int)) ∨ z = ((0 : Int), (0 : Int)))
            rcases hall c hc with h | h
            · rw [h]
              decide
            · subst h
              exact absurd (List.mem_cons_of_mem _ (List.mem_cons_self _ Q''))
                (havoid 0 (by omega))
          · have hall := (by decide :
              ∀ z ∈ c5Grid.neighborsPos ((0 : Int), ((2 : Nat) : Int)),
                z = ((0 : Int), (3 : Int)) ∨ z = ((0 : Int), (1 : Int)))
            rcases hall c hc with h | h
            · rw [h]
              decide
            · subst h
              exact absurd (List.mem_cons_of_mem _ (List.mem_cons_self _ Q''))
                (havoid 1 (by omega))
          · have hall := (by decide :
              ∀ z ∈ c5Grid.neighborsPos ((0 : Int), ((3 : Nat) : Int)),
                z = ((0 : Int), (4 : Int)) ∨ z = ((0 : Int), (2 : Int)))
            rcases hall c hc with h | h
            · rw [h]
              decide
            · subst h
              exact absurd (List.mem_cons_of_mem _ (List.mem_cons_self _ Q''))
                (havoid 2 (by omega))
          · have hall := (by decide :
              ∀ z ∈ c5Grid.neighborsPos ((0 : Int), ((4 : Nat) : Int)),
                z = ((0 : Int), (5 : Int)) ∨ z = ((0 : Int), (3 : Int)))
            rcases hall c hc with h | h
            · rw [h]
              decide
            · subst h
              exact absurd (List.mem_cons_of_mem _ (List.mem_cons_self _ Q''))
                (havoid 3 (by omega))
        subst hstep
        have hw' : IsWalk c5Grid (((0 : Int), ((k + 1 : Nat) : Int)) :: Q'') :=
          (List.chain'_cons.mp hw).2
        have hnd' : (((0 : Int), ((k + 1 : Nat) : Int)) :: Q'').Nodup :=
          (List.nodup_cons.mp hnd).2
        have hl' : (((0 : Int), ((k + 1 : Nat) : Int)) :: Q'').getLast? =
            some ((0 : Int), (5 : Int)) := by
          rw [List.getLast?_cons_cons] at hl
          exact hl
        have havoid' : ∀ j : Nat, j < k + 1 →
            ((0 : Int), (j : Int)) ∉ ((0 : Int), ((k + 1 : Nat) : Int)) :: Q'' := by
          intro j hj hmem
          rcases Nat.lt_succ_iff_lt_or_eq.mp hj with hj' | rfl
          · exact havoid j hj' (List.mem_cons_of_mem _ hmem)
          · rcases List.mem_cons.mp hmem with h | h
            · have hsnd := congrArg Prod.snd h
              simp only at hsnd
              omega
            · exact (List.nodup_cons.mp hnd).1 (List.mem_cons_of_mem _ h)
        have hQ' := ih (k + 1) (by omega) hw' hnd' rfl hl' havoid'
        have hcor : corridorFrom k = ((0 : Int), (k : Int)) :: corridorFrom (k + 1) := by
          unfold corridorFrom
          rw [show 6 - k = (6 - (k + 1)) + 1 from by omega]
          rfl
        rw [hcor, hQ']

theorem corridor16_unique :
    ∀ Q, IsSimplePath c5Grid Q c5Grid.start_pos c5Grid.target_pos →
      Q = corridorFrom 0 := by
  intro Q hQ
  obtain ⟨hw, hnd, hh, hl⟩ := hQ
  refine corridor_unique_aux Q 0 (by omega) hw hnd ?_ ?_ ?_
  · rw [show some ((0 : Int), ((0 : Nat) : Int)) = some c5Grid.start_pos from by decide]
    exact hh
  · rw [show some ((0 : Int), (5 : Int)) = some c5Grid.target_pos from by decide]
    exact hl
  · intro j hj
    exact absurd hj (Nat.not_lt_zero j)

theorem dls_limit_three_empty_iddfs_succeeds_witness :
    (∃ snaps last, dlsSolve c5Grid 3 (7 * ((openCells c5Grid).length + 1) + 2) =
        some snaps ∧
      snaps.length ≤ (openCells c5Grid).length ∧
      snaps.getLast? = some last ∧ last.path = some []) ∧
    (∀ max_depth, 5 ≤ max_depth →
      ∃ snaps last p,
        iddfsSolve c5Grid max_depth (7 * ((openCells c5Grid).length + 1) + 2) =
          some snaps ∧
        snaps.getLast? = some last ∧ last.path = some p ∧ p ≠ []) :=
  dls_limit_three_empty_iddfs_succeeds c5Grid
    (coherent_of_coherentB _ (by decide)) (by decide) (by decide)
    (corridorFrom 0) (by decide)
    ⟨by
        rw [show corridorFrom 0 = [((0 : Int), (0 : Int)), ((0 : Int), (1 : Int)),
          ((0 : Int), (2 : Int)), ((0 : Int), (3 : Int)), ((0 : Int), (4 : Int)),
          ((0 : Int), (5 : Int))] from by decide]
        exact List.chain'_cons.mpr ⟨by decide, List.chain'_cons.mpr ⟨by decide,
          List.chain'_cons.mpr ⟨by decide, List.chain'_cons.mpr ⟨by decide,
          List.chain'_cons.mpr ⟨by decide, List.chain'_singleton _⟩⟩⟩⟩⟩,
      by decide, by decide, by decide⟩
    corridor16_unique

end SearchSim
